import Mathlib

/-!
# Temperature-log ingestion (`make_tuple.C`)

A shallow embedding of the ROOT macro `make_tuple.C` of the repository.  Strings are lists of
characters (`Str`); the character classes used by the code (`std::isspace`, the
regex classes `\s`, `\d`, `[0-9]`) are those of the "C" locale.  A multi-byte
UTF-8 sequence contains no ASCII byte, so classifying characters instead of
bytes gives the same results.

Services that are not part of the repository are parameters of the model:
* the ROOT system object `gSystem` (`TSystem`), the `glob(3)` facility and the
  file system (`World`);
* the float conversion `std::stof` and the float value NaN (`stof`, `nan`).
-/

namespace MakeTuple

/-- A `std::string`, as the list of its characters. -/
abbrev Str := List Char

/-! ## Character classes and string primitives -/

/-- `std::isspace` in the "C" locale: space, `\t`, `\n`, `\v`, `\f`, `\r`. -/
def isspace (c : Char) : Bool :=
  c == ' ' || c == '\t' || c == '\n' || c == '\x0b' || c == '\x0c' || c == '\r'

/-- The decimal digits `0`..`9` (regex `\d` and `[0-9]`). -/
def isdigit (c : Char) : Bool := decide ('0' ≤ c) && decide (c ≤ '9')

/-- The value of a decimal digit character. -/
def digitVal (c : Char) : Nat := c.toNat - 48

/-- The number denoted by a string of decimal digits. -/
def decval (ds : Str) : Nat := ds.foldl (fun acc c => 10 * acc + digitVal c) 0

/-- The conversion `s.c_str()`: a C string ends at the first NUL character. -/
def c_str (s : Str) : Str := s.takeWhile (fun c => c != '\x00')

/-- Position of the first `c` in `s`, if any. -/
def find_char (c : Char) : Str → Option Nat
  | [] => none
  | x :: xs => if x = c then some 0 else (find_char c xs).map (· + 1)

/-- Model of `s.find(c, pos)`: `none` is `std::string::npos`. -/
def str_find (s : Str) (c : Char) (pos : Nat) : Option Nat :=
  (find_char c (s.drop pos)).map (· + pos)

/-- Model of `s.substr(pos, len)`. -/
def substr (s : Str) (pos len : Nat) : Str := (s.drop pos).take len

/-- Model of `trim_copy` (make_tuple.C:43): `a` skips the leading whitespace,
`b` walks back over the trailing whitespace of what remains. -/
def trim_copy (s : Str) : Str := (s.dropWhile isspace).rdropWhile isspace

/-- Model of `has_glob` (make_tuple.C:52). -/
def has_glob (s : Str) : Bool := s.contains '*' || s.contains '?' || s.contains '['

/-- The loop of `split_commas` (make_tuple.C:61-68) from index `i`; the first
argument bounds the number of iterations. -/
def split_commas_loop (s : Str) : Nat → Nat → List Str
  | 0, _ => []
  | fuel + 1, i =>
    if i < s.length then
      match str_find s ',' i with
      | none =>
        let tok := trim_copy (s.drop i)
        if tok ≠ [] then [tok] else []
      | some j =>
        let tok := trim_copy (substr s i (j - i))
        (if tok ≠ [] then [tok] else []) ++ split_commas_loop s fuel (j + 1)
    else []

/-- Model of `split_commas` (make_tuple.C:59).  Every iteration advances `i`,
so `s.length + 1` iterations are never exceeded. -/
def split_commas (s : Str) : List Str := split_commas_loop s (s.length + 1) 0

/-- The pieces of `s` between its commas: splitting on `,` a string with `n`
commas gives `n + 1` pieces. -/
def comma_pieces : Str → List Str
  | [] => [[]]
  | c :: t =>
    if c = ',' then [] :: comma_pieces t
    else
      match comma_pieces t with
      | [] => [[c]]
      | p :: ps => (c :: p) :: ps

/-- The input list as the specification words it: split on `,`, trim the
whitespace around each token, drop the empty tokens. -/
def split_trim_drop (s : Str) : List Str :=
  ((comma_pieces s).map trim_copy).filter (fun t => decide (t ≠ []))

/-- Model of `expand_one_token` (make_tuple.C:77).  `glob tok` is the result of
`glob(3)` on `tok.c_str()`: `some paths` when it returns 0, `none` otherwise;
each path is a C string. -/
def expand_one_token (glob : Str → Option (List Str)) (token : Str) : List Str :=
  if has_glob token then
    match glob (c_str token) with
    | some paths => paths.map c_str
    | none => []
  else [token]

/-- Model of `expand_inputs` (make_tuple.C:95). -/
def expand_inputs (glob : Str → Option (List Str)) (inputs : Str) : List Str :=
  (split_commas inputs).foldl (fun all tok => all ++ expand_one_token glob tok) []

/-- Model of `join_path` (make_tuple.C:107). -/
def join_path (a b : Str) : Str :=
  match a.getLast? with
  | none => b
  | some last => if last = '/' ∨ last = '\\' then a ++ b else a ++ '/' :: b

/-! ## Output naming -/

/-- The methods of ROOT's `TSystem` used by the macro.  `BaseName` returns
`none` for a null pointer; `mkdir` returns `true` for the return code 0. -/
structure TSystem where
  BaseName : Str → Option Str
  ExpandPathName : Str → Str
  OpenDirectory : Str → Bool
  mkdir : Str → Bool

/-- Position of the last character of `s` that satisfies `p`
(`find_last_of`). -/
def find_last_of (p : Char → Bool) : Str → Option Nat
  | [] => none
  | x :: xs =>
    match find_last_of p xs with
    | some k => some (k + 1)
    | none => if p x then some 0 else none

/-- Model of `basename_of` (make_tuple.C:118); `gSystem = none` is the null
pointer, for which the code falls back on `find_last_of("/\\")`. -/
def basename_of (gSystem : Option TSystem) (path : Str) : Str :=
  match gSystem with
  | some sys =>
    match sys.BaseName (c_str path) with
    | some b => b
    | none => path
  | none =>
    match find_last_of (fun c => c == '/' || c == '\\') path with
    | none => path
    | some p => path.drop (p + 1)

/-- Model of `extract_date_yyyymmdd` (make_tuple.C:130): the anchored regex
`^([0-9]{8})`. -/
def extract_date_yyyymmdd (filename_base : Str) : Str :=
  if 8 ≤ filename_base.length ∧ (filename_base.take 8).all isdigit then filename_base.take 8
  else []

/-- One iteration of the loop of `compute_span_from_filenames`
(make_tuple.C:145-149). -/
def span_step (gSystem : Option TSystem) (acc : Str × Str) (f : Str) : Str × Str :=
  let d := extract_date_yyyymmdd (basename_of gSystem f)
  if d = [] then acc
  else
    let dmin := if acc.1 = [] ∨ d < acc.1 then d else acc.1
    let dmax := if acc.2 = [] ∨ d > acc.2 then d else acc.2
    (dmin, dmax)

/-- Model of `compute_span_from_filenames` (make_tuple.C:141). -/
def compute_span_from_filenames (gSystem : Option TSystem) (files : List Str) : Str × Str :=
  files.foldl (span_step gSystem) ([], [])

/-- Model of `pick_outfile_name` (make_tuple.C:162); `outfile_arg = none` is the
null pointer. -/
def pick_outfile_name (gSystem : Option TSystem) (files : List Str)
    (outfile_arg : Option Str) : Str :=
  match outfile_arg with
  | some o =>
    if 0 < o.length ∧ o ≠ "auto".toList then basename_of gSystem o
    else
      let span := compute_span_from_filenames gSystem files
      if span.1 = [] then "temps.root".toList
      else if span.1 = span.2 then "temps_".toList ++ span.1 ++ ".root".toList
      else "temps_".toList ++ span.1 ++ "_".toList ++ span.2 ++ ".root".toList
  | none =>
    let span := compute_span_from_filenames gSystem files
    if span.1 = [] then "temps.root".toList
    else if span.1 = span.2 then "temps_".toList ++ span.1 ++ ".root".toList
    else "temps_".toList ++ span.1 ++ "_".toList ++ span.2 ++ ".root".toList

/-- A basename starts with eight digits. -/
def starts_with_date (b : Str) : Prop := 8 ≤ b.length ∧ ∀ c ∈ b.take 8, isdigit c = true

instance (b : Str) : Decidable (starts_with_date b) := by
  unfold starts_with_date
  exact inferInstance

/-- The eight-digit beginnings of the basenames of `files` that start with
eight digits, in the order of the files. -/
def leading_dates (gSystem : Option TSystem) (files : List Str) : List Str :=
  ((files.map (basename_of gSystem)).filter (fun b => decide (starts_with_date b))).map
    (List.take 8)

/-- What the loop of `compute_span_from_filenames` maintains: `acc` holds the
least and the greatest of the dates `seen` so far, and is empty when there is
none. -/
def span_inv (acc : Str × Str) (seen : List Str) : Prop :=
  (∀ d ∈ seen, d ≠ []) ∧ (seen = [] → acc = ([], [])) ∧
  (seen ≠ [] → acc.1 ∈ seen ∧ acc.2 ∈ seen ∧ ∀ d ∈ seen, acc.1 ≤ d ∧ d ≤ acc.2)

/-- The base directory `kBaseDir` (make_tuple.C:37). -/
def kBaseDir : Str := "/Users/claudio/Documents/1_todo/Lab/Termometros/Root".toList

/-- The subdirectory `kSubDir` (make_tuple.C:38). -/
def kSubDir : Str := "temp_root".toList

/-- Model of `ensure_output_dir` (make_tuple.C:219); the empty string is the
error signal. -/
def ensure_output_dir (sys : TSystem) : Str :=
  let exp := sys.ExpandPathName (join_path kBaseDir kSubDir)
  if sys.OpenDirectory exp then exp
  else if sys.mkdir exp then exp
  else []

/-! ## Header parser -/

/-- Model of `MetaHeader` (make_tuple.C:177). -/
structure MetaHeader where
  inicio : Str := []
  duracion_min : Int := -1
  present : Bool := false
deriving DecidableEq, Repr

/-- Model of `std::stoi` on a string of decimal digits: `none` is the exception
`std::out_of_range`, thrown when the value exceeds `INT_MAX`. -/
def stoi (ds : Str) : Option Int :=
  if decval ds ≤ 2147483647 then some (decval ds) else none

/-- Removes the literal `lit` from the front of `s`, if it is there. -/
def strip_lit : Str → Str → Option Str
  | [], s => some s
  | _ :: _, [] => none
  | a :: lit, c :: s => if a = c then strip_lit lit s else none

/-- The class `[0-9\-]` of the header regex. -/
def isDateCh (c : Char) : Bool := isdigit c || c == '-'

/-- The class `[0-9:]` of the header regex. -/
def isTimeCh (c : Char) : Bool := isdigit c || c == ':'

/-- A match of the header regex
`#\s*Inicio:\s*([0-9\-]+\s+[0-9:]+)\s*;\s*Duracion:\s*([0-9]+)`
(make_tuple.C:196) starting at the head of `s`; the result is the pair of the
two captures.  Each greedy quantifier is followed by an atom that accepts none
of the characters it repeats, so only its longest repetition can lead to a
match. -/
def reh_match_here (s : Str) : Option (Str × Str) :=
  match s with
  | '#' :: r =>
    match strip_lit "Inicio:".toList (r.dropWhile isspace) with
    | none => none
    | some r1 =>
      let r2 := r1.dropWhile isspace
      let d := r2.takeWhile isDateCh
      let r3 := r2.dropWhile isDateCh
      let ws := r3.takeWhile isspace
      let r4 := r3.dropWhile isspace
      let t := r4.takeWhile isTimeCh
      let r5 := (r4.dropWhile isTimeCh).dropWhile isspace
      if d = [] ∨ ws = [] ∨ t = [] then none
      else
        match r5 with
        | ';' :: r6 =>
          match strip_lit "Duracion:".toList (r6.dropWhile isspace) with
          | none => none
          | some r7 =>
            let n := (r7.dropWhile isspace).takeWhile isdigit
            if n = [] then none else some (d ++ ws ++ t, n)
        | _ => none
  | _ => none

/-- Model of `std::regex_search(line, m, reh)`: the match at the leftmost
position that has one. -/
def reh_search : Str → Option (Str × Str)
  | [] => none
  | c :: t =>
    match reh_match_here (c :: t) with
    | some m => some m
    | none => reh_search t

/-- Model of `read_header_if_any` (make_tuple.C:190) on the lines that
`std::getline` will deliver.  The result is the header and the lines left to
read; `none` is the exception thrown by `std::stoi`. -/
def read_header_if_any (lines : List Str) : Option (MetaHeader × List Str) :=
  match lines with
  | [] => some ({}, [])
  | line :: rest =>
    if line.head? = some '#' then
      match reh_search line with
      | some (g1, g2) =>
        match stoi g2 with
        | some n => some ({ inicio := g1, duracion_min := n, present := true }, rest)
        | none => none
      | none => some ({}, rest)
    else some ({}, line :: rest)

/-! ## Line parser -/

/-- The number of sensors `NSENS` (make_tuple.C:260). -/
def NSENS : Nat := 19

/-- The branch variables of the tree (make_tuple.C:288-291), which are also the
columns of an emitted row.  `S` lists the columns `S1..S19`: the array element
`S[k]` of the source is the entry at position `k - 1`. -/
structure Row (F : Type) where
  year : Nat
  month : Nat
  day : Nat
  hour : Nat
  minute : Nat
  second : Nat
  tsec : Nat
  file_id : Int
  S : List F
deriving DecidableEq, Repr

/-- One `%u` conversion of `sscanf`: leading whitespace is skipped, a sign is
accepted, at least one digit is required.  The result is the value stored in
the `unsigned int` and the unread input.  The conversion goes through a 64-bit
`strtoul` (saturating at `2^64 - 1`, negating modulo `2^64`) whose result is
truncated to 32 bits. -/
def scan_u (s : Str) : Option (Nat × Str) :=
  let s1 := s.dropWhile isspace
  let neg := s1.head? = some '-'
  let s2 := if s1.head? = some '-' ∨ s1.head? = some '+' then s1.tail else s1
  let ds := s2.takeWhile isdigit
  if ds = [] then none
  else
    let n := decval ds
    let v64 := if 2 ^ 64 ≤ n then 2 ^ 64 - 1 else if neg then (2 ^ 64 - n) % 2 ^ 64 else n
    some (v64 % 2 ^ 32, s2.dropWhile isdigit)

/-- Model of `sscanf(s.c_str(), "%u<sep>%u<sep>%u", ...)`: the list of the
values converted before the first failure (the return value is its length). -/
def sscanf_u3 (sep : Char) (s : Str) : List Nat :=
  match scan_u (c_str s) with
  | none => []
  | some (a, r1) =>
    match r1 with
    | [] => [a]
    | c1 :: r1' =>
      if c1 = sep then
        match scan_u r1' with
        | none => [a]
        | some (b, r2) =>
          match r2 with
          | [] => [a, b]
          | c2 :: r2' =>
            if c2 = sep then
              match scan_u r2' with
              | none => [a, b]
              | some (c, _) => [a, b, c]
            else [a, b]
      else [a]

/-- The optional group `(?:\.\d+)?` of the sensor regex at the head of `r`:
the text it matches and the text after it. -/
def reS_frac (r : Str) : Str × Str :=
  match r with
  | '.' :: r6 =>
    if r6.takeWhile isdigit = [] then ([], r)
    else ('.' :: r6.takeWhile isdigit, r6.dropWhile isdigit)
  | _ => ([], r)

/-- The capture `([-+]?\d+(?:\.\d+)?)` of the sensor regex at the head of
`r`: the value literal and the text after it. -/
def reS_value (r : Str) : Option (Str × Str) :=
  let sign := if r.head? = some '-' ∨ r.head? = some '+' then r.take 1 else []
  let r4 := if r.head? = some '-' ∨ r.head? = some '+' then r.tail else r
  let ip := r4.takeWhile isdigit
  if ip = [] then none
  else some (sign ++ ip ++ (reS_frac (r4.dropWhile isdigit)).1, (reS_frac (r4.dropWhile isdigit)).2)

/-- A match of the sensor regex `S(\d+):\s*([-+]?\d+(?:\.\d+)?)`
(make_tuple.C:310) starting at the head of `s`: the captured index digits, the
captured value literal and the text after the match.  As in the header regex,
only the longest repetition of each quantifier can lead to a match. -/
def reS_match_here (s : Str) : Option (Str × Str × Str) :=
  match s with
  | 'S' :: r =>
    let idx := r.takeWhile isdigit
    if idx = [] then none
    else
      match r.dropWhile isdigit with
      | ':' :: r2 =>
        match reS_value (r2.dropWhile isspace) with
        | some (val, rest) => some (idx, val, rest)
        | none => none
      | _ => none
  | _ => none

/-- The `std::sregex_iterator` loop over the payload: the matches from left to
right, each search starting where the previous match ended.  The first
argument bounds the number of search positions. -/
def reS_scan : Nat → Str → List (Str × Str)
  | 0, _ => []
  | _ + 1, [] => []
  | fuel + 1, c :: t =>
    match reS_match_here (c :: t) with
    | some (idx, val, rest) => (idx, val) :: reS_scan fuel rest
    | none => reS_scan fuel t

/-- All matches of the sensor regex in `rest`, as pairs (index digits, value
literal).  A match is never empty, so `rest.length` search positions suffice. -/
def reS_matches (rest : Str) : List (Str × Str) := reS_scan (rest.length + 1) rest

/-- The body of the loop over the matches (make_tuple.C:349-352); `none` is an
exception thrown by `std::stoi` or `std::stof`. -/
def assign_sensors {F : Type} (stof : Str → Option F) : List (Str × Str) → List F → Option (List F)
  | [], S => some S
  | (idx, val) :: ms, S =>
    match stoi idx with
    | none => none
    | some k =>
      if 1 ≤ k ∧ k ≤ (NSENS : Int) then
        match stof val with
        | none => none
        | some x => assign_sensors stof ms (S.set (k.toNat - 1) x)
      else assign_sensors stof ms S

/-- One iteration of the loop over the matches (make_tuple.C:350-351). -/
def sensor_step {F : Type} (stof : Str → Option F) (m : Str × Str) (S : List F) :
    Option (List F) :=
  match stoi m.1 with
  | none => none
  | some k =>
    if 1 ≤ k ∧ k ≤ (NSENS : Int) then
      match stof m.2 with
      | none => none
      | some x => some (S.set (k.toNat - 1) x)
    else some S

/-- Stores the values converted by the date `sscanf` into the variables. -/
def set_date {F : Type} (v : Row F) : List Nat → Row F
  | [] => v
  | [a] => { v with year := a }
  | [a, b] => { v with year := a, month := b }
  | a :: b :: c :: _ => { v with year := a, month := b, day := c }

/-- Stores the values converted by the time `sscanf` into the variables. -/
def set_time {F : Type} (v : Row F) : List Nat → Row F
  | [] => v
  | [a] => { v with hour := a }
  | [a, b] => { v with hour := a, minute := b }
  | a :: b :: c :: _ => { v with hour := a, minute := b, second := c }

/-- The statement `if(... line.back()=='.' || line.back()==',') line.pop_back()`
(make_tuple.C:334). -/
def strip_trailing (line : Str) : Str :=
  if line.getLast? = some '.' ∨ line.getLast? = some ',' then line.dropLast else line

/-- What one iteration of the line loop does: `skip` is a `continue`, `fill` a
`T.Fill()` of the variables, `throw` an exception leaving the macro. -/
inductive Step (F : Type) where
  | skip (v : Row F)
  | fill (v : Row F)
  | throw
deriving DecidableEq, Repr

/-- One iteration of the line loop (make_tuple.C:331-355) on the variables `v`
and the line `raw` returned by `std::getline`. -/
def line_step {F : Type} (nan : F) (stof : Str → Option F) (v : Row F) (raw : Str) : Step F :=
  let line := trim_copy raw
  if line = [] ∨ line.head? = some '#' then .skip v
  else
    let line := strip_trailing line
    let v := { v with S := List.replicate NSENS nan }
    match str_find line ',' 0 with
    | none => .skip v
    | some p1 =>
      match str_find line ',' (p1 + 1) with
      | none => .skip v
      | some p2 =>
        let date := trim_copy (substr line 0 p1)
        let time := trim_copy (substr line (p1 + 1) (p2 - (p1 + 1)))
        let ds := sscanf_u3 '-' date
        let v := set_date v ds
        if ds.length ≠ 3 then .skip v
        else
          let ts := sscanf_u3 ':' time
          let v := set_time v ts
          if ts.length ≠ 3 then .skip v
          else
            let v := { v with tsec := (v.hour * 3600 + v.minute * 60 + v.second) % 2 ^ 32 }
            let rest := line.drop (p2 + 1)
            match assign_sensors stof (reS_matches rest) v.S with
            | none => .throw
            | some S => .fill { v with S := S }

/-- The outcome of the line parser on one line. -/
inductive Outcome (F : Type) where
  | skipped
  | row (r : Row F)
  | aborted
deriving DecidableEq, Repr

/-- The outcome of the line parser on `raw`, the variables being `v` before
the line is read. -/
def parse_line {F : Type} (nan : F) (stof : Str → Option F) (v : Row F) (raw : Str) : Outcome F :=
  match line_step nan stof v raw with
  | .skip _ => .skipped
  | .fill r => .row r
  | .throw => .aborted

/-- The loop `while(std::getline(in,line))` (make_tuple.C:331): the variables
after the last line and the rows filled, or `none` when an exception left the
macro. -/
def read_lines {F : Type} (nan : F) (stof : Str → Option F) :
    Row F → List Str → Option (Row F × List (Row F))
  | v, [] => some (v, [])
  | v, l :: ls =>
    match line_step nan stof v l with
    | .throw => none
    | .skip v1 => read_lines nan stof v1 ls
    | .fill v1 =>
      match read_lines nan stof v1 ls with
      | none => none
      | some (vf, rs) => some (vf, v1 :: rs)

/-- The date field, the time field and the payload of a cleaned line
(make_tuple.C:338-348); `none` when it has fewer than two commas. -/
def split_fields (line : Str) : Option (Str × Str × Str) :=
  match str_find line ',' 0 with
  | none => none
  | some p1 =>
    match str_find line ',' (p1 + 1) with
    | none => none
    | some p2 =>
      some (trim_copy (substr line 0 p1), trim_copy (substr line (p1 + 1) (p2 - (p1 + 1))),
            line.drop (p2 + 1))

/-- The date field, the time field and the payload of a line that passes the
tests of make_tuple.C:333-339; `none` when the line is skipped there. -/
def line_fields (raw : Str) : Option (Str × Str × Str) :=
  if trim_copy raw = [] ∨ (trim_copy raw).head? = some '#' then none
  else split_fields (strip_trailing (trim_copy raw))

/-- The outcome of make_tuple.C:343-354 on the three fields of a line, for the
file index `fid`. -/
def fields_outcome {F : Type} (nan : F) (stof : Str → Option F) (fid : Int)
    (date time rest : Str) : Outcome F :=
  match sscanf_u3 '-' date with
  | [y, mo, d] =>
    match sscanf_u3 ':' time with
    | [h, mi, s] =>
      match assign_sensors stof (reS_matches rest) (List.replicate NSENS nan) with
      | none => .aborted
      | some S => .row ⟨y, mo, d, h, mi, s, (h * 3600 + mi * 60 + s) % 2 ^ 32, fid, S⟩
    | _ => .skipped
  | _ => .skipped

/-- A stand-in for the `float` type, on which the model can be evaluated: NaN,
or the float denoted by a literal.  Its `stof` never throws. -/
inductive Lit where
  | nan
  | val (literal : Str)
deriving DecidableEq, Repr

/-- The conversion of the stand-in `Lit`. -/
def Lit.stof (s : Str) : Option Lit := some (Lit.val s)

/-- Some values for the variables before the first line is read. -/
def Lit.vars0 : Row Lit := ⟨0, 0, 0, 0, 0, 0, 0, 0, []⟩

/-- A sensor field `S<i>: <v>` as it is written in a line: the blanks before
it, the index digits, the blanks after the colon, and the sign, the integer
digits and the optional fraction digits of the decimal literal `<v>`. -/
structure Field where
  pad : Str
  idx : Str
  gap : Str
  sign : Str
  ip : Str
  fp : Option Str
deriving DecidableEq, Repr

/-- The parts of a sensor field are what they are said to be. -/
def Field.wf (f : Field) : Prop :=
  (∀ c ∈ f.pad, isspace c = true) ∧ f.idx ≠ [] ∧ (∀ c ∈ f.idx, isdigit c = true) ∧
  (∀ c ∈ f.gap, isspace c = true) ∧ (f.sign = [] ∨ f.sign = ['-'] ∨ f.sign = ['+']) ∧
  f.ip ≠ [] ∧ (∀ c ∈ f.ip, isdigit c = true) ∧
  (∀ d, f.fp = some d → d ≠ [] ∧ ∀ c ∈ d, isdigit c = true)

/-- The fraction of a sensor field, with its point. -/
def Field.frac (f : Field) : Str :=
  match f.fp with
  | none => []
  | some d => '.' :: d

/-- The decimal literal `<v>` of a sensor field. -/
def Field.value (f : Field) : Str := f.sign ++ f.ip ++ f.frac

/-- The text of a sensor field. -/
def Field.text (f : Field) : Str := f.pad ++ 'S' :: f.idx ++ ':' :: f.gap ++ f.value

/-- The comma-separated list of the given sensor fields. -/
def fields_text : List Field → Str
  | [] => []
  | [f] => f.text
  | f :: g :: fs => f.text ++ ',' :: fields_text (g :: fs)

/-- The text `rest` contains a sensor field `S<i>: <number>` for the index `i`:
somewhere in it stand `S`, digits that denote `i`, `:`, optional whitespace, an
optional sign and a digit. -/
def has_sensor_field (i : Nat) (rest : Str) : Prop :=
  ∃ (before idx ws sg : Str) (d : Char) (after : Str),
    rest = before ++ ('S' :: idx ++ ':' :: ws ++ sg ++ d :: after) ∧
    idx ≠ [] ∧ (∀ c ∈ idx, isdigit c = true) ∧ decval idx = i ∧
    (∀ c ∈ ws, isspace c = true) ∧ (sg = [] ∨ sg = ['-'] ∨ sg = ['+']) ∧ isdigit d = true

/-- What may follow a sensor field in a list: the end of the text or a
comma. -/
def field_end (tail : Str) : Prop := tail = [] ∨ tail.head? = some ','

/-! ## Driver -/

/-- An object stored in a side-table: a `TNamed` (name, title) or a
`TParameter<int>` (name, value). -/
inductive TObj where
  | named (name title : Str)
  | param (name : Str) (val : Int)
deriving DecidableEq, Repr

/-- Model of `Form("<pre>%d", n)`. -/
def Form_d (pre : Str) (n : Int) : Str := pre ++ (toString n).toList

/-- What the macro has accumulated: the rows of the tree `temps` and the two
lists written as `files` and `meta`. -/
structure Tables (F : Type) where
  rows : List (Row F) := []
  files_list : List TObj := []
  meta_list : List TObj := []
deriving DecidableEq, Repr

/-- The services outside the macro: ROOT's `gSystem`, `glob(3)`, the opening
of an input file (`none` when the stream cannot be opened, else its lines) and
the creation of the output file. -/
structure World where
  gSystem : TSystem
  glob : Str → Option (List Str)
  open_file : Str → Option (List Str)
  create_ok : Str → Bool

/-- The loop over the files (make_tuple.C:313-356), from file index `i`; `none`
when an exception left the macro.  The index of a file is below `2^31` for
every list of paths that a process can hold, so `static_cast<int>(i)` is `i`. -/
def file_loop {F : Type} (w : World) (nan : F) (stof : Str → Option F) :
    Nat → List Str → Row F → Tables F → Option (Tables F)
  | _, [], _, t => some t
  | i, fname :: more, v, t =>
    let v := { v with file_id := (i : Int) }
    let t := { t with files_list := t.files_list ++ [TObj.named (Form_d "file_".toList i) (c_str fname)] }
    match w.open_file (c_str fname) with
    | none => file_loop w nan stof (i + 1) more v t
    | some lines =>
      match read_header_if_any lines with
      | none => none
      | some (mh, body) =>
        let t := if mh.present then
            { t with meta_list := t.meta_list ++
                [TObj.named (Form_d "Inicio_".toList i) (c_str mh.inicio),
                 TObj.param (Form_d "Duracion_min_".toList i) mh.duracion_min] }
          else t
        match read_lines nan stof v body with
        | none => none
        | some (v1, rs) => file_loop w nan stof (i + 1) more v1 { t with rows := t.rows ++ rs }

/-- The discovered paths (make_tuple.C:263): `expand_inputs(inputs ? inputs : "")`. -/
def input_files (glob : Str → Option (List Str)) (inputs : Option Str) : List Str :=
  expand_inputs glob (match inputs with | some s => c_str s | none => [])

/-- The entries `file_<i>` of the paths `files`, numbered from `i`. -/
def file_entries : Nat → List Str → List TObj
  | _, [] => []
  | i, f :: fs => TObj.named ("file_".toList ++ (Nat.repr i).toList) f :: file_entries (i + 1) fs

/-- A stand-in for `BaseName` of ROOT's `TSystem`, for evaluating the model:
the text after the last `/` of the path. -/
def Lit.BaseName (p : Str) : Option Str :=
  match find_last_of (fun c => c == '/') p with
  | none => some p
  | some k => some (p.drop (k + 1))

/-- A world for evaluating the model: `BaseName` is the stand-in
`Lit.BaseName`, the output directory exists, the file `ok.TXT` holds a header,
a data line and a line of garbage, and no other file can be opened. -/
def Lit.world : World where
  gSystem :=
    { BaseName := Lit.BaseName
      ExpandPathName := fun p => p
      OpenDirectory := fun _ => true
      mkdir := fun _ => true }
  glob := fun _ => none
  open_file := fun p =>
    if p = "ok.TXT".toList then
      some ["# Inicio: 2025-08-19 15:22:22 ; Duracion: 60".toList,
        "2025-08-19,15:22:22, Unidad: C, S1: 20.5, S2: 21.0.".toList, "garbage".toList]
    else none
  create_ok := fun _ => true

/-- How a run of the macro ends. -/
inductive Run (F : Type) where
  | no_inputs
  | no_outdir
  | create_failed
  | aborted
  | written (outpath : Str) (t : Tables F)
deriving DecidableEq, Repr

/-- Model of `make_tuple` (make_tuple.C:257).  `inputs` and `outfile` are the
C strings passed (`none` is a null pointer); `v0` holds the values of the
uninitialised variables. -/
def make_tuple {F : Type} (w : World) (nan : F) (stof : Str → Option F) (v0 : Row F)
    (inputs outfile : Option Str) : Run F :=
  let files := input_files w.glob inputs
  if files = [] then .no_inputs
  else
    let outdir := ensure_output_dir w.gSystem
    if outdir = [] then .no_outdir
    else
      let outname := pick_outfile_name (some w.gSystem) files (outfile.map c_str)
      let outpath := join_path outdir outname
      if w.create_ok outpath = false then .create_failed
      else
        match file_loop w nan stof 0 files v0 {} with
        | none => .aborted
        | some t => .written outpath t

/-! ## What the side-tables and the tree should hold -/

/-- The name of an object of a side-table. -/
def TObj.name : TObj → Str
  | .named n _ => n
  | .param n _ => n

/-- The header of the file `f`, when the file can be opened and its header is
present. -/
def header_of (w : World) (f : Str) : Option MetaHeader :=
  match w.open_file (c_str f) with
  | none => none
  | some lines =>
    match read_header_if_any lines with
    | none => none
    | some (mh, _) => if mh.present then some mh else none

/-- The entries `Inicio_<i>` and `Duracion_min_<i>` of the files that have a
header, the files being numbered from `i`. -/
def meta_entries (w : World) : Nat → List Str → List TObj
  | _, [] => []
  | i, f :: fs =>
    (match header_of w f with
      | some mh =>
        [TObj.named ("Inicio_".toList ++ (Nat.repr i).toList) (c_str mh.inicio),
         TObj.param ("Duracion_min_".toList ++ (Nat.repr i).toList) mh.duracion_min]
      | none => []) ++ meta_entries w (i + 1) fs

/-- The row of a line of the file number `i`, when the line parser emits one.
The columns other than `file_id` do not depend on the variables, for which any
value `v` can be taken. -/
def row_of_line {F : Type} (nan : F) (stof : Str → Option F) (v : Row F) (i : Nat)
    (line : Str) : Option (Row F) :=
  match parse_line nan stof { v with file_id := (i : Int) } line with
  | .row r => some r
  | _ => none

/-- The rows of the parseable lines of the file `f`, number `i`, in the order
of the lines; none when the file cannot be opened. -/
def file_rows {F : Type} (w : World) (nan : F) (stof : Str → Option F) (v : Row F) (i : Nat)
    (f : Str) : List (Row F) :=
  match w.open_file (c_str f) with
  | none => []
  | some lines => lines.filterMap (row_of_line nan stof v i)

/-- The rows of the files `files`, numbered from `i`, file after file. -/
def all_rows {F : Type} (w : World) (nan : F) (stof : Str → Option F) (v : Row F) :
    Nat → List Str → List (Row F)
  | _, [] => []
  | i, f :: fs => file_rows w nan stof v i f ++ all_rows w nan stof v (i + 1) fs

/-- The tables that the run of `make_tuple` on the inputs `ok.TXT, missing.TXT`
writes in the world `Lit.world`. -/
def Lit.tables : Tables Lit where
  rows := [⟨2025, 8, 19, 15, 22, 22, 55342, 0,
    [Lit.val "20.5".toList, Lit.val "21.0".toList] ++ List.replicate 17 Lit.nan⟩]
  files_list := [TObj.named "file_0".toList "ok.TXT".toList,
    TObj.named "file_1".toList "missing.TXT".toList]
  meta_list := [TObj.named "Inicio_0".toList "2025-08-19 15:22:22".toList,
    TObj.param "Duracion_min_0".toList 60]

/-- The path of the output file of that run. -/
def Lit.outpath : Str := join_path (join_path kBaseDir kSubDir) "temps.root".toList

/-- A second world for evaluating the model: the file `hdr.TXT` starts with a
header line whose duration does not fit in an `int`, the file `idx.TXT` holds
a data line with a sensor index that does not fit in an `int`, and the file
`two.TXT` holds three rows of the same sensor. -/
def Lit.world2 : World where
  gSystem := Lit.world.gSystem
  glob := fun _ => none
  open_file := fun p =>
    if p = "hdr.TXT".toList then
      some ["# Inicio: 2025-08-19 15:22:22 ; Duracion: 99999999999".toList,
        "2025-08-19,15:22:22, S1: 20.5".toList]
    else if p = "idx.TXT".toList then
      some ["2025-08-19,15:22:22, S1: 20.5, S99999999999: 1.0".toList]
    else if p = "two.TXT".toList then
      some ["2025-08-20,07:00:00, S2: 1.5".toList, "# comment".toList,
        "2025-08-20,07:00:01, S2: 1.6".toList, "2025-08-20,07:00:02, S2: 1.7".toList]
    else if p = "ok.TXT".toList then Lit.world.open_file p
    else none
  create_ok := fun _ => true

/-- A third world for evaluating the model: the file `a.TXT` holds a header, two
data lines and a line of garbage, the file `b.TXT` holds three data lines. -/
def Lit.world3 : World where
  gSystem := Lit.world.gSystem
  glob := fun _ => none
  open_file := fun p =>
    if p = "a.TXT".toList then
      some ["# Inicio: 2025-08-19 15:22:22 ; Duracion: 60".toList,
        "2025-08-19,15:22:22, S1: 20.5".toList, "garbage".toList,
        "2025-08-19,15:22:23, S1: 20.6".toList]
    else if p = "b.TXT".toList then
      some ["2025-08-20,07:00:00, S2: 1.5".toList, "2025-08-20,07:00:01, S2: 1.6".toList,
        "2025-08-20,07:00:02, S2: 1.7".toList]
    else none
  create_ok := fun _ => true

/-- The rows that the run of `make_tuple` on the inputs `a.TXT, b.TXT` writes
in the world `Lit.world3`. -/
def Lit.rows3 : List (Row Lit) :=
  [⟨2025, 8, 19, 15, 22, 22, 55342, 0, Lit.val "20.5".toList :: List.replicate 18 Lit.nan⟩,
   ⟨2025, 8, 19, 15, 22, 23, 55343, 0, Lit.val "20.6".toList :: List.replicate 18 Lit.nan⟩,
   ⟨2025, 8, 20, 7, 0, 0, 25200, 1,
     Lit.nan :: Lit.val "1.5".toList :: List.replicate 17 Lit.nan⟩,
   ⟨2025, 8, 20, 7, 0, 1, 25201, 1,
     Lit.nan :: Lit.val "1.6".toList :: List.replicate 17 Lit.nan⟩,
   ⟨2025, 8, 20, 7, 0, 2, 25202, 1,
     Lit.nan :: Lit.val "1.7".toList :: List.replicate 17 Lit.nan⟩]

/-- The tables of that run. -/
def Lit.tables3 : Tables Lit where
  rows := Lit.rows3
  files_list := [TObj.named "file_0".toList "a.TXT".toList,
    TObj.named "file_1".toList "b.TXT".toList]
  meta_list := [TObj.named "Inicio_0".toList "2025-08-19 15:22:22".toList,
    TObj.param "Duracion_min_0".toList 60]

/-- The line, trimmed, does not start with `#` and is a date field and a time
field followed by a comma and nothing else: its second comma is its last
character, the text before the first comma parses as three unsigned integers
separated by `-` and the text between the two commas as three unsigned
integers separated by `:`. -/
def ends_after_time (L : Str) : Bool :=
  match split_fields (trim_copy L) with
  | some (date, time, rest) =>
    decide ((trim_copy L).getLast? = some ',') && decide ((trim_copy L).head? ≠ some '#') &&
      decide (rest = []) && decide ((sscanf_u3 '-' date).length = 3) &&
      decide ((sscanf_u3 ':' time).length = 3)
  | none => false

/-- The line contains a match of the header pattern
`# Inicio: <date> <time> ; Duracion: <int>`. -/
def matches_header (line : Str) : Prop := (reh_search line).isSome = true

instance (line : Str) : Decidable (matches_header line) := by
  unfold matches_header
  exact inferInstance

/-- The first line of `lines` that is not blank, if there is one. -/
def first_nonblank (lines : List Str) : Option Str :=
  lines.find? (fun l => decide (trim_copy l ≠ []))

/-- The conditions under which a line is a data line: trimmed, it is not
empty and does not start with `#`; and once one trailing `.` or `,` is removed
it has two commas, the text before the first parses as three unsigned integers
separated by `-` and the text between the first two as three unsigned integers
separated by `:`. -/
def is_data_line (raw : Str) : Prop :=
  trim_copy raw ≠ [] ∧ (trim_copy raw).head? ≠ some '#' ∧
  ∃ date time rest, split_fields (strip_trailing (trim_copy raw)) = some (date, time, rest) ∧
    (sscanf_u3 '-' date).length = 3 ∧ (sscanf_u3 ':' time).length = 3

end MakeTuple

namespace DrawRange

open MakeTuple

/-! ## draw_range.C: the selection by a time range -/

/-- The value of a 32-bit `int` that holds the integer `n`: the representative
of `n` modulo `2^32` in `-2^31 .. 2^31 - 1`. -/
def wrap32 (n : Int) : Int := (n + 2 ^ 31) % 2 ^ 32 - 2 ^ 31

/-- One `%d` conversion of `sscanf`: leading whitespace is skipped, a sign is
accepted, at least one digit is required.  The result is the value stored in
the `int` and the unread input.  The conversion goes through a 64-bit `strtol`
(saturating at `-2^63` and `2^63 - 1`) whose result is truncated to 32 bits. -/
def scan_d (s : Str) : Option (Int × Str) :=
  let s1 := s.dropWhile isspace
  let neg := s1.head? = some '-'
  let s2 := if s1.head? = some '-' ∨ s1.head? = some '+' then s1.tail else s1
  let ds := s2.takeWhile isdigit
  if ds = [] then none
  else
    let n : Int := decval ds
    let v64 : Int :=
      if neg then (if 2 ^ 63 < n then -(2 ^ 63) else -n)
      else (if 2 ^ 63 ≤ n then 2 ^ 63 - 1 else n)
    some (wrap32 v64, s2.dropWhile isdigit)

/-- The directives of a `sscanf` format: `%d`, an ordinary character, and
whitespace. -/
inductive Dir where
  | d
  | ch (c : Char)
  | ws
deriving DecidableEq, Repr

/-- Model of `sscanf(s, fmt, ...)` for a format of `%d` conversions: the list of
the values converted before the first failure (the return value is its
length). -/
def sscanf_d : List Dir → Str → List Int
  | [], _ => []
  | .d :: fmt, s =>
    match scan_d s with
    | none => []
    | some (v, r) => v :: sscanf_d fmt r
  | .ch c :: fmt, s =>
    match s with
    | [] => []
    | x :: r => if x = c then sscanf_d fmt r else []
  | .ws :: fmt, s => sscanf_d fmt (s.dropWhile isspace)

/-- The format `"%d-%d-%d %d:%d:%d"` (draw_range.C:19). -/
def fmt_dt : List Dir :=
  [.d, .ch '-', .d, .ch '-', .d, .ws, .d, .ch ':', .d, .ch ':', .d]

/-- Model of `parse_dt` (draw_range.C:16): `none` is the result `false`, for a
null pointer, an empty string or fewer than six conversions; otherwise the
pair `(ymd, tsec)`.  The argument is `none` for a null pointer.  The `int`
arithmetic is taken modulo `2^32`. -/
def parse_dt (dt : Option Str) : Option (Int × Int) :=
  match dt with
  | none => none
  | some raw =>
    if c_str raw = [] then none
    else
      match sscanf_d fmt_dt (c_str raw) with
      | [Y, M, D, h, m, s] =>
        some (wrap32 (Y * 10000 + M * 100 + D), wrap32 (h * 3600 + m * 60 + s))
      | _ => none

/-- The names a selection refers to: the alias `ymd` and the branches `tsec`
and `file_id`. -/
inductive Var where
  | ymd
  | tsec
  | file_id
deriving DecidableEq, Repr

/-- The selections that `build_sel` writes, as the expression that the text of
the `TCut` denotes; `all` is the empty text, which selects every row. -/
inductive Cut where
  | all
  | gt (v : Var) (k : Int)
  | lt (v : Var) (k : Int)
  | ge (v : Var) (k : Int)
  | le (v : Var) (k : Int)
  | eq (v : Var) (k : Int)
  | and (a b : Cut)
  | or (a b : Cut)
deriving DecidableEq, Repr

/-- The alias `ymd` set by `draw_range` (draw_range.C:85):
`year*10000 + month*100 + day`. -/
def ymd {F : Type} (r : Row F) : Int := r.year * 10000 + r.month * 100 + r.day

/-- The value of a name in a row. -/
def Var.value {F : Type} (r : Row F) : Var → Int
  | .ymd => DrawRange.ymd r
  | .tsec => r.tsec
  | .file_id => r.file_id

/-- Evaluation of a selection on a row. -/
def Cut.eval {F : Type} (r : Row F) : Cut → Bool
  | .all => true
  | .gt v k => decide (v.value r > k)
  | .lt v k => decide (v.value r < k)
  | .ge v k => decide (v.value r ≥ k)
  | .le v k => decide (v.value r ≤ k)
  | .eq v k => decide (v.value r = k)
  | .and a b => a.eval r && b.eval r
  | .or a b => a.eval r || b.eval r

/-- The selection holds of the row. -/
def Cut.holds {F : Type} (c : Cut) (r : Row F) : Prop := c.eval r = true

instance {F : Type} (c : Cut) (r : Row F) : Decidable (c.holds r) := by
  unfold Cut.holds
  infer_instance

/-- Model of `build_sel` (draw_range.C:30).  The three texts are
`(ymd > %d) || (ymd == %d && tsec >= %d)`,
`(ymd == %d && tsec >= %d && tsec <= %d)` and
`(ymd > %d && ymd < %d) || (ymd == %d && tsec >= %d) || (ymd == %d && tsec <= %d)`;
a non-negative `file_id` wraps the text as `(file_id == %d) && ( %s )`. -/
def build_sel (start end_ : Option Str) (file_id : Int) : Cut :=
  match parse_dt start with
  | none => .all
  | some (ymd_s, ts_s) =>
    let has_end : Option (Int × Int) :=
      match end_ with
      | none => none
      | some e => if c_str e = [] then none else parse_dt (some e)
    let base : Cut :=
      match has_end with
      | none => .or (.gt .ymd ymd_s) (.and (.eq .ymd ymd_s) (.ge .tsec ts_s))
      | some (ymd_e, ts_e) =>
        if ymd_s = ymd_e then
          .and (.and (.eq .ymd ymd_s) (.ge .tsec ts_s)) (.le .tsec ts_e)
        else
          .or (.or (.and (.gt .ymd ymd_s) (.lt .ymd ymd_e))
                (.and (.eq .ymd ymd_s) (.ge .tsec ts_s)))
            (.and (.eq .ymd ymd_e) (.le .tsec ts_e))
    if 0 ≤ file_id then .and (.eq .file_id file_id) base else base

end DrawRange

namespace MakeTuple

/-! ## The line parser as a function of the line -/

theorem list_length_three {α : Type} (l : List α) (h : l.length = 3) :
    ∃ a b c, l = [a, b, c] := by
  match l, h with
  | [a, b, c], _ => exact ⟨a, b, c, rfl⟩

theorem fields_outcome_skip_date {F : Type} (nan : F) (stof : Str → Option F) (fid : Int)
    (date time rest : Str) (h : (sscanf_u3 '-' date).length ≠ 3) :
    fields_outcome nan stof fid date time rest = .skipped := by
  unfold fields_outcome
  split
  · rename_i h1; rw [h1] at h; simp at h
  · rfl

theorem fields_outcome_skip_time {F : Type} (nan : F) (stof : Str → Option F) (fid : Int)
    (date time rest : Str) (h : (sscanf_u3 ':' time).length ≠ 3) :
    fields_outcome nan stof fid date time rest = .skipped := by
  unfold fields_outcome
  split
  · split
    · rename_i h1; rw [h1] at h; simp at h
    · rfl
  · rfl

/-- The outcome of the line parser depends on the variables only through
`file_id`. -/
theorem parse_line_eq {F : Type} (nan : F) (stof : Str → Option F) (v : Row F) (raw : Str) :
    parse_line nan stof v raw =
      match line_fields raw with
      | none => .skipped
      | some (date, time, rest) => fields_outcome nan stof v.file_id date time rest := by
  unfold parse_line line_step line_fields split_fields
  generalize trim_copy raw = t
  by_cases h0 : t = [] ∨ t.head? = some '#'
  · simp only [h0, if_true]
  · simp only [h0, if_false]
    generalize strip_trailing t = L
    cases h1 : str_find L ',' 0 with
    | none => rfl
    | some p1 =>
      simp only []
      cases h2 : str_find L ',' (p1 + 1) with
      | none => rfl
      | some p2 =>
        simp only []
        generalize trim_copy (substr L 0 p1) = date
        generalize trim_copy (substr L (p1 + 1) (p2 - (p1 + 1))) = time
        generalize List.drop (p2 + 1) L = rest
        by_cases hd : (sscanf_u3 '-' date).length = 3
        · obtain ⟨y, mo, d, hd3⟩ := list_length_three _ hd
          by_cases ht : (sscanf_u3 ':' time).length = 3
          · obtain ⟨h, mi, s, ht3⟩ := list_length_three _ ht
            simp only [fields_outcome, hd3, ht3, set_date, set_time, List.length_cons,
              List.length_nil]
            cases assign_sensors stof (reS_matches rest) (List.replicate NSENS nan) <;> simp
          · rw [fields_outcome_skip_time nan stof _ _ _ _ ht]
            simp [hd, ht]
        · rw [fields_outcome_skip_date nan stof _ _ _ _ hd]
          simp [hd]

end MakeTuple

namespace MakeTuple

theorem parse_line_row {F : Type} {nan : F} {stof : Str → Option F} {v : Row F} {raw : Str}
    {r : Row F} (h : parse_line nan stof v raw = .row r) :
    ∃ date time rest y mo d hh mi s S,
      line_fields raw = some (date, time, rest) ∧
      sscanf_u3 '-' date = [y, mo, d] ∧ sscanf_u3 ':' time = [hh, mi, s] ∧
      assign_sensors stof (reS_matches rest) (List.replicate NSENS nan) = some S ∧
      r = ⟨y, mo, d, hh, mi, s, (hh * 3600 + mi * 60 + s) % 2 ^ 32, v.file_id, S⟩ := by
  rw [parse_line_eq] at h
  cases hf : line_fields raw with
  | none => rw [hf] at h; simp at h
  | some f =>
    obtain ⟨date, time, rest⟩ := f
    rw [hf] at h
    simp only [fields_outcome] at h
    split at h
    · rename_i y mo d hd
      split at h
      · rename_i hh mi s ht
        split at h
        · simp at h
        · rename_i S hS
          refine ⟨date, time, rest, y, mo, d, hh, mi, s, S, rfl, hd, ht, hS, ?_⟩
          simpa using h.symm
      · simp at h
    · simp at h

theorem scan_u_lt {s : Str} {a : Nat} {r : Str} (h : scan_u s = some (a, r)) : a < 2 ^ 32 := by
  unfold scan_u at h
  dsimp only at h
  by_cases hd : List.takeWhile isdigit
      (if (List.dropWhile isspace s).head? = some '-' ∨ (List.dropWhile isspace s).head? = some '+'
        then (List.dropWhile isspace s).tail else List.dropWhile isspace s) = []
  · rw [if_pos hd] at h; cases h
  · rw [if_neg hd] at h
    injection h with h
    injection h with h1 h2
    rw [← h1]
    exact Nat.mod_lt _ (by norm_num)

theorem sscanf_u3_lt (sep : Char) (s : Str) : ∀ x ∈ sscanf_u3 sep s, x < 2 ^ 32 := by
  intro x hx
  unfold sscanf_u3 at hx
  split at hx
  · simp at hx
  · rename_i a r1 h1
    have ha := scan_u_lt h1
    split at hx
    · simp at hx; omega
    · split at hx
      · split at hx
        · simp at hx; omega
        · rename_i b r2 h2
          have hb := scan_u_lt h2
          split at hx
          · simp at hx; omega
          · split at hx
            · split at hx
              · simp at hx; omega
              · rename_i c r3 h3
                have hc := scan_u_lt h3
                simp at hx; omega
            · simp at hx; omega
      · simp at hx; omega

/-! ## C1 -/

/-- C1, as stated, fails: for the line `2025-08-19,1193047:00:00, S1: 1.0` the
parser emits a row with hour 1193047, minute 0, second 0 and tsec 1904, which is
not 3600*1193047. -/
theorem C1_counterexample :
    parse_line Lit.nan Lit.stof Lit.vars0 "2025-08-19,1193047:00:00, S1: 1.0".toList
        = .row ⟨2025, 8, 19, 1193047, 0, 0, 1904, 0,
            Lit.val "1.0".toList :: List.replicate 18 Lit.nan⟩ ∧
      (1904 : Nat) ≠ 3600 * 1193047 + 60 * 0 + 0 := by
  decide

/-- C1 (amended): for every line from which a row is emitted, hour, minute and
second are below 2^32, tsec is 3600*hour + 60*minute + second reduced modulo
2^32, and it equals that sum whenever the sum is below 2^32. -/
theorem C1_tsec_mod32 {F : Type} (nan : F) (stof : Str → Option F) (v : Row F) (raw : Str)
    (r : Row F) (h : parse_line nan stof v raw = .row r) :
    r.hour < 2 ^ 32 ∧ r.minute < 2 ^ 32 ∧ r.second < 2 ^ 32 ∧
      r.tsec = (3600 * r.hour + 60 * r.minute + r.second) % 2 ^ 32 ∧
      (3600 * r.hour + 60 * r.minute + r.second < 2 ^ 32 →
        r.tsec = 3600 * r.hour + 60 * r.minute + r.second) := by
  obtain ⟨date, time, rest, y, mo, d, hh, mi, s, S, -, -, ht, -, rfl⟩ := parse_line_row h
  have hlt := sscanf_u3_lt ':' time
  rw [ht] at hlt
  have h1 := hlt hh (by simp)
  have h2 := hlt mi (by simp)
  have h3 := hlt s (by simp)
  have e : hh * 3600 + mi * 60 + s = 3600 * hh + 60 * mi + s := by ring
  refine ⟨h1, h2, h3, ?_, ?_⟩
  · simp only [e]
  · intro hs
    simp only [e]
    exact Nat.mod_eq_of_lt hs

theorem C1_tsec_mod32_witness :
    parse_line Lit.nan Lit.stof Lit.vars0 "2025-08-19,15:22:22, S1: 20.5".toList
        = .row ⟨2025, 8, 19, 15, 22, 22, 55342, 0,
            Lit.val "20.5".toList :: List.replicate 18 Lit.nan⟩ ∧
      (55342 : Nat) = (3600 * 15 + 60 * 22 + 22) % 2 ^ 32 :=
  ⟨by decide,
   (C1_tsec_mod32 Lit.nan Lit.stof Lit.vars0 "2025-08-19,15:22:22, S1: 20.5".toList
      ⟨2025, 8, 19, 15, 22, 22, 55342, 0, Lit.val "20.5".toList :: List.replicate 18 Lit.nan⟩
      (by decide)).2.2.2.1⟩

end MakeTuple

namespace MakeTuple

/-! ## The loop over the matches -/

theorem assign_sensors_length {F : Type} (stof : Str → Option F) :
    ∀ (ms : List (Str × Str)) (S S1 : List F),
      assign_sensors stof ms S = some S1 → S1.length = S.length := by
  intro ms
  induction ms with
  | nil => intro S S1 h; simp only [assign_sensors, Option.some.injEq] at h; rw [h]
  | cons m ms ih =>
    intro S S1 h
    obtain ⟨idx, val⟩ := m
    simp only [assign_sensors] at h
    split at h
    · cases h
    · split at h
      · split at h
        · cases h
        · rw [ih _ _ h, List.length_set]
      · exact ih _ _ h

/-- A column whose index no match carries keeps its value. -/
theorem assign_sensors_absent {F : Type} (stof : Str → Option F) (j : Nat) :
    ∀ (ms : List (Str × Str)) (S S1 : List F),
      assign_sensors stof ms S = some S1 →
      (∀ m ∈ ms, stoi m.1 ≠ some ((j : Int) + 1)) → S1[j]? = S[j]? := by
  intro ms
  induction ms with
  | nil => intro S S1 h _; simp only [assign_sensors, Option.some.injEq] at h; rw [h]
  | cons m ms ih =>
    intro S S1 h hno
    obtain ⟨idx, val⟩ := m
    have hm : stoi idx ≠ some ((j : Int) + 1) := hno (idx, val) (List.mem_cons_self _ _)
    have hrest : ∀ m ∈ ms, stoi m.1 ≠ some ((j : Int) + 1) :=
      fun m hmem => hno m (List.mem_cons_of_mem _ hmem)
    simp only [assign_sensors] at h
    split at h
    · cases h
    · rename_i k hk
      split at h
      · rename_i hrange
        split at h
        · cases h
        · rw [ih _ _ h hrest]
          apply List.getElem?_set_ne
          intro hkj
          apply hm
          rw [hk]
          congr 1
          omega
      · exact ih _ _ h hrest

/-- The column of the last match with index `j + 1` holds the converted value
of that match. -/
theorem assign_sensors_last {F : Type} (stof : Str → Option F) (j : Nat) (hj : j < NSENS)
    (l1 l2 : List (Str × Str)) (idx val : Str) (S S1 : List F) (hlen : S.length = NSENS)
    (h : assign_sensors stof (l1 ++ (idx, val) :: l2) S = some S1)
    (hidx : stoi idx = some ((j : Int) + 1))
    (hno : ∀ m ∈ l2, stoi m.1 ≠ some ((j : Int) + 1)) :
    ∃ x, stof val = some x ∧ S1[j]? = some x := by
  induction l1 generalizing S with
  | nil =>
    simp only [List.nil_append, assign_sensors, hidx] at h
    have hr : (1 : Int) ≤ (j : Int) + 1 ∧ (j : Int) + 1 ≤ (NSENS : Int) := by
      constructor <;> omega
    rw [if_pos hr] at h
    cases hx : stof val with
    | none => rw [hx] at h; cases h
    | some x =>
      rw [hx] at h
      refine ⟨x, rfl, ?_⟩
      rw [assign_sensors_absent stof j l2 _ _ h hno]
      have e : ((j : Int) + 1).toNat - 1 = j := by omega
      rw [e]
      exact List.getElem?_set_self (by rw [hlen]; exact hj)
  | cons m l1 ih =>
    obtain ⟨i0, v0⟩ := m
    simp only [List.cons_append, assign_sensors] at h
    split at h
    · cases h
    · split at h
      · split at h
        · cases h
        · exact ih _ (by rw [List.length_set]; exact hlen) h
      · exact ih _ hlen h

end MakeTuple

namespace MakeTuple

/-! ## The sensor regex -/

theorem reS_frac_shape (r : Str) : r = (reS_frac r).1 ++ (reS_frac r).2 := by
  unfold reS_frac
  split
  · rename_i r6
    split
    · rfl
    · simp [List.takeWhile_append_dropWhile]
  · rfl

theorem reS_value_shape {r val rest : Str} (h : reS_value r = some (val, rest)) :
    r = val ++ rest ∧ val ≠ [] := by
  unfold reS_value at h
  dsimp only at h
  have hsplit : r = (if r.head? = some '-' ∨ r.head? = some '+' then r.take 1 else []) ++
      (if r.head? = some '-' ∨ r.head? = some '+' then r.tail else r) := by
    split
    · cases r <;> simp
    · simp
  generalize (if r.head? = some '-' ∨ r.head? = some '+' then r.take 1 else []) = sg at h hsplit
  generalize (if r.head? = some '-' ∨ r.head? = some '+' then r.tail else r) = r4 at h hsplit
  by_cases hip : List.takeWhile isdigit r4 = []
  · rw [if_pos hip] at h; cases h
  · rw [if_neg hip] at h
    simp only [Option.some.injEq, Prod.mk.injEq] at h
    obtain ⟨rfl, rfl⟩ := h
    constructor
    · rw [List.append_assoc, List.append_assoc, ← reS_frac_shape,
        List.takeWhile_append_dropWhile]
      exact hsplit
    · simp [hip]

/-- The shape of a match of the sensor regex: `S`, the index digits, `:`,
whitespace, the value literal, and the text that follows. -/
theorem reS_match_here_shape {s idx val rest : Str}
    (h : reS_match_here s = some (idx, val, rest)) :
    ∃ ws, s = 'S' :: idx ++ ':' :: ws ++ val ++ rest ∧ idx ≠ [] ∧
      (∀ c ∈ idx, isdigit c = true) ∧ (∀ c ∈ ws, isspace c = true) := by
  unfold reS_match_here at h
  split at h
  · rename_i r
    dsimp only at h
    by_cases hidx : List.takeWhile isdigit r = []
    · rw [if_pos hidx] at h; cases h
    · rw [if_neg hidx] at h
      split at h
      · rename_i r2 hr2
        split at h
        · rename_i val1 rest1 hv
          simp only [Option.some.injEq, Prod.mk.injEq] at h
          obtain ⟨rfl, rfl, rfl⟩ := h
          obtain ⟨hv1, -⟩ := reS_value_shape hv
          refine ⟨List.takeWhile isspace r2, ?_, hidx, fun c hc => List.mem_takeWhile_imp hc,
            fun c hc => List.mem_takeWhile_imp hc⟩
          have hr : r = List.takeWhile isdigit r ++ ':' :: r2 := by
            rw [← hr2, List.takeWhile_append_dropWhile]
          conv_lhs => rw [hr, ← List.takeWhile_append_dropWhile isspace r2, hv1]
          simp
        · cases h
      · cases h
  · cases h

theorem reS_match_here_length {s idx val rest : Str}
    (h : reS_match_here s = some (idx, val, rest)) : rest.length < s.length := by
  obtain ⟨ws, hs, -, -, -⟩ := reS_match_here_shape h
  rw [hs]
  simp
  omega

/-- The scan does not depend on the bound once it exceeds the length. -/
theorem reS_scan_fuel : ∀ (n : Nat) (s : Str) (f1 f2 : Nat), s.length ≤ n →
    s.length < f1 → s.length < f2 → reS_scan f1 s = reS_scan f2 s := by
  intro n
  induction n with
  | zero =>
    intro s f1 f2 hn h1 h2
    have : s = [] := List.length_eq_zero.mp (by omega)
    subst this
    cases f1 <;> cases f2 <;> simp_all [reS_scan]
  | succ n ih =>
    intro s f1 f2 hn h1 h2
    cases s with
    | nil => cases f1 <;> cases f2 <;> simp_all [reS_scan]
    | cons c t =>
      cases f1 with
      | zero => simp at h1
      | succ f1 =>
        cases f2 with
        | zero => simp at h2
        | succ f2 =>
          simp only [reS_scan]
          simp only [List.length_cons] at hn h1 h2
          cases hm : reS_match_here (c :: t) with
          | none => exact ih t f1 f2 (by omega) (by omega) (by omega)
          | some m =>
            obtain ⟨idx, val, rest⟩ := m
            have hl := reS_match_here_length hm
            simp only [List.length_cons] at hl
            simp only []
            rw [ih rest f1 f2 (by omega) (by omega) (by omega)]

theorem reS_matches_nil : reS_matches [] = [] := rfl

/-- The scan resumes after a match, or moves one character forward. -/
theorem reS_matches_cons (c : Char) (t : Str) :
    reS_matches (c :: t) =
      match reS_match_here (c :: t) with
      | some (idx, val, rest) => (idx, val) :: reS_matches rest
      | none => reS_matches t := by
  unfold reS_matches
  simp only [List.length_cons, reS_scan]
  cases hm : reS_match_here (c :: t) with
  | none => exact reS_scan_fuel t.length t _ _ (le_refl _) (by omega) (by omega)
  | some m =>
    obtain ⟨idx, val, rest⟩ := m
    have hl := reS_match_here_length hm
    simp only [List.length_cons] at hl
    simp only []
    rw [reS_scan_fuel rest.length rest (t.length + 1) (rest.length + 1) (le_refl _) (by omega)
      (by omega)]

end MakeTuple

namespace MakeTuple

/-! ## Appending to a string -/

theorem takeWhile_append_of_not {α : Type} (p : α → Bool) (l m : List α)
    (hm : ∀ c ∈ m, p c = false) : (l ++ m).takeWhile p = l.takeWhile p := by
  induction l with
  | nil =>
    cases m with
    | nil => rfl
    | cons c t => simp [List.takeWhile, hm c (List.mem_cons_self _ _)]
  | cons a l ih =>
    simp only [List.cons_append, List.takeWhile_cons]
    split
    · rw [ih]
    · rfl

theorem dropWhile_append_of_not {α : Type} (p : α → Bool) (l m : List α)
    (hm : ∀ c ∈ m, p c = false) : (l ++ m).dropWhile p = l.dropWhile p ++ m := by
  induction l with
  | nil =>
    cases m with
    | nil => rfl
    | cons c t => simp [List.dropWhile, hm c (List.mem_cons_self _ _)]
  | cons a l ih =>
    simp only [List.cons_append, List.dropWhile_cons]
    split
    · rw [ih]
    · rfl

theorem rdropWhile_split {α : Type} (p : α → Bool) (l : List α) :
    ∃ ws, l = l.rdropWhile p ++ ws ∧ ∀ c ∈ ws, p c = true := by
  refine ⟨(l.reverse.takeWhile p).reverse, ?_, ?_⟩
  · unfold List.rdropWhile
    rw [← List.reverse_append, List.takeWhile_append_dropWhile, List.reverse_reverse]
  · intro c hc
    exact List.mem_takeWhile_imp (List.mem_reverse.mp hc)

theorem isspace_cases {c : Char} (h : isspace c = true) :
    c = ' ' ∨ c = '\t' ∨ c = '\n' ∨ c = '\x0b' ∨ c = '\x0c' ∨ c = '\r' := by
  simpa [isspace, or_assoc] using h

theorem isspace_not_digit {c : Char} (h : isspace c = true) : isdigit c = false := by
  rcases isspace_cases h with rfl | rfl | rfl | rfl | rfl | rfl <;> decide

theorem isspace_not_special {c : Char} (h : isspace c = true) :
    c ≠ 'S' ∧ c ≠ ':' ∧ c ≠ '.' ∧ c ≠ '-' ∧ c ≠ '+' ∧ c ≠ ',' ∧ c ≠ '#' := by
  rcases isspace_cases h with rfl | rfl | rfl | rfl | rfl | rfl <;> decide

theorem takeWhile_append_stop {α : Type} (p : α → Bool) (l m : List α)
    (hl : ∀ c ∈ l, p c = true) (hm : ∀ c, m.head? = some c → p c = false) :
    (l ++ m).takeWhile p = l ∧ (l ++ m).dropWhile p = m := by
  induction l with
  | nil =>
    cases m with
    | nil => exact ⟨rfl, rfl⟩
    | cons c t =>
      have := hm c rfl
      simp [List.takeWhile, List.dropWhile, this]
  | cons a l ih =>
    have ha := hl a (List.mem_cons_self _ _)
    have := ih (fun c hc => hl c (List.mem_cons_of_mem _ hc))
    simp [List.takeWhile_cons, List.dropWhile_cons, ha, this.1, this.2]

theorem isdigit_not_special {c : Char} (h : isdigit c = true) :
    c ≠ '-' ∧ c ≠ '+' ∧ c ≠ '.' ∧ c ≠ ',' ∧ c ≠ 'S' ∧ c ≠ ':' ∧ isspace c = false := by
  refine ⟨?_, ?_, ?_, ?_, ?_, ?_, ?_⟩
  · rintro rfl; revert h; decide
  · rintro rfl; revert h; decide
  · rintro rfl; revert h; decide
  · rintro rfl; revert h; decide
  · rintro rfl; revert h; decide
  · rintro rfl; revert h; decide
  · cases hs : isspace c with
    | false => rfl
    | true => rw [isspace_not_digit hs] at h; cases h

theorem stoi_eq_some {ds : Str} {k : Int} (h : stoi ds = some k) : k = (decval ds : Int) := by
  unfold stoi at h
  split at h
  · simp only [Option.some.injEq] at h; exact h.symm
  · cases h

theorem reS_match_here_of_ne {c : Char} (t : Str) (h : c ≠ 'S') :
    reS_match_here (c :: t) = none := by
  unfold reS_match_here
  split
  · rename_i heq; simp only [List.cons.injEq] at heq; exact absurd heq.1 h
  · rfl

theorem reS_value_nil : reS_value [] = none := rfl

theorem takeWhile_nil_of_not {α : Type} (p : α → Bool) (m : List α)
    (h : ∀ c ∈ m, p c = false) : m.takeWhile p = [] := by
  have := takeWhile_append_of_not p [] m h
  simpa using this

/-- The value literal of the sensor regex needs a digit. -/
theorem reS_value_no_digit (m : Str) (hnd : ∀ c ∈ m, isdigit c = false) :
    reS_value m = none := by
  unfold reS_value
  dsimp only
  rw [if_pos]
  apply takeWhile_nil_of_not
  intro c hc
  split at hc
  · exact hnd c (List.mem_of_mem_tail hc)
  · exact hnd c hc

/-- A match of the sensor regex needs a digit. -/
theorem reS_match_here_no_digit (m : Str) (hnd : ∀ c ∈ m, isdigit c = false) :
    reS_match_here m = none := by
  cases h : reS_match_here m with
  | none => rfl
  | some r =>
    obtain ⟨idx, val, rest⟩ := r
    obtain ⟨ws, hshape, hne, hdig, -⟩ := reS_match_here_shape h
    exfalso
    cases hidx : idx with
    | nil => exact hne hidx
    | cons d ds =>
      have h1 : isdigit d = true := hdig d (by rw [hidx]; exact List.mem_cons_self _ _)
      have h2 : isdigit d = false := hnd d (by rw [hshape, hidx]; simp)
      rw [h1] at h2
      cases h2

theorem reS_frac_append_tail (r m : Str) (hnd : ∀ c ∈ m, isdigit c = false) :
    reS_frac (r ++ m) = ((reS_frac r).1, (reS_frac r).2 ++ m) := by
  cases r with
  | nil =>
    cases m with
    | nil => rfl
    | cons w m1 =>
      by_cases hw : w = '.'
      · subst hw
        simp only [List.nil_append, reS_frac]
        rw [if_pos (takeWhile_nil_of_not isdigit m1
          (fun c hc => hnd c (List.mem_cons_of_mem _ hc)))]
      · simp only [List.nil_append]
        unfold reS_frac
        split
        · rename_i heq; simp only [List.cons.injEq] at heq; exact absurd heq.1 hw
        · rfl
  | cons c r6 =>
    by_cases hc : c = '.'
    · subst hc
      simp only [List.cons_append, reS_frac]
      rw [takeWhile_append_of_not isdigit r6 m hnd, dropWhile_append_of_not isdigit r6 m hnd]
      split <;> simp
    · have h1 : ∀ t : Str, reS_frac (c :: t) = ([], c :: t) := by
        intro t
        unfold reS_frac
        split
        · rename_i heq; simp only [List.cons.injEq] at heq; exact absurd heq.1 hc
        · rfl
      rw [List.cons_append, h1, h1]
      rfl

theorem reS_value_append_tail (r m : Str) (hr : r ≠ []) (hnd : ∀ c ∈ m, isdigit c = false) :
    reS_value (r ++ m) = (reS_value r).map (fun v => (v.1, v.2 ++ m)) := by
  cases r with
  | nil => exact absurd rfl hr
  | cons c3 r3 =>
    unfold reS_value
    simp only [List.cons_append, List.head?_cons, List.tail_cons, List.take_succ_cons,
      List.take_zero]
    have e4 : (if some c3 = some '-' ∨ some c3 = some '+' then r3 ++ m
          else c3 :: (r3 ++ m)) =
        (if some c3 = some '-' ∨ some c3 = some '+' then r3 else c3 :: r3) ++ m := by
      split <;> simp
    rw [e4]
    generalize (if some c3 = some '-' ∨ some c3 = some '+' then r3 else c3 :: r3) = r4
    rw [takeWhile_append_of_not isdigit r4 m hnd, dropWhile_append_of_not isdigit r4 m hnd,
      reS_frac_append_tail _ m hnd]
    split <;> simp

theorem dropWhile_append_cases {α : Type} [DecidableEq α] (p : α → Bool) (l m : List α) :
    (l ++ m).dropWhile p = if l.dropWhile p = [] then m.dropWhile p else l.dropWhile p ++ m := by
  induction l with
  | nil => simp
  | cons a l ih =>
    simp only [List.cons_append, List.dropWhile_cons]
    split
    · rw [ih]
    · simp

/-- A text without digits that does not start with `S` or `:` can follow the
text without changing a match of the sensor regex. -/
theorem reS_match_here_append_tail (s m : Str) (hnd : ∀ c ∈ m, isdigit c = false)
    (hhd : ∀ c, m.head? = some c → c ≠ 'S' ∧ c ≠ ':') :
    reS_match_here (s ++ m) =
      (reS_match_here s).map (fun r => (r.1, r.2.1, r.2.2 ++ m)) := by
  cases s with
  | nil => rw [List.nil_append, reS_match_here_no_digit m hnd]; rfl
  | cons c r =>
    by_cases hc : c = 'S'
    · subst hc
      simp only [List.cons_append, reS_match_here]
      rw [takeWhile_append_of_not isdigit r m hnd, dropWhile_append_of_not isdigit r m hnd]
      by_cases hidx : List.takeWhile isdigit r = []
      · simp [hidx]
      · simp only [hidx, if_false]
        cases hD : List.dropWhile isdigit r with
        | nil =>
          cases m with
          | nil => simp
          | cons w m1 =>
            have := (hhd w rfl).2
            simp only [List.nil_append]
            split
            · rename_i heq; simp only [List.cons.injEq] at heq; exact absurd heq.1 this
            · simp
        | cons c2 r2 =>
          by_cases hc2 : c2 = ':'
          · subst hc2
            simp only [List.cons_append]
            rw [dropWhile_append_cases isspace r2 m]
            by_cases hr3 : List.dropWhile isspace r2 = []
            · have hm : reS_value (List.dropWhile isspace m) = none :=
                reS_value_no_digit _ (fun c hc => hnd c ((List.dropWhile_sublist _).subset hc))
              simp [hr3, reS_value_nil, hm]
            · simp only [hr3, if_false]
              rw [reS_value_append_tail _ m hr3 hnd]
              cases reS_value (List.dropWhile isspace r2) <;> simp
          · simp only [List.cons_append]
            split
            · rename_i heq; simp only [List.cons.injEq] at heq; exact absurd heq.1 hc2
            · split
              · rename_i heq; simp only [List.cons.injEq] at heq; exact absurd heq.1 hc2
              · simp
    · rw [List.cons_append, reS_match_here_of_ne _ hc, reS_match_here_of_ne _ hc]
      rfl

theorem reS_matches_no_digit (m : Str) (hnd : ∀ c ∈ m, isdigit c = false) :
    reS_matches m = [] := by
  induction m with
  | nil => rfl
  | cons c t ih =>
    rw [reS_matches_cons, reS_match_here_no_digit _ hnd]
    exact ih (fun c hc => hnd c (List.mem_cons_of_mem _ hc))

/-- A text without digits that does not start with `S` or `:` can follow the
payload without changing the matches. -/
theorem reS_matches_append_tail (m : Str) (hnd : ∀ c ∈ m, isdigit c = false)
    (hhd : ∀ c, m.head? = some c → c ≠ 'S' ∧ c ≠ ':') :
    ∀ (n : Nat) (s : Str), s.length ≤ n → reS_matches (s ++ m) = reS_matches s := by
  intro n
  induction n with
  | zero =>
    intro s hs
    have : s = [] := List.length_eq_zero.mp (by omega)
    subst this
    simpa using reS_matches_no_digit m hnd
  | succ n ih =>
    intro s hs
    cases s with
    | nil => simpa using reS_matches_no_digit m hnd
    | cons c t =>
      rw [List.cons_append, reS_matches_cons, reS_matches_cons]
      have := reS_match_here_append_tail (c :: t) m hnd hhd
      rw [List.cons_append] at this
      rw [this]
      simp only [List.length_cons] at hs
      cases hm : reS_match_here (c :: t) with
      | none => simpa using ih t (by omega)
      | some r =>
        obtain ⟨idx, val, rest⟩ := r
        have hl := reS_match_here_length hm
        simp only [List.length_cons] at hl
        simpa using ih rest (by omega)

end MakeTuple

namespace MakeTuple

/-! ## Matches of the sensor regex and the text of the payload -/

theorem reS_value_head {r val rest : Str} (h : reS_value r = some (val, rest)) :
    ∃ (sg : Str) (d : Char) (more : Str), val = sg ++ d :: more ∧
      (sg = [] ∨ sg = ['-'] ∨ sg = ['+']) ∧ isdigit d = true := by
  unfold reS_value at h
  dsimp only at h
  have hsg : (if r.head? = some '-' ∨ r.head? = some '+' then r.take 1 else []) = [] ∨
      (if r.head? = some '-' ∨ r.head? = some '+' then r.take 1 else []) = ['-'] ∨
      (if r.head? = some '-' ∨ r.head? = some '+' then r.take 1 else []) = ['+'] := by
    split
    · rename_i hh
      cases r with
      | nil => simp at hh
      | cons c t =>
        simp only [List.head?_cons, Option.some.injEq] at hh
        rcases hh with rfl | rfl
        · right; left; rfl
        · right; right; rfl
    · left; rfl
  generalize (if r.head? = some '-' ∨ r.head? = some '+' then r.take 1 else []) = sg at h hsg
  generalize (if r.head? = some '-' ∨ r.head? = some '+' then r.tail else r) = r4 at h
  by_cases hip : List.takeWhile isdigit r4 = []
  · rw [if_pos hip] at h; cases h
  · rw [if_neg hip] at h
    simp only [Option.some.injEq, Prod.mk.injEq] at h
    obtain ⟨rfl, -⟩ := h
    cases hd : List.takeWhile isdigit r4 with
    | nil => exact absurd hd hip
    | cons d ip =>
      have hdig : isdigit d = true :=
        List.mem_takeWhile_imp (l := r4) (by rw [hd]; exact List.mem_cons_self _ _)
      exact ⟨sg, d, ip ++ (reS_frac (List.dropWhile isdigit r4)).1, by simp, hsg, hdig⟩

theorem reS_match_here_value {s idx val rest : Str}
    (h : reS_match_here s = some (idx, val, rest)) :
    ∃ (sg : Str) (d : Char) (more : Str), val = sg ++ d :: more ∧
      (sg = [] ∨ sg = ['-'] ∨ sg = ['+']) ∧ isdigit d = true := by
  unfold reS_match_here at h
  split at h
  · dsimp only at h
    split at h
    · cases h
    · split at h
      · split at h
        · rename_i val1 rest1 hv
          simp only [Option.some.injEq, Prod.mk.injEq] at h
          obtain ⟨-, rfl, -⟩ := h
          exact reS_value_head hv
        · cases h
      · cases h
  · cases h

/-- Every match of the scan is a match of the regex at some position of the
text. -/
theorem reS_matches_mem (idx val : Str) :
    ∀ (n : Nat) (s : Str), s.length ≤ n → (idx, val) ∈ reS_matches s →
      ∃ before suf rest1, s = before ++ suf ∧ reS_match_here suf = some (idx, val, rest1) := by
  intro n
  induction n with
  | zero =>
    intro s hs hm
    have : s = [] := List.length_eq_zero.mp (by omega)
    subst this
    simp [reS_matches_nil] at hm
  | succ n ih =>
    intro s hs hm
    cases s with
    | nil => simp [reS_matches_nil] at hm
    | cons c t =>
      rw [reS_matches_cons] at hm
      simp only [List.length_cons] at hs
      cases hh : reS_match_here (c :: t) with
      | none =>
        rw [hh] at hm
        obtain ⟨before, suf, rest1, e, hsuf⟩ := ih t (by omega) hm
        exact ⟨c :: before, suf, rest1, by rw [e]; rfl, hsuf⟩
      | some m =>
        obtain ⟨i1, v1, r1⟩ := m
        rw [hh] at hm
        simp only [List.mem_cons, Prod.mk.injEq] at hm
        rcases hm with ⟨rfl, rfl⟩ | hm
        · exact ⟨[], c :: t, r1, rfl, hh⟩
        · have hl := reS_match_here_length hh
          simp only [List.length_cons] at hl
          obtain ⟨before, suf, rest1, e, hsuf⟩ := ih r1 (by omega) hm
          obtain ⟨ws, hshape, -, -, -⟩ := reS_match_here_shape hh
          refine ⟨'S' :: i1 ++ ':' :: ws ++ v1 ++ before, suf, rest1, ?_, hsuf⟩
          rw [hshape, e]
          simp

end MakeTuple

namespace MakeTuple

theorem reS_frac_no_S (r : Str) : ∀ c ∈ (reS_frac r).1, c ≠ 'S' := by
  unfold reS_frac
  split
  · rename_i r6
    split
    · intro c hc; cases hc
    · intro c hc
      rcases List.mem_cons.mp hc with rfl | hc
      · decide
      · exact (isdigit_not_special (List.mem_takeWhile_imp hc)).2.2.2.2.1
  · intro c hc; cases hc

theorem reS_value_no_S {r val rest : Str} (h : reS_value r = some (val, rest)) :
    ∀ c ∈ val, c ≠ 'S' := by
  unfold reS_value at h
  dsimp only at h
  have hsg : ∀ c ∈ (if r.head? = some '-' ∨ r.head? = some '+' then r.take 1 else []),
      c ≠ 'S' := by
    split
    · rename_i hh
      cases r with
      | nil => simp at hh
      | cons c t =>
        simp only [List.head?_cons, Option.some.injEq] at hh
        intro x hx
        simp only [List.take_succ_cons, List.take_zero, List.mem_singleton] at hx
        subst hx
        rcases hh with rfl | rfl <;> decide
    · intro c hc; cases hc
  generalize (if r.head? = some '-' ∨ r.head? = some '+' then r.take 1 else []) = sg at h hsg
  generalize (if r.head? = some '-' ∨ r.head? = some '+' then r.tail else r) = r4 at h
  by_cases hip : List.takeWhile isdigit r4 = []
  · rw [if_pos hip] at h; cases h
  · rw [if_neg hip] at h
    simp only [Option.some.injEq, Prod.mk.injEq] at h
    obtain ⟨rfl, -⟩ := h
    intro c hc
    simp only [List.mem_append] at hc
    rcases hc with (hc | hc) | hc
    · exact hsg c hc
    · exact (isdigit_not_special (List.mem_takeWhile_imp hc)).2.2.2.2.1
    · exact reS_frac_no_S _ c hc

/-- The text of a match holds no `S` after its first character. -/
theorem reS_match_here_text {s idx val rest : Str}
    (h : reS_match_here s = some (idx, val, rest)) :
    ∃ body, s = 'S' :: body ++ rest ∧ ∀ c ∈ body, c ≠ 'S' := by
  obtain ⟨ws, hshape, -, hdig, hws⟩ := reS_match_here_shape h
  have hval : ∀ c ∈ val, c ≠ 'S' := by
    unfold reS_match_here at h
    split at h
    · dsimp only at h
      split at h
      · cases h
      · split at h
        · split at h
          · rename_i val1 rest1 hv
            simp only [Option.some.injEq, Prod.mk.injEq] at h
            obtain ⟨-, rfl, -⟩ := h
            exact reS_value_no_S hv
          · cases h
        · cases h
    · cases h
  refine ⟨idx ++ ':' :: ws ++ val, ?_, ?_⟩
  · rw [hshape]; simp
  · intro c hc
    simp only [List.mem_append, List.mem_cons] at hc
    rcases hc with (hc | rfl | hc) | hc
    · exact (isdigit_not_special (hdig c hc)).2.2.2.2.1
    · decide
    · exact (isspace_not_special (hws c hc)).1
    · exact hval c hc

/-- The regex matches wherever a sensor field stands, and captures its index
digits. -/
theorem reS_match_here_of_field (idx ws sg : Str) (d : Char) (post : Str)
    (hne : idx ≠ []) (hdig : ∀ c ∈ idx, isdigit c = true) (hws : ∀ c ∈ ws, isspace c = true)
    (hsg : sg = [] ∨ sg = ['-'] ∨ sg = ['+']) (hd : isdigit d = true) :
    ∃ val rest1, reS_match_here ('S' :: idx ++ ':' :: ws ++ sg ++ d :: post) =
      some (idx, val, rest1) := by
  have hds := isdigit_not_special hd
  have e : 'S' :: idx ++ ':' :: ws ++ sg ++ d :: post =
      'S' :: (idx ++ ':' :: (ws ++ (sg ++ d :: post))) := by simp
  rw [e]
  simp only [reS_match_here]
  obtain ⟨h1, h2⟩ := takeWhile_append_stop isdigit idx (':' :: (ws ++ (sg ++ d :: post)))
    hdig (by intro c hc; simp only [List.head?_cons, Option.some.injEq] at hc; subst hc; decide)
  rw [h1, h2, if_neg hne]
  simp only []
  have hhead : ∀ c, (sg ++ d :: post).head? = some c → isspace c = false := by
    intro c hc
    rcases hsg with rfl | rfl | rfl
    · simp only [List.nil_append, List.head?_cons, Option.some.injEq] at hc
      subst hc; exact hds.2.2.2.2.2.2
    · simp only [List.cons_append, List.head?_cons, Option.some.injEq] at hc
      subst hc; decide
    · simp only [List.cons_append, List.head?_cons, Option.some.injEq] at hc
      subst hc; decide
  rw [(takeWhile_append_stop isspace ws (sg ++ d :: post) hws hhead).2]
  have hv : ∃ val rest1, reS_value (sg ++ d :: post) = some (val, rest1) := by
    cases hv : reS_value (sg ++ d :: post) with
    | some m => exact ⟨m.1, m.2, rfl⟩
    | none =>
      exfalso
      unfold reS_value at hv
      rcases hsg with rfl | rfl | rfl
      · have : ¬ (d = '-' ∨ d = '+') := fun h => h.elim hds.1 hds.2.1
        simp [this, List.takeWhile_cons, hd] at hv
      · simp [List.takeWhile_cons, hd] at hv
      · simp [List.takeWhile_cons, hd] at hv
  obtain ⟨val, rest1, hv⟩ := hv
  rw [hv]
  exact ⟨val, rest1, rfl⟩

/-- The scan finds the match that starts at any `S` of the text where the
regex matches: an earlier match cannot reach over that `S`. -/
theorem reS_matches_of_match_at (idx val rest1 suf1 : Str)
    (hsuf : reS_match_here ('S' :: suf1) = some (idx, val, rest1)) :
    ∀ (n : Nat) (before : Str), before.length ≤ n →
      (idx, val) ∈ reS_matches (before ++ 'S' :: suf1) := by
  intro n
  induction n with
  | zero =>
    intro before hb
    have : before = [] := List.length_eq_zero.mp (by omega)
    subst this
    rw [List.nil_append, reS_matches_cons, hsuf]
    exact List.mem_cons_self _ _
  | succ n ih =>
    intro before hb
    cases before with
    | nil =>
      rw [List.nil_append, reS_matches_cons, hsuf]
      exact List.mem_cons_self _ _
    | cons c b =>
      simp only [List.length_cons] at hb
      rw [List.cons_append, reS_matches_cons]
      cases hh : reS_match_here (c :: (b ++ 'S' :: suf1)) with
      | none => exact ih b (by omega)
      | some m =>
        obtain ⟨i1, v1, r1⟩ := m
        simp only []
        apply List.mem_cons_of_mem
        obtain ⟨body, htext, hnoS⟩ := reS_match_here_text hh
        simp only [List.cons_append, List.cons.injEq] at htext
        obtain ⟨-, htext⟩ := htext
        rcases List.append_eq_append_iff.mp htext with ⟨a1, h1, h2⟩ | ⟨c1, h1, h2⟩
        · cases a1 with
          | nil =>
            simp only [List.append_nil] at h1
            simp only [List.nil_append] at h2
            rw [← h2]
            exact ih [] (by simp)
          | cons x a1 =>
            simp only [List.cons_append, List.cons.injEq] at h2
            exfalso
            apply hnoS 'S'
            · rw [h1, ← h2.1]
              simp
            · rfl
        · rw [h2]
          refine ih c1 ?_
          have := congrArg List.length h1
          simp only [List.length_append] at this
          omega

/-- The payload holds a sensor field for the index `i` exactly when the scan
of the sensor regex produces a match whose index digits denote `i`. -/
theorem has_sensor_field_iff (i : Nat) (rest : Str) :
    has_sensor_field i rest ↔ ∃ m ∈ reS_matches rest, decval m.1 = i := by
  constructor
  · rintro ⟨before, idx, ws, sg, d, post, e, hne, hdig, hi, hws, hsg, hd⟩
    obtain ⟨val, rest1, hm⟩ := reS_match_here_of_field idx ws sg d post hne hdig hws hsg hd
    refine ⟨(idx, val), ?_, hi⟩
    rw [e]
    have e2 : 'S' :: idx ++ ':' :: ws ++ sg ++ d :: post =
        'S' :: (idx ++ ':' :: ws ++ sg ++ d :: post) := by simp
    rw [e2] at hm ⊢
    exact reS_matches_of_match_at idx val rest1 _ hm before.length before (le_refl _)
  · rintro ⟨⟨idx, val⟩, hm, hi⟩
    obtain ⟨before, suf, rest1, e, hsuf⟩ :=
      reS_matches_mem idx val rest.length rest (le_refl _) hm
    obtain ⟨ws, hshape, hne, hdig, hws⟩ := reS_match_here_shape hsuf
    obtain ⟨sg, d, more, hval, hsg, hd⟩ := reS_match_here_value hsuf
    refine ⟨before, idx, ws, sg, d, more ++ rest1, ?_, hne, hdig, hi, hws, hsg, hd⟩
    rw [e, hshape, hval]
    simp

end MakeTuple

namespace MakeTuple

/-! ## C2, C3: the sensor columns of a row -/

/-- C2: when a row is emitted for a line and the payload (the text after the
second comma) contains no sensor field `S<i>: <number>` for the index `i` in
1..19, the column `S_i` of the row is NaN, whatever the values of the variables
left by the previous lines. -/
theorem C2_absent_sensor_is_nan {F : Type} (nan : F) (stof : Str → Option F) (v : Row F)
    (raw date time rest : Str) (r : Row F) (i : Nat)
    (hrow : parse_line nan stof v raw = .row r)
    (hfields : line_fields raw = some (date, time, rest))
    (hi : 1 ≤ i ∧ i ≤ 19)
    (habsent : ¬ has_sensor_field i rest) :
    r.S.length = 19 ∧ r.S[i - 1]? = some nan := by
  obtain ⟨date1, time1, rest1, y, mo, d, hh, mi, s, S, hf, -, -, hS, rfl⟩ := parse_line_row hrow
  rw [hfields] at hf
  simp only [Option.some.injEq, Prod.mk.injEq] at hf
  obtain ⟨-, -, rfl⟩ := hf
  have hlen := assign_sensors_length stof _ _ _ hS
  have hnan : S[i - 1]? = (List.replicate NSENS nan)[i - 1]? := by
    apply assign_sensors_absent stof (i - 1) _ _ _ hS
    intro m hm hc
    have e : ((i - 1 : Nat) : Int) + 1 = (i : Int) := by omega
    rw [e] at hc
    apply habsent
    rw [has_sensor_field_iff]
    refine ⟨m, hm, ?_⟩
    have := stoi_eq_some hc
    exact_mod_cast this.symm
  refine ⟨by simpa [NSENS] using hlen, ?_⟩
  show S[i - 1]? = some nan
  rw [hnan]
  have hlt : i - 1 < NSENS := by unfold NSENS; omega
  simp [List.getElem?_replicate, hlt]

theorem C2_absent_sensor_is_nan_witness :
    (Row.S (F := Lit) ⟨2025, 8, 20, 7, 0, 0, 25200, 0,
        List.replicate 18 Lit.nan ++ [Lit.val "-1.25".toList]⟩).length = 19 ∧
      (Row.S (F := Lit) ⟨2025, 8, 20, 7, 0, 0, 25200, 0,
        List.replicate 18 Lit.nan ++ [Lit.val "-1.25".toList]⟩)[3 - 1]? = some Lit.nan :=
  C2_absent_sensor_is_nan Lit.nan Lit.stof
    ⟨1999, 1, 1, 1, 1, 1, 1, 0, List.replicate 19 (Lit.val "7".toList)⟩
    "2025-08-20,07:00:00, S19: -1.25,".toList "2025-08-20".toList "07:00:00".toList
    " S19: -1.25".toList
    ⟨2025, 8, 20, 7, 0, 0, 25200, 0, List.replicate 18 Lit.nan ++ [Lit.val "-1.25".toList]⟩ 3
    (by decide) (by decide) (by decide)
    (fun h => absurd ((has_sensor_field_iff 3 " S19: -1.25".toList).mp h) (by decide))

/-- C3: when a row is emitted for a line and exactly one match of the sensor
regex in the payload carries the index `i` in 1..19, with value literal `val`,
the column `S_i` of the row is the float that `std::stof` converts `val` to.
In particular a line whose payload is `S5: 21.3` (with or without a leading
space) gives `S_5 = stof "21.3"` and NaN in the 18 other columns. -/
theorem C3_single_sensor_value {F : Type} (nan : F) (stof : Str → Option F) (v : Row F)
    (raw date time rest : Str) (r : Row F)
    (hrow : parse_line nan stof v raw = .row r)
    (hfields : line_fields raw = some (date, time, rest)) :
    (∀ (i : Nat) (idx val : Str), 1 ≤ i ∧ i ≤ 19 →
        (reS_matches rest).filter (fun m => decide (stoi m.1 = some (i : Int))) = [(idx, val)] →
        ∃ x, stof val = some x ∧ r.S[i - 1]? = some x) ∧
      (rest = "S5: 21.3".toList ∨ rest = " S5: 21.3".toList →
        ∃ x, stof "21.3".toList = some x ∧
          r.S = List.replicate 4 nan ++ x :: List.replicate 14 nan) := by
  obtain ⟨date1, time1, rest1, y, mo, d, hh, mi, s, S, hf, -, -, hS, rfl⟩ := parse_line_row hrow
  rw [hfields] at hf
  simp only [Option.some.injEq, Prod.mk.injEq] at hf
  obtain ⟨-, -, rfl⟩ := hf
  constructor
  · intro i idx val hi hfilt
    obtain ⟨l1, l2, hsplit, h1, h2⟩ :
        ∃ l1 l2, reS_matches rest = l1 ++ (idx, val) :: l2 ∧
          stoi idx = some (i : Int) ∧ ∀ m ∈ l2, stoi m.1 ≠ some (i : Int) := by
      generalize reS_matches rest = ms at hfilt
      induction ms with
      | nil => simp at hfilt
      | cons m ms ih =>
        rw [List.filter_cons] at hfilt
        split at hfilt
        · rename_i hm
          simp only [List.cons.injEq] at hfilt
          obtain ⟨rfl, hnil⟩ := hfilt
          refine ⟨[], ms, rfl, by simpa using hm, ?_⟩
          intro m1 hm1 hc
          have : m1 ∈ List.filter (fun m => decide (stoi m.1 = some (i : Int))) ms :=
            List.mem_filter.mpr ⟨hm1, by simpa using hc⟩
          rw [hnil] at this
          simp at this
        · obtain ⟨l1, l2, e, h1, h2⟩ := ih hfilt
          exact ⟨m :: l1, l2, by rw [e]; rfl, h1, h2⟩
    rw [hsplit] at hS
    have e : ((i - 1 : Nat) : Int) + 1 = (i : Int) := by omega
    exact assign_sensors_last stof (i - 1) (by unfold NSENS; omega) l1 l2 idx val _ S
      (by simp) hS (by rw [e]; exact h1) (by rw [e]; exact h2)
  · intro hr
    have hm : reS_matches rest = [("5".toList, "21.3".toList)] := by
      rcases hr with rfl | rfl <;> decide
    rw [hm] at hS
    have h5 : stoi "5".toList = some 5 := by decide
    simp only [assign_sensors, h5] at hS
    rw [if_pos (by decide)] at hS
    cases hx : stof "21.3".toList with
    | none => rw [hx] at hS; cases hS
    | some x =>
      rw [hx] at hS
      refine ⟨x, rfl, ?_⟩
      simp only [Option.some.injEq] at hS
      rw [← hS]
      rfl

theorem C3_single_sensor_value_witness :
    (∃ x, Lit.stof "21.3".toList = some x ∧
        (Row.S (F := Lit) ⟨2025, 8, 19, 15, 22, 22, 55342, 0,
          List.replicate 4 Lit.nan ++ Lit.val "21.3".toList :: List.replicate 14 Lit.nan⟩)[5 - 1]?
          = some x) ∧
      (∃ x, Lit.stof "21.3".toList = some x ∧
        Row.S (F := Lit) ⟨2025, 8, 19, 15, 22, 22, 55342, 0,
          List.replicate 4 Lit.nan ++ Lit.val "21.3".toList :: List.replicate 14 Lit.nan⟩
          = List.replicate 4 Lit.nan ++ x :: List.replicate 14 Lit.nan) :=
  ⟨(C3_single_sensor_value Lit.nan Lit.stof Lit.vars0
      "2025-08-19,15:22:22, S5: 21.3".toList "2025-08-19".toList "15:22:22".toList
      " S5: 21.3".toList
      ⟨2025, 8, 19, 15, 22, 22, 55342, 0,
        List.replicate 4 Lit.nan ++ Lit.val "21.3".toList :: List.replicate 14 Lit.nan⟩
      (by decide) (by decide)).1 5 "5".toList "21.3".toList (by decide) (by decide),
   (C3_single_sensor_value Lit.nan Lit.stof Lit.vars0
      "2025-08-19,15:22:22, S5: 21.3".toList "2025-08-19".toList "15:22:22".toList
      " S5: 21.3".toList
      ⟨2025, 8, 19, 15, 22, 22, 55342, 0,
        List.replicate 4 Lit.nan ++ Lit.val "21.3".toList :: List.replicate 14 Lit.nan⟩
      (by decide) (by decide)).2 (Or.inr rfl)⟩

end MakeTuple

namespace MakeTuple

/-! ## C4: a trailing `.` or `,` -/

theorem find_char_append_of_not (x : Char) (l m : Str) (hm : ∀ c ∈ m, c ≠ x) :
    find_char x (l ++ m) = find_char x l := by
  induction l with
  | nil =>
    induction m with
    | nil => rfl
    | cons c t ih =>
      simp only [List.nil_append, find_char] at ih ⊢
      rw [if_neg (hm c (List.mem_cons_self _ _)), ih (fun c hc => hm c (List.mem_cons_of_mem _ hc))]
      rfl
  | cons a l ih =>
    rw [List.cons_append]
    simp only [find_char]
    rw [ih]

theorem find_char_lt (x : Char) : ∀ (l : Str) (k : Nat), find_char x l = some k → k < l.length := by
  intro l
  induction l with
  | nil => intro k h; cases h
  | cons a l ih =>
    intro k h
    simp only [find_char] at h
    split at h
    · simp only [Option.some.injEq] at h; subst h; simp
    · cases hf : find_char x l with
      | none => rw [hf] at h; cases h
      | some j =>
        rw [hf] at h
        simp only [Option.map_some', Option.some.injEq] at h
        have := ih j hf
        simp only [List.length_cons]
        omega

theorem str_find_bounds {s : Str} {x : Char} {pos k : Nat} (h : str_find s x pos = some k) :
    pos ≤ k ∧ k < s.length := by
  unfold str_find at h
  cases hf : find_char x (s.drop pos) with
  | none => rw [hf] at h; cases h
  | some j =>
    rw [hf] at h
    simp only [Option.map_some', Option.some.injEq] at h
    have := find_char_lt x _ j hf
    simp only [List.length_drop] at this
    omega

theorem str_find_append_of_not (s m : Str) (x : Char) (pos : Nat) (hpos : pos ≤ s.length)
    (hm : ∀ c ∈ m, c ≠ x) : str_find (s ++ m) x pos = str_find s x pos := by
  unfold str_find
  rw [List.drop_append_of_le_length hpos, find_char_append_of_not x _ m hm]

/-- A text without commas after a cleaned line is appended to its payload and
changes nothing else. -/
theorem split_fields_append_tail (T m : Str) (hnc : ∀ c ∈ m, c ≠ ',') :
    split_fields (T ++ m) = (split_fields T).map (fun f => (f.1, f.2.1, f.2.2 ++ m)) := by
  unfold split_fields
  rw [str_find_append_of_not T m ',' 0 (Nat.zero_le _) hnc]
  cases h1 : str_find T ',' 0 with
  | none => rfl
  | some p1 =>
    have b1 := str_find_bounds h1
    simp only []
    rw [str_find_append_of_not T m ',' (p1 + 1) (by omega) hnc]
    cases h2 : str_find T ',' (p1 + 1) with
    | none => rfl
    | some p2 =>
      have b2 := str_find_bounds h2
      simp only [Option.map_some', Option.some.injEq, Prod.mk.injEq]
      refine ⟨?_, ?_, ?_⟩
      · unfold substr
        simp only [List.drop_zero]
        rw [List.take_append_of_le_length (by omega)]
      · unfold substr
        rw [List.drop_append_of_le_length (by omega),
          List.take_append_of_le_length (by simp only [List.length_drop]; omega)]
      · rw [List.drop_append_of_le_length (by omega)]

theorem fields_outcome_append_tail {F : Type} (nan : F) (stof : Str → Option F) (fid : Int)
    (date time rest m : Str) (hnd : ∀ c ∈ m, isdigit c = false)
    (hhd : ∀ c, m.head? = some c → c ≠ 'S' ∧ c ≠ ':') :
    fields_outcome nan stof fid date time (rest ++ m) =
      fields_outcome nan stof fid date time rest := by
  unfold fields_outcome
  rw [reS_matches_append_tail m hnd hhd rest.length rest (le_refl _)]

theorem split_fields_nil : split_fields [] = none := rfl

theorem dropWhile_isspace_head (L : Str) (c : Char)
    (h : (L.dropWhile isspace).head? = some c) : isspace c = false := by
  have := List.head?_dropWhile_not isspace L
  rw [h] at this
  simpa using this

/-- The fields of a line that ends in `.` or `,`: those of the line without
that character and without its leading whitespace. -/
theorem line_fields_concat (L : Str) (c : Char) (hc : c = '.' ∨ c = ',') :
    line_fields (L ++ [c]) =
      if (L.dropWhile isspace).head? = some '#' then none
      else split_fields (L.dropWhile isspace) := by
  have hsp : isspace c = false := by rcases hc with rfl | rfl <;> decide
  have hne : c ≠ '#' := by rcases hc with rfl | rfl <;> decide
  have htrim : trim_copy (L ++ [c]) = L.dropWhile isspace ++ [c] := by
    unfold trim_copy
    rw [dropWhile_append_of_not isspace L [c] (by simpa using hsp)]
    exact List.rdropWhile_concat_neg _ _ _ (by simp [hsp])
  have hstrip : strip_trailing (L.dropWhile isspace ++ [c]) = L.dropWhile isspace := by
    unfold strip_trailing
    rw [if_pos (by rcases hc with rfl | rfl <;> simp)]
    simp
  unfold line_fields
  rw [htrim, hstrip]
  cases hX : L.dropWhile isspace with
  | nil => simp [hne, split_fields_nil]
  | cons a X => simp

/-- The fields of a line whose last non-blank character is not `,`: the line
without its leading whitespace has the same fields, with some text without
digits after the payload. -/
theorem line_fields_plain (L : Str) (h : (trim_copy L).getLast? ≠ some ',') :
    ∃ m, (∀ c ∈ m, isdigit c = false) ∧ (∀ c, m.head? = some c → c ≠ 'S' ∧ c ≠ ':') ∧
      (if (L.dropWhile isspace).head? = some '#' then none
        else split_fields (L.dropWhile isspace)) =
        (line_fields L).map (fun f => (f.1, f.2.1, f.2.2 ++ m)) := by
  obtain ⟨ws, hX, hws⟩ := rdropWhile_split isspace (L.dropWhile isspace)
  have hT : trim_copy L = (L.dropWhile isspace).rdropWhile isspace := rfl
  have hwsd : ∀ c ∈ ws, isdigit c = false := fun c hc => isspace_not_digit (hws c hc)
  have hwsc : ∀ c ∈ ws, c ≠ ',' := fun c hc => (isspace_not_special (hws c hc)).2.2.2.2.2.1
  have hwsh : ∀ c, ws.head? = some c → c ≠ 'S' ∧ c ≠ ':' := by
    intro c hc
    have := isspace_not_special (hws c (List.mem_of_mem_head? hc))
    exact ⟨this.1, this.2.1⟩
  unfold line_fields
  rw [← hT] at hX
  cases hTc : trim_copy L with
  | nil =>
    refine ⟨ws, hwsd, hwsh, ?_⟩
    have hall : ∀ x ∈ L.dropWhile isspace, isspace x = true := by
      rw [hT] at hTc
      exact List.rdropWhile_eq_nil_iff.mp hTc
    have hXnil : L.dropWhile isspace = [] := by
      cases hd : L.dropWhile isspace with
      | nil => rfl
      | cons a X =>
        have h1 := dropWhile_isspace_head L a (by rw [hd]; rfl)
        have h2 := hall a (by rw [hd]; exact List.mem_cons_self _ _)
        rw [h1] at h2
        cases h2
    simp [hXnil, split_fields_nil]
  | cons a T =>
    rw [hTc] at hX h
    have hhead : (L.dropWhile isspace).head? = some a := by rw [hX]; rfl
    rw [hhead]
    simp only [reduceCtorEq, List.head?_cons, false_or]
    by_cases hdot : (a :: T).getLast? = some '.'
    · obtain ⟨T1, hT1⟩ : ∃ T1, a :: T = T1 ++ ['.'] := by
        rcases List.eq_nil_or_concat (a :: T) with hnil | ⟨T1, x, hx⟩
        · cases hnil
        · rw [List.concat_eq_append] at hx
          rw [hx, List.getLast?_concat] at hdot
          simp only [Option.some.injEq] at hdot
          exact ⟨T1, by rw [hx, hdot]⟩
      have hstrip : strip_trailing (a :: T) = T1 := by
        unfold strip_trailing
        rw [if_pos (Or.inl hdot), hT1]
        simp
      refine ⟨'.' :: ws, ?_, ?_, ?_⟩
      · intro c hc
        rcases List.mem_cons.mp hc with rfl | hc
        · decide
        · exact hwsd c hc
      · intro c hc
        simp only [List.head?_cons, Option.some.injEq] at hc
        subst hc
        decide
      · rw [hstrip]
        split
        · rfl
        · have e : L.dropWhile isspace = T1 ++ '.' :: ws := by rw [hX, hT1]; simp
          rw [e]
          apply split_fields_append_tail
          intro c hc
          rcases List.mem_cons.mp hc with rfl | hc
          · decide
          · exact hwsc c hc
    · have hstrip : strip_trailing (a :: T) = a :: T := by
        unfold strip_trailing
        rw [if_neg (by tauto)]
      refine ⟨ws, hwsd, hwsh, ?_⟩
      rw [hstrip]
      split
      · rfl
      · rw [hX]
        exact split_fields_append_tail (a :: T) ws hwsc

/-- C4, as stated, fails: the line `2025-08-19,15:22:22,` is skipped, and the
same line followed by `.` yields a row. -/
theorem C4_counterexample :
    parse_line Lit.nan Lit.stof Lit.vars0 "2025-08-19,15:22:22,".toList = .skipped ∧
      parse_line Lit.nan Lit.stof Lit.vars0 ("2025-08-19,15:22:22,".toList ++ ['.'])
        = .row ⟨2025, 8, 19, 15, 22, 22, 55342, 0, List.replicate 19 Lit.nan⟩ := by
  decide

end MakeTuple

namespace MakeTuple

/-! ## C5: the order of the sensor fields -/

theorem field_end_not_digit {tail : Str} (h : field_end tail) :
    ∀ c, tail.head? = some c → isdigit c = false := by
  intro c hc
  rcases h with rfl | h
  · cases hc
  · rw [h] at hc
    simp only [Option.some.injEq] at hc
    subst hc
    decide

theorem reS_frac_field (f : Field) (hf : f.wf) (tail : Str) (ht : field_end tail) :
    reS_frac (f.frac ++ tail) = (f.frac, tail) := by
  obtain ⟨-, -, -, -, -, -, -, hfp⟩ := hf
  unfold Field.frac
  cases hd : f.fp with
  | none =>
    simp only [List.nil_append]
    unfold reS_frac
    split
    · rename_i r6
      rcases ht with h | h
      · cases h
      · simp at h
    · rfl
  | some d =>
    obtain ⟨hne, hdig⟩ := hfp d hd
    simp only [List.cons_append, reS_frac]
    obtain ⟨h1, h2⟩ := takeWhile_append_stop isdigit d tail hdig (field_end_not_digit ht)
    rw [h1, h2, if_neg hne]

theorem frac_head_not_digit (f : Field) (tail : Str) (ht : field_end tail) :
    ∀ c, (f.frac ++ tail).head? = some c → isdigit c = false := by
  unfold Field.frac
  cases f.fp with
  | none => simpa using field_end_not_digit ht
  | some d =>
    intro c hc
    simp only [List.cons_append, List.head?_cons, Option.some.injEq] at hc
    subst hc
    decide

theorem reS_value_field (f : Field) (hf : f.wf) (tail : Str) (ht : field_end tail) :
    reS_value (f.value ++ tail) = some (f.value, tail) := by
  have hfr := reS_frac_field f hf tail ht
  obtain ⟨-, -, -, -, hsign, hipne, hip, -⟩ := hf
  obtain ⟨h1, h2⟩ := takeWhile_append_stop isdigit f.ip (f.frac ++ tail) hip
    (frac_head_not_digit f tail ht)
  obtain ⟨c0, ip0, hip0⟩ : ∃ c0 ip0, f.ip = c0 :: ip0 := by
    cases hh : f.ip with
    | nil => exact absurd hh hipne
    | cons c0 ip0 => exact ⟨c0, ip0, rfl⟩
  have hc0 := isdigit_not_special (hip c0 (by rw [hip0]; exact List.mem_cons_self _ _))
  unfold Field.value reS_value
  rcases hsign with hs | hs | hs
  · rw [hs]
    simp only [List.nil_append, List.append_assoc]
    have hh : (f.ip ++ (f.frac ++ tail)).head? = some c0 := by rw [hip0]; rfl
    rw [hh]
    have : ¬ (some c0 = some '-' ∨ some c0 = some '+') := by
      simp only [Option.some.injEq]
      exact fun h => h.elim hc0.1 hc0.2.1
    simp only [this, if_false]
    rw [h1, h2, hfr, if_neg hipne]
    rfl
  · rw [hs]
    simp only [List.cons_append, List.nil_append, List.append_assoc, List.head?_cons,
      List.tail_cons, List.take_succ_cons, List.take_zero, true_or, if_true]
    rw [h1, h2, hfr, if_neg hipne]
  · rw [hs]
    simp only [List.cons_append, List.nil_append, List.append_assoc, List.head?_cons,
      List.tail_cons, List.take_succ_cons, List.take_zero, or_true, if_true]
    rw [h1, h2, hfr, if_neg hipne]

theorem value_head_not_space (f : Field) (hf : f.wf) (tail : Str) :
    ∀ c, (f.value ++ tail).head? = some c → isspace c = false := by
  obtain ⟨-, -, -, -, hsign, hipne, hip, -⟩ := hf
  obtain ⟨c0, ip0, hip0⟩ : ∃ c0 ip0, f.ip = c0 :: ip0 := by
    cases hh : f.ip with
    | nil => exact absurd hh hipne
    | cons c0 ip0 => exact ⟨c0, ip0, rfl⟩
  have hc0 := isdigit_not_special (hip c0 (by rw [hip0]; exact List.mem_cons_self _ _))
  intro c hc
  unfold Field.value at hc
  rcases hsign with hs | hs | hs
  · rw [hs, hip0] at hc
    simp only [List.nil_append, List.cons_append, List.head?_cons, Option.some.injEq] at hc
    subst hc
    exact hc0.2.2.2.2.2.2
  · rw [hs] at hc
    simp only [List.cons_append, List.head?_cons, Option.some.injEq] at hc
    subst hc
    decide
  · rw [hs] at hc
    simp only [List.cons_append, List.head?_cons, Option.some.injEq] at hc
    subst hc
    decide

/-- The sensor regex matches a sensor field written at the head of the text,
and captures its index and its literal. -/
theorem reS_match_here_field (f : Field) (hf : f.wf) (tail : Str) (ht : field_end tail) :
    reS_match_here ('S' :: (f.idx ++ ':' :: (f.gap ++ (f.value ++ tail)))) =
      some (f.idx, f.value, tail) := by
  have hv := reS_value_field f hf tail ht
  have hsp := value_head_not_space f hf tail
  obtain ⟨-, hidxne, hidx, hgap, -, -, -, -⟩ := hf
  simp only [reS_match_here]
  obtain ⟨h1, h2⟩ := takeWhile_append_stop isdigit f.idx (':' :: (f.gap ++ (f.value ++ tail)))
    hidx (by intro c hc; simp only [List.head?_cons, Option.some.injEq] at hc; subst hc; decide)
  rw [h1, h2, if_neg hidxne]
  simp only []
  rw [(takeWhile_append_stop isspace f.gap (f.value ++ tail) hgap hsp).2, hv]

theorem reS_matches_skip_ws (pad s : Str) (hpad : ∀ c ∈ pad, isspace c = true) :
    reS_matches (pad ++ s) = reS_matches s := by
  induction pad with
  | nil => rfl
  | cons c t ih =>
    rw [List.cons_append, reS_matches_cons,
      reS_match_here_of_ne _ (isspace_not_special (hpad c (List.mem_cons_self _ _))).1]
    exact ih (fun c hc => hpad c (List.mem_cons_of_mem _ hc))

theorem reS_matches_field (f : Field) (hf : f.wf) (tail : Str) (ht : field_end tail) :
    reS_matches (f.text ++ tail) = (f.idx, f.value) :: reS_matches tail := by
  have e : f.text ++ tail = f.pad ++ ('S' :: (f.idx ++ ':' :: (f.gap ++ (f.value ++ tail)))) := by
    simp [Field.text]
  rw [e, reS_matches_skip_ws _ _ hf.1, reS_matches_cons, reS_match_here_field f hf tail ht]

/-- The matches of the sensor regex in a comma-separated list of sensor fields
are the fields, in their order. -/
theorem reS_matches_fields_text (fs : List Field) (hwf : ∀ f ∈ fs, f.wf) :
    reS_matches (fields_text fs) = fs.map (fun f => (f.idx, f.value)) := by
  induction fs with
  | nil => rfl
  | cons f fs ih =>
    have hf := hwf f (List.mem_cons_self _ _)
    cases fs with
    | nil =>
      have := reS_matches_field f hf [] (Or.inl rfl)
      simpa [fields_text, reS_matches_nil] using this
    | cons g gs =>
      rw [fields_text, reS_matches_field f hf _ (Or.inr (List.head?_cons ..)), reS_matches_cons,
        reS_match_here_of_ne _ (by decide), ih (fun f hf => hwf f (List.mem_cons_of_mem _ hf))]
      rfl

end MakeTuple

namespace MakeTuple

theorem assign_sensors_cons {F : Type} (stof : Str → Option F) (m : Str × Str)
    (ms : List (Str × Str)) (S : List F) :
    assign_sensors stof (m :: ms) S = (sensor_step stof m S).bind (assign_sensors stof ms) := by
  obtain ⟨idx, val⟩ := m
  simp only [assign_sensors, sensor_step]
  cases stoi idx with
  | none => rfl
  | some k =>
    simp only []
    split
    · cases stof val <;> rfl
    · rfl

end MakeTuple

namespace MakeTuple

theorem dropWhile_append_head_not {α : Type} (p : α → Bool) (l m : List α)
    (hm : ∀ c, m.head? = some c → p c = false) : (l ++ m).dropWhile p = l.dropWhile p ++ m := by
  induction l with
  | nil =>
    cases m with
    | nil => rfl
    | cons c t => simp [List.dropWhile, hm c rfl]
  | cons a l ih =>
    simp only [List.cons_append, List.dropWhile_cons]
    split
    · exact ih
    · rfl

theorem find_char_append_self (x : Char) (l m : Str) (hl : x ∉ l) :
    find_char x (l ++ x :: m) = some l.length := by
  induction l with
  | nil => simp [find_char]
  | cons a l ih =>
    simp only [List.mem_cons, not_or] at hl
    rw [List.cons_append]
    simp only [find_char]
    rw [if_neg (fun h => hl.1 h.symm), ih hl.2]
    rfl

end MakeTuple

namespace MakeTuple

/-! ## C6, C7, C8: the name of the output file -/

theorem extract_date_of_starts {b : Str} (h : starts_with_date b) :
    extract_date_yyyymmdd b = b.take 8 ∧ b.take 8 ≠ [] := by
  unfold extract_date_yyyymmdd
  have h' : 8 ≤ b.length ∧ (b.take 8).all isdigit = true := by
    refine ⟨h.1, ?_⟩
    rw [List.all_eq_true]
    exact h.2
  rw [if_pos h']
  refine ⟨rfl, ?_⟩
  intro hnil
  have := congrArg List.length hnil
  simp only [List.length_take, List.length_nil] at this
  have := h.1
  omega

theorem extract_date_of_not_starts {b : Str} (h : ¬ starts_with_date b) :
    extract_date_yyyymmdd b = [] := by
  unfold extract_date_yyyymmdd
  rw [if_neg]
  intro h'
  apply h
  refine ⟨h'.1, ?_⟩
  have := h'.2
  rw [List.all_eq_true] at this
  exact this

theorem leading_dates_cons (gs : Option TSystem) (f : Str) (fs : List Str) :
    leading_dates gs (f :: fs) =
      if starts_with_date (basename_of gs f) then
        (basename_of gs f).take 8 :: leading_dates gs fs
      else leading_dates gs fs := by
  unfold leading_dates
  simp only [List.map_cons, List.filter_cons]
  split <;> simp_all

theorem span_step_inv (gs : Option TSystem) (acc : Str × Str) (seen : List Str) (f : Str)
    (h : span_inv acc seen) :
    span_inv (span_step gs acc f) (seen ++ leading_dates gs [f]) := by
  obtain ⟨hne, hnil, hcons⟩ := h
  rw [leading_dates_cons]
  by_cases hs : starts_with_date (basename_of gs f)
  · obtain ⟨he, hd⟩ := extract_date_of_starts hs
    rw [if_pos hs]
    have hl : leading_dates gs [] = [] := rfl
    rw [hl]
    unfold span_step
    simp only [he, hd, if_false]
    generalize (basename_of gs f).take 8 = d at hd
    refine ⟨?_, ?_, ?_⟩
    · intro x hx
      rcases List.mem_append.mp hx with hx | hx
      · exact hne x hx
      · simp only [List.mem_singleton] at hx; rw [hx]; exact hd
    · intro h; simp at h
    · intro _
      by_cases hseen : seen = []
      · have hacc := hnil hseen
        subst hseen
        rw [hacc]
        simp
      · obtain ⟨h1, h2, hb⟩ := hcons hseen
        have hn1 : acc.1 ≠ [] := hne _ h1
        have hn2 : acc.2 ≠ [] := hne _ h2
        simp only [hn1, hn2, false_or]
        refine ⟨?_, ?_, ?_⟩
        · split
          · simp
          · exact List.mem_append_left _ h1
        · split
          · simp
          · exact List.mem_append_left _ h2
        · intro x hx
          rcases List.mem_append.mp hx with hx | hx
          · obtain ⟨hx1, hx2⟩ := hb x hx
            constructor
            · split
              · rename_i hlt; exact le_trans (le_of_lt hlt) hx1
              · exact hx1
            · split
              · rename_i hgt; exact le_trans hx2 (le_of_lt hgt)
              · exact hx2
          · simp only [List.mem_singleton] at hx
            subst hx
            constructor
            · split
              · exact le_refl _
              · rename_i hlt; exact not_lt.mp hlt
            · split
              · exact le_refl _
              · rename_i hgt; exact not_lt.mp hgt
  · rw [if_neg hs]
    have hl : leading_dates gs [] = [] := rfl
    rw [hl, List.append_nil]
    unfold span_step
    simp only [extract_date_of_not_starts hs, if_true]
    exact ⟨hne, hnil, hcons⟩

theorem leading_dates_append_one (gs : Option TSystem) (f : Str) (fs : List Str) :
    leading_dates gs (f :: fs) = leading_dates gs [f] ++ leading_dates gs fs := by
  rw [leading_dates_cons, leading_dates_cons]
  split <;> rfl

theorem span_foldl_inv (gs : Option TSystem) (files : List Str) :
    ∀ (acc : Str × Str) (seen : List Str), span_inv acc seen →
      span_inv (files.foldl (span_step gs) acc) (seen ++ leading_dates gs files) := by
  induction files with
  | nil =>
    intro acc seen h
    have hl : leading_dates gs [] = [] := rfl
    rw [hl, List.append_nil]
    exact h
  | cons f fs ih =>
    intro acc seen h
    rw [List.foldl_cons, leading_dates_append_one, ← List.append_assoc]
    exact ih _ _ (span_step_inv gs acc seen f h)

theorem span_inv_result (gs : Option TSystem) (files : List Str) :
    span_inv (compute_span_from_filenames gs files) (leading_dates gs files) := by
  have := span_foldl_inv gs files ([], []) [] ⟨by simp, fun _ => rfl, fun h => absurd rfl h⟩
  simpa using this

theorem span_fst_nil_iff (gs : Option TSystem) (files : List Str) :
    (compute_span_from_filenames gs files).1 = [] ↔ leading_dates gs files = [] := by
  obtain ⟨hne, hnil, hcons⟩ := span_inv_result gs files
  constructor
  · intro h
    by_contra hc
    exact hne _ (hcons hc).1 h
  · intro h
    rw [hnil h]

theorem leading_dates_nil_iff (gs : Option TSystem) (files : List Str) :
    leading_dates gs files = [] ↔ ∀ f ∈ files, ¬ starts_with_date (basename_of gs f) := by
  unfold leading_dates
  simp only [List.map_eq_nil_iff, List.filter_eq_nil_iff, List.mem_map, decide_eq_true_eq,
    forall_exists_index, and_imp, forall_apply_eq_imp_iff₂]

/-- C8: `compute_span_from_filenames` returns the lexicographically least and
greatest of the eight-digit beginnings of the basenames that start with eight
digits.  Both are empty exactly when there is no such basename; otherwise
`dmin ≤ dmax` and each is the first eight characters of the basename of some
file of the list. -/
theorem C8_span_is_min_max (gSystem : Option TSystem) (files : List Str) :
    ((compute_span_from_filenames gSystem files).1 = [] ↔ leading_dates gSystem files = []) ∧
    ((compute_span_from_filenames gSystem files).2 = [] ↔ leading_dates gSystem files = []) ∧
    (leading_dates gSystem files = [] ↔
      ∀ f ∈ files, ¬ starts_with_date (basename_of gSystem f)) ∧
    (leading_dates gSystem files ≠ [] →
      (compute_span_from_filenames gSystem files).1 ∈ leading_dates gSystem files ∧
      (compute_span_from_filenames gSystem files).2 ∈ leading_dates gSystem files ∧
      (∀ d ∈ leading_dates gSystem files,
        (compute_span_from_filenames gSystem files).1 ≤ d ∧
        d ≤ (compute_span_from_filenames gSystem files).2) ∧
      (compute_span_from_filenames gSystem files).1 ≤ (compute_span_from_filenames gSystem files).2 ∧
      (∃ f ∈ files, starts_with_date (basename_of gSystem f) ∧
        (compute_span_from_filenames gSystem files).1 = (basename_of gSystem f).take 8) ∧
      (∃ f ∈ files, starts_with_date (basename_of gSystem f) ∧
        (compute_span_from_filenames gSystem files).2 = (basename_of gSystem f).take 8)) := by
  obtain ⟨hne, hnil, hcons⟩ := span_inv_result gSystem files
  have hmem : ∀ d, d ∈ leading_dates gSystem files →
      ∃ f ∈ files, starts_with_date (basename_of gSystem f) ∧ d = (basename_of gSystem f).take 8 := by
    intro d hd
    unfold leading_dates at hd
    simp only [List.mem_map, List.mem_filter, decide_eq_true_eq] at hd
    obtain ⟨b, ⟨⟨f, hf, rfl⟩, hs⟩, rfl⟩ := hd
    exact ⟨f, hf, hs, rfl⟩
  refine ⟨span_fst_nil_iff gSystem files, ?_, ?_, ?_⟩
  · constructor
    · intro h
      by_contra hc
      exact hne _ (hcons hc).2.1 h
    · intro h
      rw [hnil h]
  · exact leading_dates_nil_iff gSystem files
  · intro h
    obtain ⟨h1, h2, hb⟩ := hcons h
    exact ⟨h1, h2, hb, (hb _ h1).2, hmem _ h1, hmem _ h2⟩

/-- C6: when the override is absent, empty or the literal `auto`,
`pick_outfile_name` returns `temps.root` if no basename starts with eight
digits, `temps_<dmin>.root` if the two ends of the span are equal and
`temps_<dmin>_<dmax>.root` otherwise; one file `20250819_x.TXT` gives
`temps_20250819.root`, files beginning with 20250819 and 20250820 give
`temps_20250819_20250820.root` (the examples with `basename_of` in its
fallback branch). -/
theorem C6_auto_name (gSystem : Option TSystem) (files : List Str) (ov : Option Str)
    (hov : ov = none ∨ ov = some [] ∨ ov = some "auto".toList) :
    ((∀ f ∈ files, ¬ starts_with_date (basename_of gSystem f)) →
      pick_outfile_name gSystem files ov = "temps.root".toList) ∧
    ((∃ f ∈ files, starts_with_date (basename_of gSystem f)) →
      (compute_span_from_filenames gSystem files).1 = (compute_span_from_filenames gSystem files).2 →
      pick_outfile_name gSystem files ov =
        "temps_".toList ++ (compute_span_from_filenames gSystem files).1 ++ ".root".toList) ∧
    ((∃ f ∈ files, starts_with_date (basename_of gSystem f)) →
      (compute_span_from_filenames gSystem files).1 ≠ (compute_span_from_filenames gSystem files).2 →
      pick_outfile_name gSystem files ov =
        "temps_".toList ++ (compute_span_from_filenames gSystem files).1 ++ "_".toList ++
          (compute_span_from_filenames gSystem files).2 ++ ".root".toList) ∧
    pick_outfile_name none ["20250819_x.TXT".toList] ov = "temps_20250819.root".toList ∧
    pick_outfile_name none ["20250819_a.TXT".toList, "20250820_b.TXT".toList] ov
      = "temps_20250819_20250820.root".toList := by
  have hpick : ∀ (gs : Option TSystem) (fl : List Str), pick_outfile_name gs fl ov =
      if (compute_span_from_filenames gs fl).1 = [] then "temps.root".toList
      else if (compute_span_from_filenames gs fl).1 = (compute_span_from_filenames gs fl).2 then
        "temps_".toList ++ (compute_span_from_filenames gs fl).1 ++ ".root".toList
      else "temps_".toList ++ (compute_span_from_filenames gs fl).1 ++ "_".toList ++
          (compute_span_from_filenames gs fl).2 ++ ".root".toList := by
    intro gs fl
    rcases hov with rfl | rfl | rfl
    · rfl
    · unfold pick_outfile_name
      simp
    · unfold pick_outfile_name
      simp
  have hiff := leading_dates_nil_iff gSystem files
  have hnil := span_fst_nil_iff gSystem files
  refine ⟨?_, ?_, ?_, ?_, ?_⟩
  · intro h
    rw [hpick, if_pos (hnil.mpr (hiff.mpr h))]
  · intro h heq
    have hne : ¬ (compute_span_from_filenames gSystem files).1 = [] := by
      rw [hnil, hiff]
      push_neg
      exact h
    rw [hpick, if_neg hne, if_pos heq]
  · intro h heq
    have hne : ¬ (compute_span_from_filenames gSystem files).1 = [] := by
      rw [hnil, hiff]
      push_neg
      exact h
    rw [hpick, if_neg hne, if_neg heq]
  · rw [hpick]; decide
  · rw [hpick]; decide

theorem C6_auto_name_witness :
    pick_outfile_name none ["20250819_x.TXT".toList] (some "auto".toList)
        = "temps_20250819.root".toList ∧
      pick_outfile_name none ["notes.txt".toList, "dir/readme".toList] (some "auto".toList)
        = "temps.root".toList :=
  ⟨(C6_auto_name none [] (some "auto".toList) (Or.inr (Or.inr rfl))).2.2.2.1,
   (C6_auto_name none ["notes.txt".toList, "dir/readme".toList] (some "auto".toList)
      (Or.inr (Or.inr rfl))).1 (by decide)⟩

theorem C8_span_is_min_max_witness :
    (compute_span_from_filenames none
        ["data/20250820_b.TXT".toList, "notes.txt".toList, "20250819_a.TXT".toList]).1
        = "20250819".toList ∧
      (compute_span_from_filenames none
        ["data/20250820_b.TXT".toList, "notes.txt".toList, "20250819_a.TXT".toList]).2
        = "20250820".toList ∧
      (compute_span_from_filenames none
        ["data/20250820_b.TXT".toList, "notes.txt".toList, "20250819_a.TXT".toList]).1 ≤
      (compute_span_from_filenames none
        ["data/20250820_b.TXT".toList, "notes.txt".toList, "20250819_a.TXT".toList]).2 :=
  ⟨by decide, by decide,
   ((C8_span_is_min_max none
      ["data/20250820_b.TXT".toList, "notes.txt".toList, "20250819_a.TXT".toList]).2.2.2
      (by decide)).2.2.2.1⟩

end MakeTuple

namespace MakeTuple

end MakeTuple

namespace MakeTuple

/-! ## C9: the input list -/

theorem comma_pieces_ne_nil (s : Str) : comma_pieces s ≠ [] := by
  induction s with
  | nil => simp [comma_pieces]
  | cons c t ih =>
    simp only [comma_pieces]
    split
    · simp
    · split <;> simp

theorem comma_pieces_of_not_mem (l : Str) (h : ',' ∉ l) : comma_pieces l = [l] := by
  induction l with
  | nil => rfl
  | cons c t ih =>
    simp only [List.mem_cons, not_or] at h
    simp only [comma_pieces]
    rw [if_neg (fun hc => h.1 hc.symm), ih h.2]

theorem comma_pieces_append (l m : Str) (h : ',' ∉ l) :
    comma_pieces (l ++ ',' :: m) = l :: comma_pieces m := by
  induction l with
  | nil => simp [comma_pieces]
  | cons c t ih =>
    simp only [List.mem_cons, not_or] at h
    rw [List.cons_append]
    simp only [comma_pieces]
    rw [if_neg (fun hc => h.1 hc.symm), ih h.2]

theorem comma_pieces_not_mem (s : Str) : ∀ p ∈ comma_pieces s, ',' ∉ p := by
  induction s with
  | nil => intro p hp; simp [comma_pieces] at hp; subst hp; simp
  | cons c t ih =>
    intro p hp
    simp only [comma_pieces] at hp
    split at hp
    · rcases List.mem_cons.mp hp with rfl | hp
      · simp
      · exact ih p hp
    · rename_i hc
      cases hq : comma_pieces t with
      | nil => exact absurd hq (comma_pieces_ne_nil t)
      | cons q qs =>
        rw [hq] at hp ih
        simp only [List.mem_cons] at hp
        rcases hp with rfl | hp
        · simp only [List.mem_cons, not_or]
          exact ⟨fun h => hc h.symm, ih q (List.mem_cons_self _ _)⟩
        · exact ih p (List.mem_cons_of_mem _ hp)

/-- Joining the pieces with commas gives the string back. -/
theorem comma_pieces_intercalate (s : Str) : [','].intercalate (comma_pieces s) = s := by
  induction s with
  | nil => rfl
  | cons c t ih =>
    simp only [comma_pieces]
    split
    · rename_i hc
      subst hc
      cases hq : comma_pieces t with
      | nil => exact absurd hq (comma_pieces_ne_nil t)
      | cons q qs =>
        rw [hq] at ih
        simp only [List.intercalate, List.intersperse, List.flatten_cons, List.nil_append,
          List.singleton_append] at ih ⊢
        rw [ih]
    · cases hq : comma_pieces t with
      | nil => exact absurd hq (comma_pieces_ne_nil t)
      | cons q qs =>
        rw [hq] at ih
        simp only []
        cases qs with
        | nil =>
          simp only [List.intercalate, List.intersperse, List.flatten_cons, List.flatten_nil,
            List.append_nil] at ih ⊢
          rw [ih]
        | cons q2 qs2 =>
          simp only [List.intercalate, List.intersperse, List.flatten_cons,
            List.cons_append] at ih ⊢
          rw [ih]

theorem find_char_none (x : Char) : ∀ l : Str, find_char x l = none → x ∉ l := by
  intro l
  induction l with
  | nil => intro _ h; cases h
  | cons a l ih =>
    intro h
    simp only [find_char] at h
    split at h
    · cases h
    · rename_i hne
      cases hf : find_char x l with
      | none =>
        simp only [List.mem_cons, not_or]
        exact ⟨fun e => hne e.symm, ih hf⟩
      | some k => rw [hf] at h; cases h

theorem find_char_some (x : Char) : ∀ (l : Str) (k : Nat), find_char x l = some k →
    l = l.take k ++ x :: l.drop (k + 1) ∧ x ∉ l.take k := by
  intro l
  induction l with
  | nil => intro k h; cases h
  | cons a l ih =>
    intro k h
    simp only [find_char] at h
    split at h
    · rename_i hax
      simp only [Option.some.injEq] at h
      subst h
      subst hax
      simp
    · rename_i hne
      cases hf : find_char x l with
      | none => rw [hf] at h; cases h
      | some j =>
        rw [hf] at h
        simp only [Option.map_some', Option.some.injEq] at h
        subst h
        obtain ⟨h1, h2⟩ := ih j hf
        constructor
        · simp only [List.take_succ_cons, List.drop_succ_cons, List.cons_append, List.cons.injEq,
            true_and]
          exact h1
        · simp only [List.take_succ_cons, List.mem_cons, not_or]
          exact ⟨fun e => hne e.symm, h2⟩

/-- The loop of `split_commas` from index `i` computes the trimmed non-empty
pieces of the rest of the string; the bound on its iterations is never
reached. -/
theorem split_commas_loop_eq (s : Str) : ∀ (fuel i : Nat), i ≤ s.length →
    s.length - i < fuel → split_commas_loop s fuel i = split_trim_drop (s.drop i) := by
  intro fuel
  induction fuel with
  | zero => intro i _ h; omega
  | succ fuel ih =>
    intro i hi hf
    simp only [split_commas_loop]
    by_cases hlt : i < s.length
    · rw [if_pos hlt]
      unfold str_find
      cases hfc : find_char ',' (s.drop i) with
      | none =>
        have hno := find_char_none ',' _ hfc
        simp only [Option.map_none']
        unfold split_trim_drop
        rw [comma_pieces_of_not_mem _ hno]
        simp only [List.map_cons, List.map_nil, List.filter_cons, List.filter_nil]
        split
        · rename_i h; simp [h]
        · rename_i h; simp [h]
      | some k =>
        obtain ⟨hsplit, hno⟩ := find_char_some ',' _ k hfc
        have hk := find_char_lt ',' _ k hfc
        simp only [List.length_drop] at hk
        simp only [Option.map_some']
        have e1 : substr s i (k + i - i) = (s.drop i).take k := by
          unfold substr
          rw [Nat.add_sub_cancel]
        have e2 : s.drop (k + i + 1) = (s.drop i).drop (k + 1) := by
          rw [List.drop_drop]
          congr 1
          omega
        rw [e1, ih (k + i + 1) (by omega) (by omega), e2]
        conv_rhs => rw [hsplit]
        unfold split_trim_drop
        rw [comma_pieces_append _ _ hno]
        simp only [List.map_cons, List.filter_cons]
        clear hsplit
        split
        · rename_i h; simp [h]
        · rename_i h; simp [h]
    · rw [if_neg hlt]
      have : s.drop i = [] := List.drop_eq_nil_of_le (by omega)
      rw [this]
      rfl

theorem split_commas_eq (s : Str) : split_commas s = split_trim_drop s := by
  unfold split_commas
  rw [split_commas_loop_eq s _ 0 (Nat.zero_le _) (by omega)]
  rfl

theorem foldl_append_singletons (glob : Str → Option (List Str)) (toks : List Str)
    (h : ∀ t ∈ toks, has_glob t = false) :
    ∀ acc : List Str,
      toks.foldl (fun all tok => all ++ expand_one_token glob tok) acc = acc ++ toks := by
  induction toks with
  | nil => intro acc; simp
  | cons t ts ih =>
    intro acc
    have ht := h t (List.mem_cons_self _ _)
    rw [List.foldl_cons, ih (fun t ht => h t (List.mem_cons_of_mem _ ht))]
    simp [expand_one_token, ht]

theorem trim_copy_head (s : Str) : ∀ c, (trim_copy s).head? = some c → isspace c = false := by
  intro c hc
  unfold trim_copy at hc
  obtain ⟨ws, hX, -⟩ := rdropWhile_split isspace (s.dropWhile isspace)
  cases hT : (s.dropWhile isspace).rdropWhile isspace with
  | nil => rw [hT] at hc; cases hc
  | cons a T =>
    rw [hT] at hc hX
    simp only [List.head?_cons, Option.some.injEq] at hc
    subst hc
    exact dropWhile_isspace_head s a (by rw [hX]; rfl)

theorem trim_copy_last (s : Str) : ∀ c, (trim_copy s).getLast? = some c → isspace c = false := by
  intro c hc
  unfold trim_copy at hc
  have hne : (s.dropWhile isspace).rdropWhile isspace ≠ [] := by
    intro h; rw [h] at hc; cases hc
  have := List.rdropWhile_last_not isspace (s.dropWhile isspace) hne
  rw [List.getLast?_eq_getLast _ hne] at hc
  simp only [Option.some.injEq] at hc
  rw [hc] at this
  simpa using this

theorem trim_copy_subset (s : Str) : ∀ c ∈ trim_copy s, c ∈ s := by
  intro c hc
  unfold trim_copy at hc
  have h1 := (List.rdropWhile_prefix isspace (l := s.dropWhile isspace)).subset hc
  exact (List.dropWhile_sublist _).subset h1

/-- C9: when no token of the pattern string contains `*`, `?` or `[`,
`expand_inputs` returns the pieces obtained by splitting the string on `,`
(joining them with commas gives the string back), each trimmed, the empty ones
removed, in their order and with duplicates kept; every returned path is
non-empty, neither starts nor ends with whitespace and contains no comma. -/
theorem C9_literal_tokens (glob : Str → Option (List Str)) (s : Str)
    (hnoglob : ∀ t ∈ split_trim_drop s, has_glob t = false) :
    expand_inputs glob s = split_trim_drop s ∧
    [','].intercalate (comma_pieces s) = s ∧
    ∀ p ∈ expand_inputs glob s,
      p ≠ [] ∧ (∀ c, p.head? = some c → isspace c = false) ∧
      (∀ c, p.getLast? = some c → isspace c = false) ∧ ',' ∉ p := by
  have hexp : expand_inputs glob s = split_trim_drop s := by
    unfold expand_inputs
    rw [split_commas_eq, foldl_append_singletons glob _ hnoglob]
    rfl
  refine ⟨hexp, comma_pieces_intercalate s, ?_⟩
  intro p hp
  rw [hexp] at hp
  unfold split_trim_drop at hp
  simp only [List.mem_filter, List.mem_map, decide_eq_true_eq] at hp
  obtain ⟨⟨q, hq, rfl⟩, hne⟩ := hp
  refine ⟨hne, trim_copy_head q, trim_copy_last q, ?_⟩
  intro hc
  exact comma_pieces_not_mem s q hq (trim_copy_subset q _ hc)

theorem C9_literal_tokens_witness :
    expand_inputs (fun _ => none) " a.txt , b.txt,, a.txt ,".toList
        = ["a.txt".toList, "b.txt".toList, "a.txt".toList] :=
  (C9_literal_tokens (fun _ => none) " a.txt , b.txt,, a.txt ,".toList (by decide)).1.trans
    (by decide)

end MakeTuple

namespace MakeTuple

/-! ## C10: the `files` side-table -/

theorem c_str_not_mem (s : Str) : '\x00' ∉ c_str s := by
  intro h
  have := List.mem_takeWhile_imp h
  simp at this

theorem c_str_of_not_mem (p : Str) (h : '\x00' ∉ p) : c_str p = p := by
  unfold c_str
  rw [List.takeWhile_eq_self_iff]
  intro c hc
  simp only [bne_iff_ne, ne_eq]
  intro e
  exact h (e ▸ hc)

theorem comma_pieces_subset (s : Str) : ∀ p ∈ comma_pieces s, ∀ c ∈ p, c ∈ s := by
  induction s with
  | nil => intro p hp c hc; simp [comma_pieces] at hp; subst hp; cases hc
  | cons a t ih =>
    intro p hp c hc
    simp only [comma_pieces] at hp
    split at hp
    · rcases List.mem_cons.mp hp with rfl | hp
      · cases hc
      · exact List.mem_cons_of_mem _ (ih p hp c hc)
    · cases hq : comma_pieces t with
      | nil => exact absurd hq (comma_pieces_ne_nil t)
      | cons q qs =>
        rw [hq] at hp ih
        simp only [List.mem_cons] at hp
        rcases hp with rfl | hp
        · rcases List.mem_cons.mp hc with rfl | hc
          · exact List.mem_cons_self _ _
          · exact List.mem_cons_of_mem _ (ih q (List.mem_cons_self _ _) c hc)
        · exact List.mem_cons_of_mem _ (ih p (List.mem_cons_of_mem _ hp) c hc)

theorem split_commas_subset (s : Str) : ∀ t ∈ split_commas s, ∀ c ∈ t, c ∈ s := by
  intro t ht c hc
  rw [split_commas_eq] at ht
  unfold split_trim_drop at ht
  simp only [List.mem_filter, List.mem_map] at ht
  obtain ⟨⟨q, hq, rfl⟩, -⟩ := ht
  exact comma_pieces_subset s q hq c (trim_copy_subset q c hc)

theorem foldl_expand_mem (glob : Str → Option (List Str)) (P : Str → Prop) (toks : List Str)
    (h : ∀ t ∈ toks, ∀ p ∈ expand_one_token glob t, P p) :
    ∀ acc : List Str, (∀ p ∈ acc, P p) →
      ∀ p ∈ toks.foldl (fun all tok => all ++ expand_one_token glob tok) acc, P p := by
  induction toks with
  | nil => intro acc hacc p hp; exact hacc p hp
  | cons t ts ih =>
    intro acc hacc p hp
    rw [List.foldl_cons] at hp
    refine ih (fun t ht => h t (List.mem_cons_of_mem _ ht)) _ ?_ p hp
    intro q hq
    rcases List.mem_append.mp hq with hq | hq
    · exact hacc q hq
    · exact h t (List.mem_cons_self _ _) q hq

/-- A discovered path is a C string: it holds no NUL character. -/
theorem input_files_c_str (glob : Str → Option (List Str)) (inputs : Option Str) :
    ∀ p ∈ input_files glob inputs, c_str p = p := by
  intro p hp
  apply c_str_of_not_mem
  have hs : '\x00' ∉ (match inputs with | some s => c_str s | none => []) := by
    cases inputs with
    | none => simp
    | some s => exact c_str_not_mem s
  unfold input_files expand_inputs at hp
  revert p
  apply foldl_expand_mem glob (fun p => '\x00' ∉ p) _ _ [] (by simp)
  intro t ht p hp
  unfold expand_one_token at hp
  split at hp
  · split at hp
    · simp only [List.mem_map] at hp
      obtain ⟨q, -, rfl⟩ := hp
      exact c_str_not_mem q
    · cases hp
  · simp only [List.mem_singleton] at hp
    subst hp
    exact fun hc => hs (split_commas_subset _ p ht _ hc)

theorem Form_d_nat (pre : Str) (i : Nat) : Form_d pre (i : Int) = pre ++ (Nat.repr i).toList := rfl

/-- The loop over the files appends one entry per file to `files`, whatever
happens when the file is opened and read. -/
theorem file_loop_files_list {F : Type} (w : World) (nan : F) (stof : Str → Option F) :
    ∀ (files : List Str) (i : Nat) (v : Row F) (t t1 : Tables F),
      (∀ p ∈ files, c_str p = p) →
      file_loop w nan stof i files v t = some t1 →
      t1.files_list = t.files_list ++ file_entries i files := by
  intro files
  induction files with
  | nil =>
    intro i v t t1 _ h
    simp only [file_loop, Option.some.injEq] at h
    subst h
    simp [file_entries]
  | cons f fs ih =>
    intro i v t t1 hc h
    have hf := hc f (List.mem_cons_self _ _)
    have hfs : ∀ p ∈ fs, c_str p = p := fun p hp => hc p (List.mem_cons_of_mem _ hp)
    simp only [file_loop] at h
    split at h
    · rw [ih _ _ _ _ hfs h]
      simp [file_entries, Form_d_nat, hf]
    · split at h
      · cases h
      · split at h
        · cases h
        · rw [ih _ _ _ _ hfs h]
          split <;> simp [file_entries, Form_d_nat, hf]

theorem file_entries_length : ∀ (files : List Str) (i : Nat),
    (file_entries i files).length = files.length := by
  intro files
  induction files with
  | nil => intro i; rfl
  | cons f fs ih => intro i; simp [file_entries, ih]

theorem file_entries_get : ∀ (files : List Str) (i k : Nat) (p : Str), files[k]? = some p →
    (file_entries i files)[k]? =
      some (TObj.named ("file_".toList ++ (Nat.repr (i + k)).toList) p) := by
  intro files
  induction files with
  | nil => intro i k p h; simp at h
  | cons f fs ih =>
    intro i k p h
    cases k with
    | zero =>
      simp only [List.getElem?_cons_zero, Option.some.injEq] at h
      subst h
      simp [file_entries]
    | succ k =>
      simp only [List.getElem?_cons_succ] at h
      simp only [file_entries, List.getElem?_cons_succ]
      rw [ih (i + 1) k p h]
      have e : i + 1 + k = i + (k + 1) := by omega
      rw [e]

/-- C10: when a run of `make_tuple` writes its output, the list of discovered
paths is not empty and the `files` side-table has one entry per discovered
path: the entry at position `k` is named `file_<k>` and carries the `k`-th
path, whatever the opening of the files gave. -/
theorem C10_files_table {F : Type} (w : World) (nan : F) (stof : Str → Option F) (v0 : Row F)
    (inputs outfile : Option Str) (outpath : Str) (t : Tables F)
    (h : make_tuple w nan stof v0 inputs outfile = .written outpath t) :
    input_files w.glob inputs ≠ [] ∧
    t.files_list.length = (input_files w.glob inputs).length ∧
    ∀ (k : Nat) (p : Str), (input_files w.glob inputs)[k]? = some p →
      t.files_list[k]? = some (TObj.named ("file_".toList ++ (Nat.repr k).toList) p) := by
  unfold make_tuple at h
  simp only [] at h
  split at h
  · cases h
  · rename_i hne
    split at h
    · cases h
    · split at h
      · cases h
      · split at h
        · cases h
        · rename_i t1 hloop
          simp only [Run.written.injEq] at h
          obtain ⟨-, rfl⟩ := h
          have hfl := file_loop_files_list w nan stof _ 0 v0 {} t1
            (input_files_c_str w.glob inputs) hloop
          simp only [List.nil_append] at hfl
          refine ⟨hne, ?_, ?_⟩
          · rw [hfl, file_entries_length]
          · intro k p hk
            rw [hfl, file_entries_get _ 0 k p hk, Nat.zero_add]

theorem C10_files_table_witness :
    input_files Lit.world.glob (some "ok.TXT, missing.TXT".toList) ≠ [] ∧
    [TObj.named "file_0".toList "ok.TXT".toList,
      TObj.named "file_1".toList "missing.TXT".toList].length
      = (input_files Lit.world.glob (some "ok.TXT, missing.TXT".toList)).length ∧
    ∀ (k : Nat) (p : Str),
      (input_files Lit.world.glob (some "ok.TXT, missing.TXT".toList))[k]? = some p →
      [TObj.named "file_0".toList "ok.TXT".toList,
        TObj.named "file_1".toList "missing.TXT".toList][k]?
        = some (TObj.named ("file_".toList ++ (Nat.repr k).toList) p) :=
  C10_files_table Lit.world Lit.nan Lit.stof Lit.vars0 (some "ok.TXT, missing.TXT".toList)
    (some []) (join_path (join_path kBaseDir kSubDir) "temps.root".toList)
    { rows := [⟨2025, 8, 19, 15, 22, 22, 55342, 0,
        [Lit.val "20.5".toList, Lit.val "21.0".toList] ++ List.replicate 17 Lit.nan⟩]
      files_list := [TObj.named "file_0".toList "ok.TXT".toList,
        TObj.named "file_1".toList "missing.TXT".toList]
      meta_list := [TObj.named "Inicio_0".toList "2025-08-19 15:22:22".toList,
        TObj.param "Duracion_min_0".toList 60] }
    (by decide)

end MakeTuple

namespace MakeTuple

/-! ## C11: the `meta` side-table -/

theorem digitVal_digitChar (k : Nat) (h : k < 10) : digitVal (Nat.digitChar k) = k := by
  interval_cases k <;> rfl

theorem decval_toDigitsCore : ∀ (fuel n : Nat) (ds : List Char), n < fuel →
    List.foldl (fun acc c => 10 * acc + digitVal c) 0 (Nat.toDigitsCore 10 fuel n ds) =
      List.foldl (fun acc c => 10 * acc + digitVal c) n ds := by
  intro fuel
  induction fuel with
  | zero => intro n ds h; omega
  | succ fuel ih =>
    intro n ds h
    simp only [Nat.toDigitsCore]
    split
    · rename_i h0
      simp only [List.foldl_cons, Nat.mul_zero, Nat.zero_add]
      rw [digitVal_digitChar _ (Nat.mod_lt _ (by norm_num))]
      congr 1
      omega
    · rename_i h0
      rw [ih (n / 10) _ (by omega)]
      simp only [List.foldl_cons]
      rw [digitVal_digitChar _ (Nat.mod_lt _ (by norm_num))]
      congr 1
      omega

/-- Reading back the decimal digits that `%d` prints gives the number. -/
theorem decval_repr (n : Nat) : decval (Nat.repr n).toList = n := by
  unfold decval Nat.repr Nat.toDigits
  simp only [String.toList, List.asString]
  rw [decval_toDigitsCore (n + 1) n [] (by omega)]
  rfl

theorem repr_name_inj (pre : Str) (i j : Nat)
    (h : pre ++ (Nat.repr i).toList = pre ++ (Nat.repr j).toList) : i = j := by
  have := List.append_cancel_left h
  rw [← decval_repr i, ← decval_repr j, this]

theorem inicio_ne_duracion (x y : Str) :
    "Inicio_".toList ++ x ≠ "Duracion_min_".toList ++ y := by
  intro h
  have e1 : "Inicio_".toList = 'I' :: "nicio_".toList := rfl
  have e2 : "Duracion_min_".toList = 'D' :: "uracion_min_".toList := rfl
  rw [e1, e2] at h
  simp only [List.cons_append, List.cons.injEq] at h
  exact absurd h.1 (by decide)

/-- The loop over the files appends to `meta` the two entries of each file
that has a header. -/
theorem file_loop_meta_list {F : Type} (w : World) (nan : F) (stof : Str → Option F) :
    ∀ (files : List Str) (i : Nat) (v : Row F) (t t1 : Tables F),
      file_loop w nan stof i files v t = some t1 →
      t1.meta_list = t.meta_list ++ meta_entries w i files := by
  intro files
  induction files with
  | nil =>
    intro i v t t1 h
    simp only [file_loop, Option.some.injEq] at h
    subst h
    simp [meta_entries]
  | cons f fs ih =>
    intro i v t t1 h
    simp only [file_loop] at h
    cases ho : w.open_file (c_str f) with
    | none =>
      rw [ho] at h
      simp only [] at h
      rw [ih _ _ _ _ h]
      simp [meta_entries, header_of, ho]
    | some lines =>
      rw [ho] at h
      simp only [] at h
      cases hh : read_header_if_any lines with
      | none => rw [hh] at h; cases h
      | some hb =>
        obtain ⟨mh, body⟩ := hb
        rw [hh] at h
        simp only [] at h
        cases hr : read_lines nan stof { v with file_id := (i : Int) } body with
        | none => rw [hr] at h; cases h
        | some vr =>
          obtain ⟨v1, rs⟩ := vr
          rw [hr] at h
          simp only [] at h
          rw [ih _ _ _ _ h]
          by_cases hp : mh.present = true
          · simp [meta_entries, header_of, ho, hh, hp, Form_d_nat]
          · simp [meta_entries, header_of, ho, hh, hp]

theorem mem_meta_entries (w : World) (o : TObj) :
    ∀ (files : List Str) (i : Nat), o ∈ meta_entries w i files ↔
      ∃ k f mh, files[k]? = some f ∧ header_of w f = some mh ∧
        (o = TObj.named ("Inicio_".toList ++ (Nat.repr (i + k)).toList) (c_str mh.inicio) ∨
         o = TObj.param ("Duracion_min_".toList ++ (Nat.repr (i + k)).toList) mh.duracion_min) := by
  intro files
  induction files with
  | nil => intro i; simp [meta_entries]
  | cons f fs ih =>
    intro i
    simp only [meta_entries, List.mem_append, ih]
    constructor
    · rintro (h | ⟨k, g, mh, hk, hh, ho⟩)
      · cases hh : header_of w f with
        | none => rw [hh] at h; cases h
        | some mh =>
          rw [hh] at h
          simp only [List.mem_cons, List.mem_singleton, List.not_mem_nil, or_false] at h
          exact ⟨0, f, mh, List.getElem?_cons_zero, hh, by simpa using h⟩
      · refine ⟨k + 1, g, mh, by simpa using hk, hh, ?_⟩
        have e : i + (k + 1) = i + 1 + k := by omega
        rw [e]
        exact ho
    · rintro ⟨k, g, mh, hk, hh, ho⟩
      cases k with
      | zero =>
        simp only [List.getElem?_cons_zero, Option.some.injEq] at hk
        subst hk
        left
        rw [hh]
        simpa using ho
      | succ k =>
        right
        refine ⟨k, g, mh, by simpa using hk, hh, ?_⟩
        have e : i + (k + 1) = i + 1 + k := by omega
        rw [e] at ho
        exact ho

theorem meta_entries_nodup (w : World) :
    ∀ (files : List Str) (i : Nat), ((meta_entries w i files).map TObj.name).Nodup := by
  intro files
  induction files with
  | nil => intro i; simp [meta_entries]
  | cons f fs ih =>
    intro i
    simp only [meta_entries, List.map_append]
    rw [List.nodup_append]
    have hlater : ∀ n ∈ (meta_entries w (i + 1) fs).map TObj.name,
        ∃ k, i < k ∧ (n = "Inicio_".toList ++ (Nat.repr k).toList ∨
          n = "Duracion_min_".toList ++ (Nat.repr k).toList) := by
      intro n hn
      simp only [List.mem_map] at hn
      obtain ⟨o, ho, rfl⟩ := hn
      obtain ⟨k, g, mh, -, -, ho⟩ := (mem_meta_entries w o fs (i + 1)).mp ho
      refine ⟨i + 1 + k, by omega, ?_⟩
      rcases ho with rfl | rfl
      · left; rfl
      · right; rfl
    refine ⟨?_, ih (i + 1), ?_⟩
    · cases header_of w f with
      | none => simp
      | some mh =>
        simp only [List.map_cons, List.map_nil, TObj.name, List.nodup_cons, List.mem_singleton,
          List.not_mem_nil, not_false_eq_true, List.nodup_nil, and_true]
        exact inicio_ne_duracion _ _
    · intro n h1 h2
      obtain ⟨k, hk, hn⟩ := hlater n h2
      cases hh : header_of w f with
      | none => rw [hh] at h1; simp at h1
      | some mh =>
        rw [hh] at h1
        simp only [List.map_cons, List.map_nil, TObj.name, List.mem_cons, List.mem_singleton,
          List.not_mem_nil, or_false] at h1
        rcases h1 with rfl | rfl
        · rcases hn with hn | hn
          · have := repr_name_inj _ _ _ hn; omega
          · exact inicio_ne_duracion _ _ hn
        · rcases hn with hn | hn
          · exact inicio_ne_duracion _ _ hn.symm
          · have := repr_name_inj _ _ _ hn; omega

theorem make_tuple_written {F : Type} {w : World} {nan : F} {stof : Str → Option F} {v0 : Row F}
    {inputs outfile : Option Str} {outpath : Str} {t : Tables F}
    (h : make_tuple w nan stof v0 inputs outfile = .written outpath t) :
    input_files w.glob inputs ≠ [] ∧
      file_loop w nan stof 0 (input_files w.glob inputs) v0 {} = some t := by
  unfold make_tuple at h
  simp only [] at h
  split at h
  · cases h
  · rename_i hne
    split at h
    · cases h
    · split at h
      · cases h
      · split at h
        · cases h
        · rename_i t1 hloop
          simp only [Run.written.injEq] at h
          obtain ⟨-, rfl⟩ := h
          exact ⟨hne, hloop⟩

/-- C11: when a run of `make_tuple` writes its output, the `meta` side-table
holds, file after file, the entries `Inicio_<id>` and `Duracion_min_<id>` of
the files that could be opened and whose header is present.  Hence it has an
entry named `Inicio_<id>` exactly when it has one named `Duracion_min_<id>`,
that is exactly when the file number `id` was opened with a header present,
and no two entries have the same name. -/
theorem C11_meta_table {F : Type} (w : World) (nan : F) (stof : Str → Option F) (v0 : Row F)
    (inputs outfile : Option Str) (outpath : Str) (t : Tables F)
    (h : make_tuple w nan stof v0 inputs outfile = .written outpath t) :
    t.meta_list = meta_entries w 0 (input_files w.glob inputs) ∧
    (∀ k : Nat,
      ((∃ o ∈ t.meta_list, o.name = "Inicio_".toList ++ (Nat.repr k).toList) ↔
        ∃ f mh, (input_files w.glob inputs)[k]? = some f ∧ header_of w f = some mh) ∧
      ((∃ o ∈ t.meta_list, o.name = "Duracion_min_".toList ++ (Nat.repr k).toList) ↔
        ∃ f mh, (input_files w.glob inputs)[k]? = some f ∧ header_of w f = some mh) ∧
      ((∃ o ∈ t.meta_list, o.name = "Inicio_".toList ++ (Nat.repr k).toList) ↔
        ∃ o ∈ t.meta_list, o.name = "Duracion_min_".toList ++ (Nat.repr k).toList)) ∧
    (t.meta_list.map TObj.name).Nodup := by
  obtain ⟨-, hloop⟩ := make_tuple_written h
  have hm := file_loop_meta_list w nan stof _ 0 v0 {} t hloop
  simp only [List.nil_append] at hm
  have hI : ∀ k : Nat,
      (∃ o ∈ t.meta_list, o.name = "Inicio_".toList ++ (Nat.repr k).toList) ↔
        ∃ f mh, (input_files w.glob inputs)[k]? = some f ∧ header_of w f = some mh := by
    intro k
    rw [hm]
    constructor
    · rintro ⟨o, ho, hn⟩
      obtain ⟨j, f, mh, hj, hh, ho⟩ := (mem_meta_entries w o _ 0).mp ho
      rw [Nat.zero_add] at ho
      rcases ho with rfl | rfl
      · have := repr_name_inj _ _ _ hn
        subst this
        exact ⟨f, mh, hj, hh⟩
      · exact absurd hn.symm (inicio_ne_duracion _ _)
    · rintro ⟨f, mh, hk, hh⟩
      refine ⟨_, (mem_meta_entries w _ _ 0).mpr ⟨k, f, mh, hk, hh, Or.inl rfl⟩, ?_⟩
      rw [Nat.zero_add]
      rfl
  have hD : ∀ k : Nat,
      (∃ o ∈ t.meta_list, o.name = "Duracion_min_".toList ++ (Nat.repr k).toList) ↔
        ∃ f mh, (input_files w.glob inputs)[k]? = some f ∧ header_of w f = some mh := by
    intro k
    rw [hm]
    constructor
    · rintro ⟨o, ho, hn⟩
      obtain ⟨j, f, mh, hj, hh, ho⟩ := (mem_meta_entries w o _ 0).mp ho
      rw [Nat.zero_add] at ho
      rcases ho with rfl | rfl
      · exact absurd hn (inicio_ne_duracion _ _)
      · have := repr_name_inj _ _ _ hn
        subst this
        exact ⟨f, mh, hj, hh⟩
    · rintro ⟨f, mh, hk, hh⟩
      refine ⟨_, (mem_meta_entries w _ _ 0).mpr ⟨k, f, mh, hk, hh, Or.inr rfl⟩, ?_⟩
      rw [Nat.zero_add]
      rfl
  refine ⟨hm, fun k => ⟨hI k, hD k, (hI k).trans (hD k).symm⟩, ?_⟩
  rw [hm]
  exact meta_entries_nodup w _ 0

theorem C11_meta_table_witness :
    Lit.tables.meta_list =
        meta_entries Lit.world 0 (input_files Lit.world.glob (some "ok.TXT, missing.TXT".toList)) ∧
      (Lit.tables.meta_list.map TObj.name).Nodup :=
  ⟨(C11_meta_table Lit.world Lit.nan Lit.stof Lit.vars0 (some "ok.TXT, missing.TXT".toList)
      (some []) Lit.outpath Lit.tables (by decide)).1,
   (C11_meta_table Lit.world Lit.nan Lit.stof Lit.vars0 (some "ok.TXT, missing.TXT".toList)
      (some []) Lit.outpath Lit.tables (by decide)).2.2⟩

end MakeTuple

namespace MakeTuple

/-! ## C12, C13: the header -/

/-- What `read_header_if_any` returns when it returns: the header is present
exactly when the first line begins with `#` and holds a match of the header
pattern; `inicio` and `duracion_min` are then the two captures, and the first
line is consumed exactly when it begins with `#`. -/
theorem read_header_if_any_some {lines : List Str} {mh : MetaHeader} {body : List Str}
    (h : read_header_if_any lines = some (mh, body)) :
    (mh.present = true ↔
      ∃ line rest, lines = line :: rest ∧ line.head? = some '#' ∧ matches_header line) ∧
    (mh.present = true →
      ∃ line rest g1 g2, lines = line :: rest ∧ reh_search line = some (g1, g2) ∧
        mh.inicio = g1 ∧ mh.duracion_min = (decval g2 : Int) ∧ decval g2 ≤ 2147483647 ∧
        body = rest) ∧
    (mh.present = false → mh = {}) := by
  unfold read_header_if_any at h
  cases lines with
  | nil =>
    simp only [Option.some.injEq, Prod.mk.injEq] at h
    obtain ⟨rfl, rfl⟩ := h
    simp
  | cons line rest =>
    simp only [] at h
    by_cases hh : line.head? = some '#'
    · rw [if_pos hh] at h
      cases hs : reh_search line with
      | none =>
        rw [hs] at h
        simp only [Option.some.injEq, Prod.mk.injEq] at h
        obtain ⟨rfl, rfl⟩ := h
        simp [matches_header, hs]
      | some g =>
        obtain ⟨g1, g2⟩ := g
        rw [hs] at h
        simp only [] at h
        cases hi : stoi g2 with
        | none => rw [hi] at h; cases h
        | some n =>
          rw [hi] at h
          simp only [Option.some.injEq, Prod.mk.injEq] at h
          obtain ⟨rfl, rfl⟩ := h
          have hn := stoi_eq_some hi
          have hle : decval g2 ≤ 2147483647 := by
            unfold stoi at hi
            split at hi
            · assumption
            · cases hi
          refine ⟨?_, ?_, ?_⟩
          · simp [matches_header, hs, hh]
          · intro _
            exact ⟨line, rest, g1, g2, rfl, hs, rfl, hn, hle, rfl⟩
          · intro hc; cases hc
    · rw [if_neg hh] at h
      simp only [Option.some.injEq, Prod.mk.injEq] at h
      obtain ⟨rfl, rfl⟩ := h
      simp [hh]

/-- C12, as stated, fails: in a file whose first line is empty and whose second
line is a header line, the first non-blank line matches the header pattern, and
the header is absent (nothing is consumed). -/
theorem C12_counterexample :
    first_nonblank ["".toList, "# Inicio: 2025-08-19 15:22:22 ; Duracion: 60".toList]
        = some "# Inicio: 2025-08-19 15:22:22 ; Duracion: 60".toList ∧
      matches_header "# Inicio: 2025-08-19 15:22:22 ; Duracion: 60".toList ∧
      read_header_if_any ["".toList, "# Inicio: 2025-08-19 15:22:22 ; Duracion: 60".toList]
        = some ({ inicio := [], duracion_min := -1, present := false },
            ["".toList, "# Inicio: 2025-08-19 15:22:22 ; Duracion: 60".toList]) := by
  decide

/-- C12 (amended): whenever `read_header_if_any` returns, the header record is
present if and only if the file has a first line, that line begins with `#`
and it holds a match of the header pattern. -/
theorem C12_header_present_iff (lines : List Str) (mh : MetaHeader) (body : List Str)
    (h : read_header_if_any lines = some (mh, body)) :
    mh.present = true ↔
      ∃ line rest, lines = line :: rest ∧ line.head? = some '#' ∧ matches_header line :=
  (read_header_if_any_some h).1

theorem C12_header_present_iff_witness :
    (({ inicio := "2025-08-19 15:22:22".toList, duracion_min := 60, present := true } :
        MetaHeader).present = true ↔
      ∃ line rest,
        ["# Inicio: 2025-08-19 15:22:22 ; Duracion: 60".toList, "x".toList] = line :: rest ∧
        line.head? = some '#' ∧ matches_header line) :=
  C12_header_present_iff ["# Inicio: 2025-08-19 15:22:22 ; Duracion: 60".toList, "x".toList]
    { inicio := "2025-08-19 15:22:22".toList, duracion_min := 60, present := true }
    ["x".toList] (by decide)

/-- C13: on the first line
`# Inicio: 2025-08-19 15:22:22 ; Duracion: 99999999999`, which begins with `#`
and matches the header pattern with the captures `2025-08-19 15:22:22` and
`99999999999`, `read_header_if_any` does not return: `std::stoi` throws on the
second capture, and the run of `make_tuple` on a file that starts with this
line ends without output.  On the line
`# Inicio: 2025-08-19 15:22:22 ; Duracion: 60` it returns the header
`2025-08-19 15:22:22`, 60. -/
theorem C13_header_duration_aborts :
    "# Inicio: 2025-08-19 15:22:22 ; Duracion: 99999999999".toList.head? = some '#' ∧
      reh_search "# Inicio: 2025-08-19 15:22:22 ; Duracion: 99999999999".toList
        = some ("2025-08-19 15:22:22".toList, "99999999999".toList) ∧
      stoi "99999999999".toList = none ∧
      read_header_if_any ["# Inicio: 2025-08-19 15:22:22 ; Duracion: 99999999999".toList]
        = none ∧
      make_tuple Lit.world2 Lit.nan Lit.stof Lit.vars0 (some "hdr.TXT".toList) none
        = Run.aborted ∧
      read_header_if_any ["# Inicio: 2025-08-19 15:22:22 ; Duracion: 60".toList]
        = some ({ inicio := "2025-08-19 15:22:22".toList, duracion_min := 60, present := true },
            []) := by
  decide

/-- Whenever the duration captured on a first line that begins with `#`
denotes a number of at most 2147483647, `read_header_if_any` returns; the
header is present exactly when the line begins with `#` and holds a match of
the header pattern, `inicio` is then the first capture and `duracion_min` the
number denoted by the second, and every other line gives the absent header. -/
theorem read_header_if_any_returns (line : Str) (rest : List Str)
    (hfit : line.head? = some '#' →
      ∀ g1 g2, reh_search line = some (g1, g2) → decval g2 ≤ 2147483647) :
    ∃ mh body, read_header_if_any (line :: rest) = some (mh, body) ∧
      (mh.present = true ↔ line.head? = some '#' ∧ matches_header line) ∧
      (mh.present = true →
        ∃ g1 g2, reh_search line = some (g1, g2) ∧ mh.inicio = g1 ∧
          mh.duracion_min = (decval g2 : Int) ∧ 0 ≤ mh.duracion_min ∧ body = rest) ∧
      (mh.present = false → mh = {}) := by
  have hret : ∃ r, read_header_if_any (line :: rest) = some r := by
    unfold read_header_if_any
    simp only []
    split
    · rename_i hh
      cases hs : reh_search line with
      | none => exact ⟨_, rfl⟩
      | some g =>
        obtain ⟨g1, g2⟩ := g
        simp only []
        have hle := hfit hh g1 g2 hs
        have hk : stoi g2 = some (decval g2 : Int) := by
          unfold stoi
          rw [if_pos hle]
        rw [hk]
        exact ⟨_, rfl⟩
    · exact ⟨_, rfl⟩
  obtain ⟨⟨mh, body⟩, hr⟩ := hret
  obtain ⟨h1, h2, h3⟩ := read_header_if_any_some hr
  refine ⟨mh, body, hr, ?_, ?_, h3⟩
  · rw [h1]
    constructor
    · rintro ⟨l, r, e, hh, hm⟩
      simp only [List.cons.injEq] at e
      obtain ⟨rfl, -⟩ := e
      exact ⟨hh, hm⟩
    · rintro ⟨hh, hm⟩
      exact ⟨line, rest, rfl, hh, hm⟩
  · intro hp
    obtain ⟨l, r, g1, g2, e, hs, hi, hd, -, hb⟩ := h2 hp
    simp only [List.cons.injEq] at e
    obtain ⟨rfl, rfl⟩ := e
    refine ⟨g1, g2, hs, hi, hd, ?_, hb⟩
    rw [hd]
    exact Int.natCast_nonneg _

end MakeTuple

namespace MakeTuple

/-! ## C14, C15, C16: which lines give a row, and which fields count -/

/-- The outcome of the line parser: a line that is not a data line is skipped;
a data line gives a row, unless a conversion of its sensor fields throws. -/
theorem parse_line_outcome {F : Type} (nan : F) (stof : Str → Option F) (v : Row F) (raw : Str) :
    (¬ is_data_line raw → parse_line nan stof v raw = .skipped) ∧
    (is_data_line raw →
      ∃ date time rest y mo d hh mi s,
        line_fields raw = some (date, time, rest) ∧
        sscanf_u3 '-' date = [y, mo, d] ∧ sscanf_u3 ':' time = [hh, mi, s] ∧
        parse_line nan stof v raw =
          match assign_sensors stof (reS_matches rest) (List.replicate NSENS nan) with
          | none => .aborted
          | some S => .row ⟨y, mo, d, hh, mi, s, (hh * 3600 + mi * 60 + s) % 2 ^ 32,
              v.file_id, S⟩) := by
  rw [parse_line_eq]
  unfold is_data_line line_fields
  by_cases h0 : trim_copy raw = [] ∨ (trim_copy raw).head? = some '#'
  · rw [if_pos h0]
    constructor
    · intro _; rfl
    · rintro ⟨h1, h2, -⟩
      rcases h0 with h0 | h0
      · exact absurd h0 h1
      · exact absurd h0 h2
  · rw [if_neg h0]
    have h1 : trim_copy raw ≠ [] := fun h => h0 (Or.inl h)
    have h2 : (trim_copy raw).head? ≠ some '#' := fun h => h0 (Or.inr h)
    cases hs : split_fields (strip_trailing (trim_copy raw)) with
    | none =>
      constructor
      · intro _; rfl
      · rintro ⟨-, -, date, time, rest, hc, -⟩
        cases hc
    | some f =>
      obtain ⟨date, time, rest⟩ := f
      simp only []
      by_cases hd : (sscanf_u3 '-' date).length = 3
      · by_cases ht : (sscanf_u3 ':' time).length = 3
        · obtain ⟨y, mo, d, hd3⟩ := list_length_three _ hd
          obtain ⟨hh, mi, s, ht3⟩ := list_length_three _ ht
          constructor
          · intro hn
            exact absurd ⟨h1, h2, date, time, rest, rfl, hd, ht⟩ hn
          · intro _
            refine ⟨date, time, rest, y, mo, d, hh, mi, s, rfl, hd3, ht3, ?_⟩
            simp only [fields_outcome, hd3, ht3]
        · constructor
          · intro _
            exact fields_outcome_skip_time nan stof _ _ _ _ ht
          · rintro ⟨-, -, date1, time1, rest1, hc, -, ht1⟩
            simp only [Option.some.injEq, Prod.mk.injEq] at hc
            obtain ⟨-, rfl, -⟩ := hc
            exact absurd ht1 ht
      · constructor
        · intro _
          exact fields_outcome_skip_date nan stof _ _ _ _ hd
        · rintro ⟨-, -, date1, time1, rest1, hc, hd1, -⟩
          simp only [Option.some.injEq, Prod.mk.injEq] at hc
          obtain ⟨rfl, -, -⟩ := hc
          exact absurd hd1 hd

/-- A row is emitted exactly for the data lines whose sensor conversions do
not throw. -/
theorem parse_line_row_iff {F : Type} (nan : F) (stof : Str → Option F) (v : Row F) (raw : Str) :
    (∃ r, parse_line nan stof v raw = .row r) ↔
      is_data_line raw ∧ parse_line nan stof v raw ≠ .aborted := by
  obtain ⟨hskip, hdata⟩ := parse_line_outcome nan stof v raw
  by_cases hd : is_data_line raw
  · obtain ⟨date, time, rest, y, mo, d, hh, mi, s, -, -, -, hp⟩ := hdata hd
    rw [hp]
    cases assign_sensors stof (reS_matches rest) (List.replicate NSENS nan) <;> simp [hd]
  · rw [hskip hd]
    simp [hd]

/-- C14: the line `2025-08-19,15:22:22, S1: 20.5, S99999999999: 1.0` meets every
condition of a data line, and the line parser emits no row for it: `std::stoi`
throws on the index `99999999999`.  The lines `garbage`, `,,` and
`2025-08-19,15:22:22, S1: 1.0.` give exactly one row. -/
theorem C14_data_line_without_row :
    is_data_line "2025-08-19,15:22:22, S1: 20.5, S99999999999: 1.0".toList ∧
      parse_line Lit.nan Lit.stof Lit.vars0
          "2025-08-19,15:22:22, S1: 20.5, S99999999999: 1.0".toList = .aborted ∧
      read_lines Lit.nan Lit.stof Lit.vars0
          ["garbage".toList, ",,".toList, "2025-08-19,15:22:22, S1: 1.0.".toList]
        = some (⟨2025, 8, 19, 15, 22, 22, 55342, 0,
              Lit.val "1.0".toList :: List.replicate 18 Lit.nan⟩,
            [⟨2025, 8, 19, 15, 22, 22, 55342, 0,
              Lit.val "1.0".toList :: List.replicate 18 Lit.nan⟩]) :=
  ⟨⟨by decide, by decide, "2025-08-19".toList, "15:22:22".toList,
      " S1: 20.5, S99999999999: 1.0".toList, by decide, by decide, by decide⟩,
    by decide, by decide⟩

/-- A match whose index is outside 1..19 and fits in an `int` is ignored. -/
theorem assign_sensors_ignore {F : Type} (stof : Str → Option F) (idx val : Str) (k : Int)
    (hk : stoi idx = some k) (hout : ¬ (1 ≤ k ∧ k ≤ (NSENS : Int))) (l2 : List (Str × Str)) :
    ∀ (l1 : List (Str × Str)) (S : List F),
      assign_sensors stof (l1 ++ (idx, val) :: l2) S = assign_sensors stof (l1 ++ l2) S := by
  intro l1
  induction l1 with
  | nil =>
    intro S
    simp only [List.nil_append, assign_sensors, hk, if_neg hout]
  | cons m l1 ih =>
    intro S
    rw [List.cons_append, List.cons_append, assign_sensors_cons, assign_sensors_cons]
    cases sensor_step stof m S with
    | none => rfl
    | some S1 => exact ih S1

/-- In a comma-separated list of sensor fields, a field whose index is outside
1..19 and fits in an `int` changes nothing: the outcome is that of the list
without the field. -/
theorem fields_outcome_ignore {F : Type} (nan : F) (stof : Str → Option F) (fid : Int)
    (date time : Str) (fs1 fs2 : List Field) (f : Field)
    (hwf : ∀ g ∈ fs1 ++ f :: fs2, g.wf)
    (hint : decval f.idx ≤ 2147483647)
    (hout : ¬ (1 ≤ decval f.idx ∧ decval f.idx ≤ 19)) :
    fields_outcome nan stof fid date time (fields_text (fs1 ++ f :: fs2)) =
      fields_outcome nan stof fid date time (fields_text (fs1 ++ fs2)) := by
  have hwf2 : ∀ g ∈ fs1 ++ fs2, g.wf := by
    intro g hg
    apply hwf
    rcases List.mem_append.mp hg with h | h
    · exact List.mem_append_left _ h
    · exact List.mem_append_right _ (List.mem_cons_of_mem _ h)
  unfold fields_outcome
  rw [reS_matches_fields_text _ hwf, reS_matches_fields_text _ hwf2]
  simp only [List.map_append, List.map_cons]
  have hk : stoi f.idx = some (decval f.idx : Int) := by
    unfold stoi
    rw [if_pos hint]
  rw [assign_sensors_ignore stof f.idx f.value _ hk
    (by unfold NSENS; intro h; apply hout; omega)]

/-- C15: in the line `2025-08-19,15:22:22, S1: 20.5, S99999999999: 1.0` the date
and the time are valid and the field `S99999999999: 1.0` has an index outside
1..19; without that field the line gives a row with `S_1 = 20.5`, with it the
line parser emits no row, `std::stoi` throwing on the index, and the run of
`make_tuple` on a file that holds the line ends without output. -/
theorem C15_long_index_aborts :
    parse_line Lit.nan Lit.stof Lit.vars0 "2025-08-19,15:22:22, S1: 20.5".toList
        = .row ⟨2025, 8, 19, 15, 22, 22, 55342, 0,
            Lit.val "20.5".toList :: List.replicate 18 Lit.nan⟩ ∧
      reS_matches " S1: 20.5, S99999999999: 1.0".toList
        = [("1".toList, "20.5".toList), ("99999999999".toList, "1.0".toList)] ∧
      stoi "99999999999".toList = none ∧
      parse_line Lit.nan Lit.stof Lit.vars0
          "2025-08-19,15:22:22, S1: 20.5, S99999999999: 1.0".toList = .aborted ∧
      make_tuple Lit.world2 Lit.nan Lit.stof Lit.vars0 (some "idx.TXT".toList) none
        = Run.aborted := by
  decide

/-- C16: when a row is emitted for a line and the sensor index `i` in 1..19 is
carried by several matches of the sensor regex in the payload, the column `S_i`
of the row is the value of the last of them: the float that `std::stof`
converts its literal to. -/
theorem C16_last_occurrence {F : Type} (nan : F) (stof : Str → Option F) (v : Row F)
    (raw date time rest : Str) (r : Row F) (i : Nat)
    (earlier later : List (Str × Str)) (idx val : Str)
    (hrow : parse_line nan stof v raw = .row r)
    (hfields : line_fields raw = some (date, time, rest))
    (hi : 1 ≤ i ∧ i ≤ 19)
    (hmatches : reS_matches rest = earlier ++ (idx, val) :: later)
    (hidx : stoi idx = some (i : Int))
    (hlast : ∀ m ∈ later, stoi m.1 ≠ some (i : Int)) :
    ∃ x, stof val = some x ∧ r.S[i - 1]? = some x := by
  obtain ⟨date1, time1, rest1, y, mo, d, hh, mi, s, S, hf, -, -, hS, rfl⟩ := parse_line_row hrow
  rw [hfields] at hf
  simp only [Option.some.injEq, Prod.mk.injEq] at hf
  obtain ⟨-, -, rfl⟩ := hf
  rw [hmatches] at hS
  have e : ((i - 1 : Nat) : Int) + 1 = (i : Int) := by omega
  exact assign_sensors_last stof (i - 1) (by unfold NSENS; omega) earlier later idx val _ S
    (by simp) hS (by rw [e]; exact hidx) (by rw [e]; exact hlast)

theorem C16_last_occurrence_witness :
    ∃ x, Lit.stof "2.0".toList = some x ∧
      (Row.S (F := Lit) ⟨2025, 8, 19, 15, 22, 22, 55342, 0,
        [Lit.val "2.0".toList, Lit.val "5".toList] ++ List.replicate 17 Lit.nan⟩)[1 - 1]?
        = some x :=
  C16_last_occurrence Lit.nan Lit.stof Lit.vars0
    "2025-08-19,15:22:22, S1: 1.0, S2: 5, S1: 2.0".toList "2025-08-19".toList
    "15:22:22".toList " S1: 1.0, S2: 5, S1: 2.0".toList
    ⟨2025, 8, 19, 15, 22, 22, 55342, 0,
      [Lit.val "2.0".toList, Lit.val "5".toList] ++ List.replicate 17 Lit.nan⟩ 1
    [("1".toList, "1.0".toList), ("2".toList, "5".toList)] [] "1".toList "2.0".toList
    (by decide) (by decide) (by decide) (by decide) (by decide) (by decide)

end MakeTuple
namespace MakeTuple

/-! ## C17: whitespace around the colon of a sensor field -/

theorem takeWhile_append_cons_not {α : Type} (p : α → Bool) (l : List α) (c : α) (m : List α)
    (hc : p c = false) : (l ++ c :: m).takeWhile p = l.takeWhile p := by
  induction l with
  | nil => simp [List.takeWhile, hc]
  | cons a l ih =>
    simp only [List.cons_append, List.takeWhile_cons]
    split
    · rw [ih]
    · rfl

theorem dropWhile_append_all {α : Type} (p : α → Bool) (l m : List α)
    (hl : ∀ c ∈ l, p c = true) : (l ++ m).dropWhile p = m.dropWhile p := by
  induction l with
  | nil => rfl
  | cons a l ih =>
    simp only [List.cons_append, List.dropWhile_cons, hl a (List.mem_cons_self _ _), if_true]
    exact ih (fun c hc => hl c (List.mem_cons_of_mem _ hc))

theorem rdropWhile_append_cases {α : Type} [DecidableEq α] (p : α → Bool) (a b : List α) :
    (a ++ b).rdropWhile p =
      if b.rdropWhile p = [] then a.rdropWhile p else a ++ b.rdropWhile p := by
  unfold List.rdropWhile
  rw [List.reverse_append, dropWhile_append_cases]
  by_cases h : List.dropWhile p b.reverse = []
  · simp [h]
  · simp [h]

theorem reS_frac_append_S (r X : Str) :
    reS_frac (r ++ 'S' :: X) = ((reS_frac r).1, (reS_frac r).2 ++ 'S' :: X) := by
  have h1 : ∀ (c : Char) (t : Str), c ≠ '.' → reS_frac (c :: t) = ([], c :: t) := by
    intro c t hc
    unfold reS_frac
    split
    · rename_i heq; simp only [List.cons.injEq] at heq; exact absurd heq.1 hc
    · rfl
  cases r with
  | nil => rw [List.nil_append, h1 _ _ (by decide)]; rfl
  | cons c r6 =>
    by_cases hc : c = '.'
    · subst hc
      simp only [List.cons_append, reS_frac]
      rw [takeWhile_append_cons_not isdigit r6 'S' X (by decide),
        dropWhile_append_head_not isdigit r6 ('S' :: X)
          (by intro c hc; simp only [List.head?_cons, Option.some.injEq] at hc; subst hc; decide)]
      split <;> simp
    · rw [List.cons_append, h1 _ _ hc, h1 _ _ hc]
      rfl

theorem reS_value_append_S (r X : Str) :
    reS_value (r ++ 'S' :: X) = (reS_value r).map (fun v => (v.1, v.2 ++ 'S' :: X)) := by
  have hS : ∀ c, ('S' :: X).head? = some c → isdigit c = false := by
    intro c hc; simp only [List.head?_cons, Option.some.injEq] at hc; subst hc; decide
  cases r with
  | nil =>
    rw [List.nil_append, reS_value_nil]
    unfold reS_value
    simp [List.takeWhile, show isdigit 'S' = false by decide]
  | cons c3 r3 =>
    unfold reS_value
    simp only [List.cons_append, List.head?_cons, List.tail_cons, List.take_succ_cons,
      List.take_zero]
    have e4 : (if some c3 = some '-' ∨ some c3 = some '+' then r3 ++ 'S' :: X
          else c3 :: (r3 ++ 'S' :: X)) =
        (if some c3 = some '-' ∨ some c3 = some '+' then r3 else c3 :: r3) ++ 'S' :: X := by
      split <;> simp
    rw [e4]
    generalize (if some c3 = some '-' ∨ some c3 = some '+' then r3 else c3 :: r3) = r4
    rw [takeWhile_append_cons_not isdigit r4 'S' X (by decide),
      dropWhile_append_head_not isdigit r4 ('S' :: X) hS, reS_frac_append_S]
    split <;> simp

/-- An `S` that follows the text does not change a match of the sensor regex
that starts at the head of the text. -/
theorem reS_match_here_append_S (s X : Str) (hs : s ≠ []) :
    reS_match_here (s ++ 'S' :: X) =
      (reS_match_here s).map (fun r => (r.1, r.2.1, r.2.2 ++ 'S' :: X)) := by
  have hS : ∀ c, ('S' :: X).head? = some c → isdigit c = false := by
    intro c hc; simp only [List.head?_cons, Option.some.injEq] at hc; subst hc; decide
  have hSs : ∀ c, ('S' :: X).head? = some c → isspace c = false := by
    intro c hc; simp only [List.head?_cons, Option.some.injEq] at hc; subst hc; decide
  cases s with
  | nil => exact absurd rfl hs
  | cons c r =>
    by_cases hc : c = 'S'
    · subst hc
      simp only [List.cons_append, reS_match_here]
      rw [takeWhile_append_cons_not isdigit r 'S' X (by decide),
        dropWhile_append_head_not isdigit r ('S' :: X) hS]
      by_cases hidx : List.takeWhile isdigit r = []
      · simp [hidx]
      · simp only [hidx, if_false]
        cases hD : List.dropWhile isdigit r with
        | nil => simp
        | cons c2 r2 =>
          by_cases hc2 : c2 = ':'
          · subst hc2
            simp only [List.cons_append]
            rw [dropWhile_append_head_not isspace r2 ('S' :: X) hSs, reS_value_append_S]
            cases reS_value (List.dropWhile isspace r2) <;> simp
          · simp only [List.cons_append]
            split
            · rename_i heq; simp only [List.cons.injEq] at heq; exact absurd heq.1 hc2
            · split
              · rename_i heq; simp only [List.cons.injEq] at heq; exact absurd heq.1 hc2
              · simp
    · rw [List.cons_append, reS_match_here_of_ne _ hc, reS_match_here_of_ne _ hc]
      rfl

/-- The matches of a payload are those before an `S` followed by those from
that `S` on: no match runs over an `S`. -/
theorem reS_matches_append_S (X : Str) :
    ∀ (n : Nat) (s : Str), s.length ≤ n →
      reS_matches (s ++ 'S' :: X) = reS_matches s ++ reS_matches ('S' :: X) := by
  intro n
  induction n with
  | zero =>
    intro s hs
    have : s = [] := List.length_eq_zero.mp (by omega)
    subst this
    rfl
  | succ n ih =>
    intro s hs
    cases s with
    | nil => rfl
    | cons c t =>
      rw [List.cons_append, reS_matches_cons, reS_matches_cons (c := c)]
      have := reS_match_here_append_S (c :: t) X (by simp)
      rw [List.cons_append] at this
      rw [this]
      simp only [List.length_cons] at hs
      cases hm : reS_match_here (c :: t) with
      | none => simpa using ih t (by omega)
      | some r =>
        obtain ⟨idx, val, rest⟩ := r
        have hl := reS_match_here_length hm
        simp only [List.length_cons] at hl
        simpa using ih rest (by omega)

/-- The scan passes over a text without `S`. -/
theorem reS_matches_skip (u s : Str) (hu : 'S' ∉ u) :
    reS_matches (u ++ s) = reS_matches s := by
  induction u with
  | nil => rfl
  | cons c t ih =>
    simp only [List.mem_cons, not_or] at hu
    rw [List.cons_append, reS_matches_cons, reS_match_here_of_ne _ (fun h => hu.1 h.symm)]
    exact ih hu.2

/-- Whitespace right after the colon of `S<digits>:` does not change the
matches of the payload. -/
theorem reS_matches_space_after_colon (pre idx ws post : Str) (hne : idx ≠ [])
    (hdig : ∀ c ∈ idx, isdigit c = true) (hws : ∀ c ∈ ws, isspace c = true) :
    reS_matches (pre ++ 'S' :: (idx ++ ':' :: (ws ++ post))) =
      reS_matches (pre ++ 'S' :: (idx ++ ':' :: post)) := by
  rw [reS_matches_append_S _ pre.length pre (le_refl _),
    reS_matches_append_S _ pre.length pre (le_refl _)]
  congr 1
  rw [reS_matches_cons, reS_matches_cons]
  have hcol : ∀ (Y : Str) (c : Char), (':' :: Y).head? = some c → isdigit c = false := by
    intro Y c hc; simp only [List.head?_cons, Option.some.injEq] at hc; subst hc; decide
  have e : reS_match_here ('S' :: (idx ++ ':' :: (ws ++ post))) =
      reS_match_here ('S' :: (idx ++ ':' :: post)) := by
    simp only [reS_match_here]
    rw [(takeWhile_append_stop isdigit idx (':' :: (ws ++ post)) hdig (hcol _)).1,
      (takeWhile_append_stop isdigit idx (':' :: (ws ++ post)) hdig (hcol _)).2,
      (takeWhile_append_stop isdigit idx (':' :: post) hdig (hcol _)).1,
      (takeWhile_append_stop isdigit idx (':' :: post) hdig (hcol _)).2]
    simp only [hne, if_false]
    rw [dropWhile_append_all isspace ws post hws]
  rw [e]
  cases reS_match_here ('S' :: (idx ++ ':' :: post)) with
  | some m => rfl
  | none =>
    simp only []
    have hidxS : 'S' ∉ idx := fun h => by
      have := hdig _ h
      revert this
      decide
    have hwsS : 'S' ∉ ws := fun h => (isspace_not_special (hws _ h)).1 rfl
    have h1 : idx ++ ':' :: (ws ++ post) = (idx ++ ':' :: ws) ++ post := by simp
    have h2 : idx ++ ':' :: post = (idx ++ [':']) ++ post := by simp
    rw [h1, h2, reS_matches_skip _ post (by simp [hidxS, hwsS]),
      reS_matches_skip _ post (by simp [hidxS])]

/-- The date field, the time field and the payload of a cleaned line whose
first two commas are known. -/
theorem split_fields_of_parts (D time Q : Str) (hD : ',' ∉ D) (ht : ',' ∉ time) :
    split_fields (D ++ ',' :: (time ++ ',' :: Q)) = some (trim_copy D, trim_copy time, Q) := by
  have h1 : str_find (D ++ ',' :: (time ++ ',' :: Q)) ',' 0 = some D.length := by
    unfold str_find
    rw [List.drop_zero, find_char_append_self ',' D _ hD]
    rfl
  have hdrop : List.drop (D.length + 1) (D ++ ',' :: (time ++ ',' :: Q)) =
      time ++ ',' :: Q := by
    have : D ++ ',' :: (time ++ ',' :: Q) = (D ++ [',']) ++ (time ++ ',' :: Q) := by simp
    rw [this]
    exact List.drop_left' (by simp)
  have h2 : str_find (D ++ ',' :: (time ++ ',' :: Q)) ',' (D.length + 1) =
      some (time.length + (D.length + 1)) := by
    unfold str_find
    rw [hdrop, find_char_append_self ',' time _ ht]
    rfl
  unfold split_fields
  rw [h1]
  simp only []
  rw [h2]
  simp only [Option.some.injEq, Prod.mk.injEq]
  refine ⟨?_, ?_, ?_⟩
  · unfold substr
    rw [List.drop_zero, List.take_left']
    rfl
  · unfold substr
    rw [hdrop]
    have : time.length + (D.length + 1) - (D.length + 1) = time.length := by omega
    rw [this, List.take_left']
    rfl
  · have : D ++ ',' :: (time ++ ',' :: Q) = (D ++ ',' :: (time ++ [','])) ++ Q := by simp
    rw [this]
    exact List.drop_left' (by simp; omega)

theorem strip_trailing_append (X P : Str) (hP : P ≠ []) :
    strip_trailing (X ++ P) = X ++ strip_trailing P := by
  unfold strip_trailing
  rw [List.getLast?_append_of_ne_nil _ hP]
  split
  · exact List.dropLast_append_of_ne_nil _ hP
  · rfl

/-- The fields of a line made of a date field and a time field without commas
and of a payload that is not blank: the payload loses its trailing whitespace
and then one trailing `.` or `,`. -/
theorem line_fields_of_payload (date time P : Str) (hd : ',' ∉ date) (ht : ',' ∉ time)
    (hP : P.rdropWhile isspace ≠ []) :
    line_fields (date ++ ',' :: (time ++ ',' :: P)) =
      if (date.dropWhile isspace ++ [',']).head? = some '#' then none
      else some (trim_copy (date.dropWhile isspace), trim_copy time,
        strip_trailing (P.rdropWhile isspace)) := by
  have hD : ',' ∉ date.dropWhile isspace :=
    fun h => hd ((List.dropWhile_sublist _).subset h)
  have htrim : trim_copy (date ++ ',' :: (time ++ ',' :: P)) =
      (date.dropWhile isspace ++ ',' :: (time ++ [','])) ++ P.rdropWhile isspace := by
    unfold trim_copy
    rw [dropWhile_append_head_not isspace date _
        (by intro c hc; simp only [List.head?_cons, Option.some.injEq] at hc; subst hc; decide)]
    have e : date.dropWhile isspace ++ ',' :: (time ++ ',' :: P) =
        (date.dropWhile isspace ++ ',' :: (time ++ [','])) ++ P := by simp
    rw [e, rdropWhile_append_cases, if_neg hP]
  unfold line_fields
  rw [htrim, strip_trailing_append _ _ hP]
  generalize date.dropWhile isspace = D at hD
  generalize strip_trailing (P.rdropWhile isspace) = Q
  have hne : (D ++ ',' :: (time ++ [','])) ++ P.rdropWhile isspace ≠ [] := by simp
  have hhead : ((D ++ ',' :: (time ++ [','])) ++ P.rdropWhile isspace).head? =
      (D ++ [',']).head? := by
    cases D <;> rfl
  rw [hhead]
  simp only [hne, false_or]
  split
  · rfl
  · have e : (D ++ ',' :: (time ++ [','])) ++ Q = D ++ ',' :: (time ++ ',' :: Q) := by simp
    rw [e]
    exact split_fields_of_parts D time Q hD ht

/-- The payload kept by the line parser, for a payload with the sensor field
`S<digits>:` and whitespace `ws` after its colon, and for the same payload
without `ws`. -/
theorem payload_space_after_colon (pre idx ws post : Str)
    (hws : ∀ c ∈ ws, isspace c = true) :
    ∃ ws1 q, (∀ c ∈ ws1, isspace c = true) ∧
      (pre ++ 'S' :: (idx ++ ':' :: (ws ++ post))).rdropWhile isspace ≠ [] ∧
      (pre ++ 'S' :: (idx ++ ':' :: post)).rdropWhile isspace ≠ [] ∧
      strip_trailing ((pre ++ 'S' :: (idx ++ ':' :: (ws ++ post))).rdropWhile isspace) =
        pre ++ 'S' :: (idx ++ ':' :: (ws1 ++ q)) ∧
      strip_trailing ((pre ++ 'S' :: (idx ++ ':' :: post)).rdropWhile isspace) =
        pre ++ 'S' :: (idx ++ ':' :: q) := by
  have e1 : pre ++ 'S' :: (idx ++ ':' :: (ws ++ post)) =
      ((pre ++ 'S' :: idx) ++ [':']) ++ (ws ++ post) := by simp
  have e2 : pre ++ 'S' :: (idx ++ ':' :: post) = ((pre ++ 'S' :: idx) ++ [':']) ++ post := by
    simp
  have e3 : pre ++ 'S' :: (idx ++ ':' :: (ws ++ post)) =
      (((pre ++ 'S' :: idx) ++ [':']) ++ ws) ++ post := by simp
  have hA : ((pre ++ 'S' :: idx) ++ [':']).rdropWhile isspace = (pre ++ 'S' :: idx) ++ [':'] :=
    List.rdropWhile_concat_neg _ _ _ (by decide)
  have hwsr : ws.rdropWhile isspace = [] := List.rdropWhile_eq_nil_iff.mpr hws
  have hstrip : strip_trailing ((pre ++ 'S' :: idx) ++ [':']) = (pre ++ 'S' :: idx) ++ [':'] := by
    unfold strip_trailing
    rw [if_neg]
    rw [List.getLast?_concat]
    decide
  by_cases hp : post.rdropWhile isspace = []
  · have hwp : (ws ++ post).rdropWhile isspace = [] := by
      rw [rdropWhile_append_cases, if_pos hp, hwsr]
    refine ⟨[], [], by simp, ?_, ?_, ?_, ?_⟩
    · rw [e1, rdropWhile_append_cases, if_pos hwp, hA]; simp
    · rw [e2, rdropWhile_append_cases, if_pos hp, hA]; simp
    · rw [e1, rdropWhile_append_cases, if_pos hwp, hA, hstrip]; simp
    · rw [e2, rdropWhile_append_cases, if_pos hp, hA, hstrip]; simp
  · refine ⟨ws, strip_trailing (post.rdropWhile isspace), hws, ?_, ?_, ?_, ?_⟩
    · rw [e3, rdropWhile_append_cases, if_neg hp]; simp
    · rw [e2, rdropWhile_append_cases, if_neg hp]; simp
    · rw [e3, rdropWhile_append_cases, if_neg hp, strip_trailing_append _ _ hp]; simp
    · rw [e2, rdropWhile_append_cases, if_neg hp, strip_trailing_append _ _ hp]; simp

/-- C17, as stated, fails for whitespace before the colon: the sensor regex
wants the colon right after the index digits, so the line
`2025-08-19,15:22:22, S1 : 20.5` gives a row in which `S_1` is NaN, while
`2025-08-19,15:22:22, S1:20.5` gives a row in which `S_1` is 20.5. -/
theorem C17_counterexample :
    parse_line Lit.nan Lit.stof Lit.vars0 "2025-08-19,15:22:22, S1:20.5".toList
        = .row ⟨2025, 8, 19, 15, 22, 22, 55342, 0,
            Lit.val "20.5".toList :: List.replicate 18 Lit.nan⟩ ∧
      reS_matches " S1 : 20.5".toList = [] ∧
      parse_line Lit.nan Lit.stof Lit.vars0 "2025-08-19,15:22:22, S1 : 20.5".toList
        = .row ⟨2025, 8, 19, 15, 22, 22, 55342, 0, List.replicate 19 Lit.nan⟩ := by
  decide

/-- C17 (amended): for every line made of a date field, a time field and a
payload that holds a sensor field `S<i>:`, inserting whitespace immediately
after the `:` of that field does not change the outcome of the line parser:
the same row in every column (or a skip, or an abort, for both lines). -/
theorem C17_space_after_colon {F : Type} (nan : F) (stof : Str → Option F) (v : Row F)
    (date time pre idx ws post : Str)
    (hdate : ',' ∉ date) (htime : ',' ∉ time)
    (hidx : idx ≠ [] ∧ ∀ c ∈ idx, isdigit c = true)
    (hws : ∀ c ∈ ws, isspace c = true) :
    parse_line nan stof v
        (date ++ ',' :: (time ++ ',' :: (pre ++ 'S' :: (idx ++ ':' :: (ws ++ post))))) =
      parse_line nan stof v
        (date ++ ',' :: (time ++ ',' :: (pre ++ 'S' :: (idx ++ ':' :: post)))) := by
  obtain ⟨ws1, q, hws1, hn1, hn2, hq1, hq2⟩ := payload_space_after_colon pre idx ws post hws
  rw [parse_line_eq, parse_line_eq, line_fields_of_payload date time _ hdate htime hn1,
    line_fields_of_payload date time _ hdate htime hn2, hq1, hq2]
  by_cases hh : (date.dropWhile isspace ++ [',']).head? = some '#'
  · rw [if_pos hh, if_pos hh]
  · rw [if_neg hh, if_neg hh]
    simp only [fields_outcome]
    rw [reS_matches_space_after_colon pre idx ws1 q hidx.1 hidx.2 hws1]

theorem C17_space_after_colon_witness :
    (parse_line Lit.nan Lit.stof Lit.vars0 "2025-08-19,15:22:22, S1: 20.5".toList =
      parse_line Lit.nan Lit.stof Lit.vars0 "2025-08-19,15:22:22, S1:20.5".toList) ∧
    parse_line Lit.nan Lit.stof Lit.vars0 "2025-08-19,15:22:22, S1: 20.5".toList
      = .row ⟨2025, 8, 19, 15, 22, 22, 55342, 0,
          Lit.val "20.5".toList :: List.replicate 18 Lit.nan⟩ :=
  ⟨C17_space_after_colon Lit.nan Lit.stof Lit.vars0 "2025-08-19".toList "15:22:22".toList
      " ".toList "1".toList " ".toList "20.5".toList (by decide) (by decide)
      ⟨by decide, by decide⟩ (by decide),
    by decide⟩

end MakeTuple
namespace DrawRange

open MakeTuple

/-! ## C18, C19: the selection built by `build_sel` -/

/-- A string that `parse_dt` accepts is not empty. -/
theorem parse_dt_some_ne {e : Str} {p : Int × Int} (h : parse_dt (some e) = some p) :
    c_str e ≠ [] := by
  intro hc
  unfold parse_dt at h
  simp only [hc, if_true] at h
  cases h

/-- The selection for a start that parses and an end that is null or empty. -/
theorem build_sel_open (start : Str) (end_ : Option Str) (fid ymd_s ts_s : Int)
    (hstart : parse_dt (some start) = some (ymd_s, ts_s))
    (hend : end_ = none ∨ end_ = some []) :
    build_sel (some start) end_ fid =
      if 0 ≤ fid then
        .and (.eq .file_id fid) (.or (.gt .ymd ymd_s) (.and (.eq .ymd ymd_s) (.ge .tsec ts_s)))
      else .or (.gt .ymd ymd_s) (.and (.eq .ymd ymd_s) (.ge .tsec ts_s)) := by
  unfold build_sel
  rw [hstart]
  rcases hend with rfl | rfl
  · rfl
  · rfl

/-- The selection for a start and an end that both parse. -/
theorem build_sel_closed (start e : Str) (fid ymd_s ts_s ymd_e ts_e : Int)
    (hstart : parse_dt (some start) = some (ymd_s, ts_s))
    (hend : parse_dt (some e) = some (ymd_e, ts_e)) :
    build_sel (some start) (some e) fid =
      if 0 ≤ fid then
        .and (.eq .file_id fid)
          (if ymd_s = ymd_e then
            .and (.and (.eq .ymd ymd_s) (.ge .tsec ts_s)) (.le .tsec ts_e)
          else
            .or (.or (.and (.gt .ymd ymd_s) (.lt .ymd ymd_e))
                  (.and (.eq .ymd ymd_s) (.ge .tsec ts_s)))
              (.and (.eq .ymd ymd_e) (.le .tsec ts_e)))
      else
        (if ymd_s = ymd_e then
          .and (.and (.eq .ymd ymd_s) (.ge .tsec ts_s)) (.le .tsec ts_e)
        else
          .or (.or (.and (.gt .ymd ymd_s) (.lt .ymd ymd_e))
                (.and (.eq .ymd ymd_s) (.ge .tsec ts_s)))
            (.and (.eq .ymd ymd_e) (.le .tsec ts_e))) := by
  unfold build_sel
  rw [hstart]
  simp only [if_neg (parse_dt_some_ne hend), hend]

/-- C18, as stated, fails when the end day is before the start day: for the
start `2025-08-20 10:00:00` and the end `2025-08-19 12:00:00` the closed
interval is empty, and the selection holds of a row of 2025-08-20 at 11:00:00
(`tsec = 39600`). -/
theorem C18_counterexample :
    parse_dt (some "2025-08-20 10:00:00".toList) = some (20250820, 36000) ∧
      parse_dt (some "2025-08-19 12:00:00".toList) = some (20250819, 43200) ∧
      (build_sel (some "2025-08-20 10:00:00".toList) (some "2025-08-19 12:00:00".toList)
          (-1)).holds (⟨2025, 8, 20, 11, 0, 0, 39600, 0, []⟩ : Row Lit) ∧
      ymd (⟨2025, 8, 20, 11, 0, 0, 39600, 0, []⟩ : Row Lit) = 20250820 ∧
      ¬ (toLex ((20250820 : Int), (36000 : Int)) ≤ toLex ((20250820 : Int), (39600 : Int)) ∧
          toLex ((20250820 : Int), (39600 : Int)) ≤ toLex ((20250819 : Int), (43200 : Int))) := by
  refine ⟨by decide, by decide, by decide, by decide, ?_⟩
  simp only [Prod.Lex.le_iff]
  omega

/-- C18 (amended): for every start timestamp that parses to `(ymd_s, ts_s)` and
every row, with `ymd = year*10000 + month*100 + day`: when the end is null or
empty, the selection built by `build_sel` with the file index -1 holds of the
row exactly when `(ymd_s, ts_s) ≤ (ymd, tsec)` in the lexicographic order; when
the end parses to `(ymd_e, ts_e)` and the end day is not before the start day
(`ymd_s ≤ ymd_e`), it holds exactly when
`(ymd_s, ts_s) ≤ (ymd, tsec) ≤ (ymd_e, ts_e)`. -/
theorem C18_closed_interval {F : Type} (start : Str) (end_ : Option Str) (r : Row F)
    (ymd_s ts_s : Int) (hstart : parse_dt (some start) = some (ymd_s, ts_s)) :
    ((end_ = none ∨ end_ = some []) →
      ((build_sel (some start) end_ (-1)).holds r ↔
        toLex (ymd_s, ts_s) ≤ toLex (ymd r, (r.tsec : Int)))) ∧
    (∀ e ymd_e ts_e, end_ = some e → parse_dt (some e) = some (ymd_e, ts_e) →
      ymd_s ≤ ymd_e →
      ((build_sel (some start) end_ (-1)).holds r ↔
        toLex (ymd_s, ts_s) ≤ toLex (ymd r, (r.tsec : Int)) ∧
        toLex (ymd r, (r.tsec : Int)) ≤ toLex (ymd_e, ts_e))) := by
  constructor
  · intro hend
    rw [build_sel_open start end_ (-1) ymd_s ts_s hstart hend, if_neg (by decide)]
    simp only [Cut.holds, Cut.eval, Var.value, Prod.Lex.le_iff, Bool.or_eq_true,
      Bool.and_eq_true, decide_eq_true_eq]
    constructor
    · rintro (h | ⟨h1, h2⟩)
      · exact Or.inl h
      · exact Or.inr ⟨h1.symm, h2⟩
    · rintro (h | ⟨h1, h2⟩)
      · exact Or.inl h
      · exact Or.inr ⟨h1.symm, h2⟩
  · rintro e ymd_e ts_e rfl hend hle
    rw [build_sel_closed start e (-1) ymd_s ts_s ymd_e ts_e hstart hend, if_neg (by decide)]
    by_cases hd : ymd_s = ymd_e
    · subst hd
      rw [if_pos rfl]
      simp only [Cut.holds, Cut.eval, Var.value, Prod.Lex.le_iff, Bool.or_eq_true,
        Bool.and_eq_true, decide_eq_true_eq]
      omega
    · rw [if_neg hd]
      simp only [Cut.holds, Cut.eval, Var.value, Prod.Lex.le_iff, Bool.or_eq_true,
        Bool.and_eq_true, decide_eq_true_eq]
      omega

theorem C18_closed_interval_witness :
    ((build_sel (some "2025-08-19 15:22:22".toList) (some []) (-1)).holds
        (⟨2025, 8, 21, 0, 0, 1, 1, 0, []⟩ : Row Lit) ↔
      toLex ((20250819 : Int), (55342 : Int)) ≤
        toLex (ymd (⟨2025, 8, 21, 0, 0, 1, 1, 0, []⟩ : Row Lit), (((1 : Nat)) : Int))) ∧
    ((build_sel (some "2025-08-19 15:22:22".toList) (some "2025-08-20 07:59:22".toList)
          (-1)).holds (⟨2025, 8, 20, 7, 59, 22, 28762, 0, []⟩ : Row Lit) ↔
      toLex ((20250819 : Int), (55342 : Int)) ≤
          toLex (ymd (⟨2025, 8, 20, 7, 59, 22, 28762, 0, []⟩ : Row Lit),
            (((28762 : Nat)) : Int)) ∧
        toLex (ymd (⟨2025, 8, 20, 7, 59, 22, 28762, 0, []⟩ : Row Lit), (((28762 : Nat)) : Int)) ≤
          toLex ((20250820 : Int), (28762 : Int))) ∧
    (build_sel (some "2025-08-19 15:22:22".toList) (some "2025-08-20 07:59:22".toList)
        (-1)).holds (⟨2025, 8, 20, 7, 59, 22, 28762, 0, []⟩ : Row Lit) :=
  ⟨(C18_closed_interval "2025-08-19 15:22:22".toList (some [])
      (⟨2025, 8, 21, 0, 0, 1, 1, 0, []⟩ : Row Lit) 20250819 55342 (by decide)).1
      (Or.inr rfl),
    (C18_closed_interval "2025-08-19 15:22:22".toList (some "2025-08-20 07:59:22".toList)
      (⟨2025, 8, 20, 7, 59, 22, 28762, 0, []⟩ : Row Lit) 20250819 55342 (by decide)).2
      "2025-08-20 07:59:22".toList 20250820 28762 rfl (by decide) (by decide),
    by decide⟩

/-- The selection that `build_sel` writes for a negative file index does not
refer to `file_id`. -/
theorem build_sel_base_file_id {F : Type} (start : Str) (end_ : Option Str) (p : Int × Int)
    (hstart : parse_dt (some start) = some p) (fid : Int) (hneg : fid < 0)
    (r : Row F) (k : Int) :
    (build_sel (some start) end_ fid).eval { r with file_id := k } =
      (build_sel (some start) end_ fid).eval r := by
  obtain ⟨ymd_s, ts_s⟩ := p
  unfold build_sel
  rw [hstart]
  simp only []
  rw [if_neg (by omega)]
  split
  · rfl
  · split <;> rfl

/-- C19: for every start timestamp that parses, every end and every row: with
a file index `fid ≥ 0` the selection built by `build_sel` holds of the row
exactly when the row's `file_id` is `fid` and the selection built for the same
start and end with the file index -1 holds of it; with a negative file index
the selection is the one built with -1, and whether it holds does not depend
on the row's `file_id`. -/
theorem C19_file_id {F : Type} (start : Str) (end_ : Option Str) (fid : Int) (r : Row F)
    (p : Int × Int) (hstart : parse_dt (some start) = some p) :
    (0 ≤ fid →
      ((build_sel (some start) end_ fid).holds r ↔
        r.file_id = fid ∧ (build_sel (some start) end_ (-1)).holds r)) ∧
    (fid < 0 →
      build_sel (some start) end_ fid = build_sel (some start) end_ (-1) ∧
      ∀ k : Int, (build_sel (some start) end_ fid).holds { r with file_id := k } ↔
        (build_sel (some start) end_ fid).holds r) := by
  constructor
  · intro hfid
    obtain ⟨ymd_s, ts_s⟩ := p
    unfold build_sel
    rw [hstart]
    simp only []
    rw [if_pos hfid, if_neg (by decide)]
    simp only [Cut.holds, Cut.eval, Var.value, Bool.and_eq_true, decide_eq_true_eq]
  · intro hneg
    constructor
    · obtain ⟨ymd_s, ts_s⟩ := p
      unfold build_sel
      rw [hstart]
      simp only []
      rw [if_neg (by omega), if_neg (by decide)]
    · intro k
      unfold Cut.holds
      rw [build_sel_base_file_id start end_ p hstart fid hneg r k]

theorem C19_file_id_witness :
    ((build_sel (some "2025-08-19 15:22:22".toList) (some "2025-08-20 07:59:22".toList)
          0).holds (⟨2025, 8, 20, 7, 0, 0, 25200, 0, []⟩ : Row Lit) ↔
      (⟨2025, 8, 20, 7, 0, 0, 25200, 0, []⟩ : Row Lit).file_id = 0 ∧
        (build_sel (some "2025-08-19 15:22:22".toList) (some "2025-08-20 07:59:22".toList)
          (-1)).holds (⟨2025, 8, 20, 7, 0, 0, 25200, 0, []⟩ : Row Lit)) ∧
    (build_sel (some "2025-08-19 15:22:22".toList) (some "2025-08-20 07:59:22".toList)
        0).holds (⟨2025, 8, 20, 7, 0, 0, 25200, 0, []⟩ : Row Lit) ∧
    ¬ (build_sel (some "2025-08-19 15:22:22".toList) (some "2025-08-20 07:59:22".toList)
        1).holds (⟨2025, 8, 20, 7, 0, 0, 25200, 0, []⟩ : Row Lit) :=
  ⟨(C19_file_id "2025-08-19 15:22:22".toList (some "2025-08-20 07:59:22".toList) 0
      (⟨2025, 8, 20, 7, 0, 0, 25200, 0, []⟩ : Row Lit) (20250819, 55342) (by decide)).1
      (by decide),
    by decide, by decide⟩

end DrawRange
namespace MakeTuple

/-! ## C20: the rows of a run, file by file -/

theorem set_date_file_id {F : Type} (v : Row F) (l : List Nat) :
    (set_date v l).file_id = v.file_id := by
  unfold set_date
  split <;> rfl

theorem set_time_file_id {F : Type} (v : Row F) (l : List Nat) :
    (set_time v l).file_id = v.file_id := by
  unfold set_time
  split <;> rfl

/-- The line loop never writes the variable `file_id`. -/
theorem line_step_file_id {F : Type} (nan : F) (stof : Str → Option F) (v v1 : Row F)
    (raw : Str) (h : line_step nan stof v raw = .skip v1 ∨ line_step nan stof v raw = .fill v1) :
    v1.file_id = v.file_id := by
  unfold line_step at h
  simp only [] at h
  split at h
  · rcases h with h | h
    · simp only [Step.skip.injEq] at h
      rw [← h]
    · cases h
  · split at h
    · rcases h with h | h
      · simp only [Step.skip.injEq] at h
        rw [← h]
      · cases h
    · split at h
      · rcases h with h | h
        · simp only [Step.skip.injEq] at h
          rw [← h]
        · cases h
      · split at h
        · rcases h with h | h
          · simp only [Step.skip.injEq] at h
            rw [← h, set_date_file_id]
          · cases h
        · split at h
          · rcases h with h | h
            · simp only [Step.skip.injEq] at h
              rw [← h, set_time_file_id, set_date_file_id]
            · cases h
          · split at h
            · rcases h with h | h <;> cases h
            · rcases h with h | h
              · cases h
              · simp only [Step.fill.injEq] at h
                rw [← h]
                simp only [set_time_file_id, set_date_file_id]

/-- The outcome of the line parser depends on the variables only through
`file_id`. -/
theorem parse_line_file_id {F : Type} (nan : F) (stof : Str → Option F) (v v2 : Row F)
    (raw : Str) (h : v.file_id = v2.file_id) :
    parse_line nan stof v raw = parse_line nan stof v2 raw := by
  rw [parse_line_eq, parse_line_eq, h]

/-- The rows filled by the line loop are the rows of the lines, in the order
of the lines; the loop ends unless a line makes the parser throw. -/
theorem read_lines_rows {F : Type} (nan : F) (stof : Str → Option F) (v0 : Row F) (i : Nat) :
    ∀ (lines : List Str) (v v1 : Row F) (rs : List (Row F)),
      v.file_id = (i : Int) →
      read_lines nan stof v lines = some (v1, rs) →
      v1.file_id = (i : Int) ∧ rs = lines.filterMap (row_of_line nan stof v0 i) := by
  intro lines
  induction lines with
  | nil =>
    intro v v1 rs hv h
    simp only [read_lines, Option.some.injEq, Prod.mk.injEq] at h
    obtain ⟨rfl, rfl⟩ := h
    exact ⟨hv, rfl⟩
  | cons l ls ih =>
    intro v v1 rs hv h
    have hpl : parse_line nan stof { v0 with file_id := (i : Int) } l = parse_line nan stof v l :=
      parse_line_file_id nan stof _ _ l hv.symm
    simp only [read_lines] at h
    cases hs : line_step nan stof v l with
    | throw => rw [hs] at h; cases h
    | skip v2 =>
      rw [hs] at h
      simp only [] at h
      have hv2 : v2.file_id = (i : Int) := by
        rw [line_step_file_id nan stof v v2 l (Or.inl hs)]; exact hv
      obtain ⟨h1, h2⟩ := ih v2 v1 rs hv2 h
      refine ⟨h1, ?_⟩
      have : row_of_line nan stof v0 i l = none := by
        unfold row_of_line
        rw [hpl]
        unfold parse_line
        rw [hs]
      rw [List.filterMap_cons, this]
      exact h2
    | fill v2 =>
      rw [hs] at h
      simp only [] at h
      have hv2 : v2.file_id = (i : Int) := by
        rw [line_step_file_id nan stof v v2 l (Or.inr hs)]; exact hv
      cases hr : read_lines nan stof v2 ls with
      | none => rw [hr] at h; cases h
      | some p =>
        obtain ⟨vf, rs1⟩ := p
        rw [hr] at h
        simp only [Option.some.injEq, Prod.mk.injEq] at h
        obtain ⟨rfl, rfl⟩ := h
        obtain ⟨h1, h2⟩ := ih v2 vf rs1 hv2 hr
        refine ⟨h1, ?_⟩
        have : row_of_line nan stof v0 i l = some v2 := by
          unfold row_of_line
          rw [hpl]
          unfold parse_line
          rw [hs]
        rw [List.filterMap_cons, this, h2]

/-- A line that starts with `#` gives no row. -/
theorem row_of_line_comment {F : Type} (nan : F) (stof : Str → Option F) (v0 : Row F) (i : Nat)
    (line : Str) (h : line.head? = some '#') : row_of_line nan stof v0 i line = none := by
  have ht : (trim_copy line).head? = some '#' := by
    cases line with
    | nil => cases h
    | cons c t =>
      simp only [List.head?_cons, Option.some.injEq] at h
      subst h
      unfold trim_copy
      have e : List.dropWhile isspace ('#' :: t) = '#' :: t := by
        simp [List.dropWhile, show isspace '#' = false by decide]
      rw [e]
      obtain ⟨ws, hX, hws⟩ := rdropWhile_split isspace ('#' :: t)
      cases hT : List.rdropWhile isspace ('#' :: t) with
      | nil =>
        rw [hT] at hX
        simp only [List.nil_append] at hX
        have := hws '#' (by rw [← hX]; exact List.mem_cons_self _ _)
        revert this
        decide
      | cons a T =>
        rw [hT] at hX
        simp only [List.cons_append, List.cons.injEq] at hX
        rw [← hX.1]
        rfl
  unfold row_of_line parse_line line_step
  simp only [ht, or_true, if_true]

/-- The lines that the header step leaves are the lines of the file, but for a
first line that starts with `#`: they give the same rows. -/
theorem read_header_rows {F : Type} (nan : F) (stof : Str → Option F) (v0 : Row F) (i : Nat)
    {lines body : List Str} {mh : MetaHeader}
    (h : read_header_if_any lines = some (mh, body)) :
    body.filterMap (row_of_line nan stof v0 i) = lines.filterMap (row_of_line nan stof v0 i) := by
  unfold read_header_if_any at h
  cases lines with
  | nil =>
    simp only [Option.some.injEq, Prod.mk.injEq] at h
    rw [← h.2]
  | cons line rest =>
    simp only [] at h
    by_cases hh : line.head? = some '#'
    · rw [if_pos hh] at h
      have hb : body = rest := by
        cases hs : reh_search line with
        | none =>
          rw [hs] at h
          simp only [Option.some.injEq, Prod.mk.injEq] at h
          exact h.2.symm
        | some g =>
          obtain ⟨g1, g2⟩ := g
          rw [hs] at h
          simp only [] at h
          cases hk : stoi g2 with
          | none => rw [hk] at h; cases h
          | some n =>
            rw [hk] at h
            simp only [Option.some.injEq, Prod.mk.injEq] at h
            exact h.2.symm
      rw [hb, List.filterMap_cons, row_of_line_comment nan stof v0 i line hh]
    · rw [if_neg hh] at h
      simp only [Option.some.injEq, Prod.mk.injEq] at h
      rw [← h.2]

/-- The rows that the loop over the files adds to the tree. -/
theorem file_loop_rows {F : Type} (w : World) (nan : F) (stof : Str → Option F) (v0 : Row F) :
    ∀ (files : List Str) (i : Nat) (v : Row F) (t t1 : Tables F),
      file_loop w nan stof i files v t = some t1 →
      t1.rows = t.rows ++ all_rows w nan stof v0 i files := by
  intro files
  induction files with
  | nil =>
    intro i v t t1 h
    simp only [file_loop, Option.some.injEq] at h
    subst h
    simp [all_rows]
  | cons f fs ih =>
    intro i v t t1 h
    simp only [file_loop] at h
    cases ho : w.open_file (c_str f) with
    | none =>
      rw [ho] at h
      simp only [] at h
      rw [ih _ _ _ _ h]
      simp [all_rows, file_rows, ho]
    | some lines =>
      rw [ho] at h
      simp only [] at h
      cases hh : read_header_if_any lines with
      | none => rw [hh] at h; cases h
      | some p =>
        obtain ⟨mh, body⟩ := p
        rw [hh] at h
        simp only [] at h
        cases hr : read_lines nan stof { v with file_id := (i : Int) } body with
        | none => rw [hr] at h; cases h
        | some q =>
          obtain ⟨v1, rs⟩ := q
          rw [hr] at h
          simp only [] at h
          obtain ⟨-, hrs⟩ := read_lines_rows nan stof v0 i body _ v1 rs rfl hr
          rw [ih _ _ _ _ h]
          have hrows : file_rows w nan stof v0 i f = rs := by
            unfold file_rows
            rw [ho, hrs]
            exact (read_header_rows nan stof v0 i hh).symm
          simp only [all_rows, hrows, List.append_assoc]
          split <;> rfl

theorem row_of_line_file_id {F : Type} {nan : F} {stof : Str → Option F} {v0 : Row F} {i : Nat}
    {line : Str} {r : Row F} (h : row_of_line nan stof v0 i line = some r) :
    r.file_id = (i : Int) := by
  unfold row_of_line at h
  cases hp : parse_line nan stof { v0 with file_id := (i : Int) } line with
  | skipped => rw [hp] at h; cases h
  | aborted => rw [hp] at h; cases h
  | row r1 =>
    rw [hp] at h
    simp only [Option.some.injEq] at h
    subst h
    obtain ⟨_, _, _, _, _, _, _, _, _, _, -, -, -, -, hr⟩ := parse_line_row hp
    rw [hr]

theorem file_rows_file_id {F : Type} (w : World) (nan : F) (stof : Str → Option F) (v0 : Row F)
    (i : Nat) (f : Str) : ∀ r ∈ file_rows w nan stof v0 i f, r.file_id = (i : Int) := by
  intro r hr
  unfold file_rows at hr
  cases ho : w.open_file (c_str f) with
  | none => rw [ho] at hr; cases hr
  | some lines =>
    rw [ho] at hr
    obtain ⟨l, -, hl⟩ := List.mem_filterMap.mp hr
    exact row_of_line_file_id hl

theorem all_rows_file_id {F : Type} (w : World) (nan : F) (stof : Str → Option F) (v0 : Row F) :
    ∀ (files : List Str) (i : Nat), ∀ r ∈ all_rows w nan stof v0 i files,
      (i : Int) ≤ r.file_id ∧ r.file_id < ((i + files.length : Nat) : Int) := by
  intro files
  induction files with
  | nil => intro i r hr; cases hr
  | cons f fs ih =>
    intro i r hr
    simp only [all_rows, List.mem_append] at hr
    simp only [List.length_cons]
    rcases hr with hr | hr
    · have := file_rows_file_id w nan stof v0 i f r hr
      omega
    · have := ih (i + 1) r hr
      omega

theorem all_rows_sorted {F : Type} (w : World) (nan : F) (stof : Str → Option F) (v0 : Row F) :
    ∀ (files : List Str) (i : Nat),
      (all_rows w nan stof v0 i files).Pairwise (fun a b => a.file_id ≤ b.file_id) := by
  intro files
  induction files with
  | nil => intro i; exact List.Pairwise.nil
  | cons f fs ih =>
    intro i
    simp only [all_rows]
    rw [List.pairwise_append]
    refine ⟨?_, ih (i + 1), ?_⟩
    · rw [List.pairwise_iff_forall_sublist]
      intro a b hab
      have ha := file_rows_file_id w nan stof v0 i f a (hab.subset (List.mem_cons_self _ _))
      have hb := file_rows_file_id w nan stof v0 i f b
        (hab.subset (List.mem_cons_of_mem _ (List.mem_cons_self _ _)))
      omega
    · intro a ha b hb
      have h1 := file_rows_file_id w nan stof v0 i f a ha
      have h2 := all_rows_file_id w nan stof v0 fs (i + 1) b hb
      omega

theorem all_rows_filter {F : Type} (w : World) (nan : F) (stof : Str → Option F) (v0 : Row F) :
    ∀ (files : List Str) (i k : Nat) (f : Str), files[k]? = some f →
      (all_rows w nan stof v0 i files).filter (fun r => decide (r.file_id = ((i + k : Nat) : Int)))
        = file_rows w nan stof v0 (i + k) f := by
  intro files
  induction files with
  | nil => intro i k f h; cases h
  | cons g gs ih =>
    intro i k f h
    simp only [all_rows, List.filter_append]
    cases k with
    | zero =>
      simp only [List.getElem?_cons_zero, Option.some.injEq] at h
      subst h
      have h1 : (file_rows w nan stof v0 i g).filter
          (fun r => decide (r.file_id = ((i + 0 : Nat) : Int))) = file_rows w nan stof v0 i g := by
        rw [List.filter_eq_self]
        intro r hr
        have := file_rows_file_id w nan stof v0 i g r hr
        simpa using this
      have h2 : (all_rows w nan stof v0 (i + 1) gs).filter
          (fun r => decide (r.file_id = ((i + 0 : Nat) : Int))) = [] := by
        rw [List.filter_eq_nil_iff]
        intro r hr
        have := (all_rows_file_id w nan stof v0 gs (i + 1) r hr).1
        simp only [decide_eq_true_eq]
        omega
      rw [h1, h2]
      simp
    | succ k =>
      simp only [List.getElem?_cons_succ] at h
      have h1 : (file_rows w nan stof v0 i g).filter
          (fun r => decide (r.file_id = ((i + (k + 1) : Nat) : Int))) = [] := by
        rw [List.filter_eq_nil_iff]
        intro r hr
        have := file_rows_file_id w nan stof v0 i g r hr
        simp only [decide_eq_true_eq]
        omega
      have e : i + (k + 1) = (i + 1) + k := by omega
      rw [h1, e, ih (i + 1) k f h]
      rfl

theorem all_rows_length {F : Type} (w : World) (nan : F) (stof : Str → Option F) (v0 : Row F) :
    ∀ (files : List Str) (i : Nat),
      (all_rows w nan stof v0 i files).length =
        ((files.enumFrom i).map (fun p => (file_rows w nan stof v0 p.1 p.2).length)).sum := by
  intro files
  induction files with
  | nil => intro i; rfl
  | cons f fs ih =>
    intro i
    simp only [all_rows, List.length_append, List.enumFrom_cons, List.map_cons, List.sum_cons]
    rw [ih (i + 1)]

/-- C20: when a run of `make_tuple` over the discovered files writes its
output, the rows of the tree are the rows of the parseable lines of the files,
file after file and, within a file, in the order of its lines.  So `file_id`
is in `0..N-1` for the `N` files and non-decreasing along the rows, the rows
that carry the index `k` are exactly the rows of the parseable lines of the
file number `k`, in the order of the lines, and the number of rows is the sum
of the numbers of rows of the files. -/
theorem C20_rows_by_file {F : Type} (w : World) (nan : F) (stof : Str → Option F) (v0 : Row F)
    (inputs outfile : Option Str) (outpath : Str) (t : Tables F)
    (hrun : make_tuple w nan stof v0 inputs outfile = .written outpath t) :
    t.rows = all_rows w nan stof v0 0 (input_files w.glob inputs) ∧
    (∀ r ∈ t.rows, 0 ≤ r.file_id ∧ r.file_id < ((input_files w.glob inputs).length : Int)) ∧
    t.rows.Pairwise (fun a b => a.file_id ≤ b.file_id) ∧
    (∀ (k : Nat) (f : Str), (input_files w.glob inputs)[k]? = some f →
      t.rows.filter (fun r => decide (r.file_id = (k : Int))) = file_rows w nan stof v0 k f) ∧
    t.rows.length =
      (((input_files w.glob inputs).enum).map
        (fun p => (file_rows w nan stof v0 p.1 p.2).length)).sum := by
  obtain ⟨-, hloop⟩ := make_tuple_written hrun
  have hrows : t.rows = all_rows w nan stof v0 0 (input_files w.glob inputs) := by
    have := file_loop_rows w nan stof v0 _ _ _ _ _ hloop
    simpa using this
  refine ⟨hrows, ?_, ?_, ?_, ?_⟩
  · intro r hr
    rw [hrows] at hr
    have := all_rows_file_id w nan stof v0 _ 0 r hr
    simp only [Nat.zero_add] at this
    exact ⟨by simpa using this.1, this.2⟩
  · rw [hrows]
    exact all_rows_sorted w nan stof v0 _ 0
  · intro k f hk
    rw [hrows]
    have := all_rows_filter w nan stof v0 _ 0 k f hk
    simpa using this
  · rw [hrows]
    exact all_rows_length w nan stof v0 _ 0

theorem C20_rows_by_file_witness :
    make_tuple Lit.world3 Lit.nan Lit.stof Lit.vars0 (some "a.TXT, b.TXT".toList) none
        = .written Lit.outpath Lit.tables3 ∧
    Lit.tables3.rows.length = 2 + 3 ∧
    Lit.tables3.rows =
        all_rows Lit.world3 Lit.nan Lit.stof Lit.vars0 0
          (input_files Lit.world3.glob (some "a.TXT, b.TXT".toList)) ∧
    (∀ r ∈ Lit.tables3.rows, 0 ≤ r.file_id ∧
      r.file_id < ((input_files Lit.world3.glob (some "a.TXT, b.TXT".toList)).length : Int)) ∧
    Lit.tables3.rows.Pairwise (fun a b => a.file_id ≤ b.file_id) ∧
    (∀ (k : Nat) (f : Str),
      (input_files Lit.world3.glob (some "a.TXT, b.TXT".toList))[k]? = some f →
      Lit.tables3.rows.filter (fun r => decide (r.file_id = (k : Int)))
        = file_rows Lit.world3 Lit.nan Lit.stof Lit.vars0 k f) ∧
    Lit.tables3.rows.length =
      (((input_files Lit.world3.glob (some "a.TXT, b.TXT".toList)).enum).map
        (fun p => (file_rows Lit.world3 Lit.nan Lit.stof Lit.vars0 p.1 p.2).length)).sum :=
  ⟨by decide, by decide,
    C20_rows_by_file Lit.world3 Lit.nan Lit.stof Lit.vars0 (some "a.TXT, b.TXT".toList) none
      Lit.outpath Lit.tables3 (by decide)⟩

end MakeTuple
namespace DrawRange

open MakeTuple

/-! ## C21: the packing `ymd` keeps the order of the dates -/

/-- An integer in the range of a 32-bit `int` is stored as it is. -/
theorem wrap32_of_range (n : Int) (h1 : -(2 ^ 31) ≤ n) (h2 : n < 2 ^ 31) : wrap32 n = n := by
  unfold wrap32
  omega

/-- Whenever the format gives six conversions, `parse_dt` returns the packed
date and the seconds of the day. -/
theorem parse_dt_of_fields (dt : Str) (Y M D h m s : Int)
    (hscan : sscanf_d fmt_dt (c_str dt) = [Y, M, D, h, m, s]) :
    parse_dt (some dt) =
      some (wrap32 (Y * 10000 + M * 100 + D), wrap32 (h * 3600 + m * 60 + s)) := by
  have hne : c_str dt ≠ [] := by
    intro hc
    have e : sscanf_d fmt_dt [] = [] := by decide
    rw [hc, e] at hscan
    cases hscan
  unfold parse_dt
  simp only [if_neg hne, hscan]

/-- The packing `Y*10000 + M*100 + D` keeps the order of the dates with a month
in 1..12 and a day in 1..31. -/
theorem pack_lt_iff (Y1 M1 D1 Y2 M2 D2 : Int)
    (hM1 : 1 ≤ M1 ∧ M1 ≤ 12) (hD1 : 1 ≤ D1 ∧ D1 ≤ 31)
    (hM2 : 1 ≤ M2 ∧ M2 ≤ 12) (hD2 : 1 ≤ D2 ∧ D2 ≤ 31) :
    (Y1 * 10000 + M1 * 100 + D1 < Y2 * 10000 + M2 * 100 + D2 ↔
      toLex (Y1, toLex (M1, D1)) < toLex (Y2, toLex (M2, D2))) ∧
    (Y1 * 10000 + M1 * 100 + D1 = Y2 * 10000 + M2 * 100 + D2 →
      Y1 = Y2 ∧ M1 = M2 ∧ D1 = D2) := by
  simp only [Prod.Lex.lt_iff]
  constructor
  · constructor
    · intro h
      omega
    · intro h
      omega
  · intro h
    omega

/-- C21: the packing `ymd = year*10000 + month*100 + day` keeps the order of
the dates whose month is in 1..12 and whose day is in 1..31.  For two rows, the
alias `ymd` of the first is less than that of the second exactly when
`(year, month, day)` of the first is lexicographically less, and the two are
equal only for equal dates.  The same holds of the `ymd` that `parse_dt`
returns for two timestamps, when the `int` arithmetic does not overflow. -/
theorem C21_ymd_order :
    (∀ {F : Type} (r1 r2 : Row F),
      (1 ≤ r1.month ∧ r1.month ≤ 12) → (1 ≤ r1.day ∧ r1.day ≤ 31) →
      (1 ≤ r2.month ∧ r2.month ≤ 12) → (1 ≤ r2.day ∧ r2.day ≤ 31) →
      (ymd r1 < ymd r2 ↔
        toLex (r1.year, toLex (r1.month, r1.day)) < toLex (r2.year, toLex (r2.month, r2.day))) ∧
      (ymd r1 = ymd r2 → r1.year = r2.year ∧ r1.month = r2.month ∧ r1.day = r2.day)) ∧
    (∀ (dt1 dt2 : Str) (Y1 M1 D1 h1 m1 s1 Y2 M2 D2 h2 m2 s2 : Int),
      sscanf_d fmt_dt (c_str dt1) = [Y1, M1, D1, h1, m1, s1] →
      sscanf_d fmt_dt (c_str dt2) = [Y2, M2, D2, h2, m2, s2] →
      (1 ≤ M1 ∧ M1 ≤ 12) → (1 ≤ D1 ∧ D1 ≤ 31) →
      (1 ≤ M2 ∧ M2 ≤ 12) → (1 ≤ D2 ∧ D2 ≤ 31) →
      (-(2 ^ 31) ≤ Y1 * 10000 ∧ Y1 * 10000 + M1 * 100 + D1 < 2 ^ 31) →
      (-(2 ^ 31) ≤ Y2 * 10000 ∧ Y2 * 10000 + M2 * 100 + D2 < 2 ^ 31) →
      ∃ p1 p2, parse_dt (some dt1) = some p1 ∧ parse_dt (some dt2) = some p2 ∧
        (p1.1 < p2.1 ↔ toLex (Y1, toLex (M1, D1)) < toLex (Y2, toLex (M2, D2))) ∧
        (p1.1 = p2.1 → Y1 = Y2 ∧ M1 = M2 ∧ D1 = D2)) := by
  constructor
  · intro F r1 r2 hM1 hD1 hM2 hD2
    simp only [Prod.Lex.lt_iff]
    unfold ymd
    constructor
    · constructor
      · intro h
        omega
      · intro h
        omega
    · intro h
      omega
  · intro dt1 dt2 Y1 M1 D1 h1 m1 s1 Y2 M2 D2 h2 m2 s2 hs1 hs2 hM1 hD1 hM2 hD2 ho1 ho2
    refine ⟨_, _, parse_dt_of_fields dt1 Y1 M1 D1 h1 m1 s1 hs1,
      parse_dt_of_fields dt2 Y2 M2 D2 h2 m2 s2 hs2, ?_⟩
    simp only []
    rw [wrap32_of_range _ (by omega) (by omega), wrap32_of_range _ (by omega) (by omega)]
    exact pack_lt_iff Y1 M1 D1 Y2 M2 D2 hM1 hD1 hM2 hD2

theorem C21_ymd_order_witness :
    ((ymd (⟨2025, 8, 31, 0, 0, 0, 0, 0, []⟩ : Row Lit) <
          ymd (⟨2025, 9, 1, 0, 0, 0, 0, 0, []⟩ : Row Lit) ↔
        toLex (2025, toLex (8, 31)) < toLex (2025, toLex (9, 1))) ∧
      (ymd (⟨2025, 8, 31, 0, 0, 0, 0, 0, []⟩ : Row Lit) =
          ymd (⟨2025, 9, 1, 0, 0, 0, 0, 0, []⟩ : Row Lit) →
        (2025 : Nat) = 2025 ∧ (8 : Nat) = 9 ∧ (31 : Nat) = 1)) ∧
    ymd (⟨2025, 8, 31, 0, 0, 0, 0, 0, []⟩ : Row Lit) = 20250831 ∧
    ymd (⟨2025, 9, 1, 0, 0, 0, 0, 0, []⟩ : Row Lit) = 20250901 ∧
    (∃ p1 p2, parse_dt (some "2025-08-19 15:22:22".toList) = some p1 ∧
      parse_dt (some "2025-08-20 07:59:22".toList) = some p2 ∧
      (p1.1 < p2.1 ↔
        toLex ((2025 : Int), toLex ((8 : Int), (19 : Int))) <
          toLex ((2025 : Int), toLex ((8 : Int), (20 : Int)))) ∧
      (p1.1 = p2.1 → (2025 : Int) = 2025 ∧ (8 : Int) = 8 ∧ (19 : Int) = 20)) :=
  ⟨C21_ymd_order.1 (⟨2025, 8, 31, 0, 0, 0, 0, 0, []⟩ : Row Lit)
      (⟨2025, 9, 1, 0, 0, 0, 0, 0, []⟩ : Row Lit)
      (by decide) (by decide) (by decide) (by decide),
    by decide, by decide,
    C21_ymd_order.2 "2025-08-19 15:22:22".toList "2025-08-20 07:59:22".toList
      2025 8 19 15 22 22 2025 8 20 7 59 22 (by decide) (by decide)
      (by decide) (by decide) (by decide) (by decide) (by decide) (by decide)⟩

end DrawRange
namespace MakeTuple

/-! ## C22: the header step and the rows of a file -/

/-- The line loop ends when no line makes the parser throw. -/
theorem read_lines_returns {F : Type} (nan : F) (stof : Str → Option F) :
    ∀ (lines : List Str) (v : Row F),
      (∀ l ∈ lines, parse_line nan stof v l ≠ .aborted) →
      ∃ v1 rs, read_lines nan stof v lines = some (v1, rs) := by
  intro lines
  induction lines with
  | nil => intro v _; exact ⟨v, [], rfl⟩
  | cons l ls ih =>
    intro v h
    have hl := h l (List.mem_cons_self _ _)
    have hnext : ∀ v2 : Row F, v2.file_id = v.file_id →
        ∀ l2 ∈ ls, parse_line nan stof v2 l2 ≠ .aborted := by
      intro v2 hv2 l2 hl2
      rw [parse_line_file_id nan stof v2 v l2 hv2]
      exact h l2 (List.mem_cons_of_mem _ hl2)
    simp only [read_lines]
    cases hs : line_step nan stof v l with
    | throw =>
      exfalso
      apply hl
      unfold parse_line
      rw [hs]
    | skip v2 =>
      simp only []
      exact ih v2 (hnext v2 (line_step_file_id nan stof v v2 l (Or.inl hs)))
    | fill v2 =>
      simp only []
      obtain ⟨v1, rs, hr⟩ := ih v2 (hnext v2 (line_step_file_id nan stof v v2 l (Or.inr hs)))
      rw [hr]
      exact ⟨v1, v2 :: rs, rfl⟩

/-- The lines that the header step leaves are lines of the file. -/
theorem read_header_body_subset {lines body : List Str} {mh : MetaHeader}
    (h : read_header_if_any lines = some (mh, body)) : ∀ l ∈ body, l ∈ lines := by
  unfold read_header_if_any at h
  cases lines with
  | nil =>
    simp only [Option.some.injEq, Prod.mk.injEq] at h
    rw [← h.2]
    intro l hl
    exact hl
  | cons line rest =>
    simp only [] at h
    by_cases hh : line.head? = some '#'
    · rw [if_pos hh] at h
      have hb : body = rest := by
        cases hs : reh_search line with
        | none =>
          rw [hs] at h
          simp only [Option.some.injEq, Prod.mk.injEq] at h
          exact h.2.symm
        | some g =>
          obtain ⟨g1, g2⟩ := g
          rw [hs] at h
          simp only [] at h
          cases hk : stoi g2 with
          | none => rw [hk] at h; cases h
          | some n =>
            rw [hk] at h
            simp only [Option.some.injEq, Prod.mk.injEq] at h
            exact h.2.symm
      rw [hb]
      intro l hl
      exact List.mem_cons_of_mem _ hl
    · rw [if_neg hh] at h
      simp only [Option.some.injEq, Prod.mk.injEq] at h
      rw [← h.2]
      intro l hl
      exact hl

/-- Whenever the header step returns and no line of the file makes the line
parser throw, the line loop that follows the header step fills the rows of all
the lines of the file, the first included. -/
theorem header_step_rows {F : Type} (nan : F) (stof : Str → Option F) (v0 v : Row F) (i : Nat)
    {lines body : List Str} {mh : MetaHeader}
    (hv : v.file_id = (i : Int))
    (hh : read_header_if_any lines = some (mh, body))
    (hl : ∀ l ∈ lines, parse_line nan stof v l ≠ .aborted) :
    ∃ v1, read_lines nan stof v body =
      some (v1, lines.filterMap (row_of_line nan stof v0 i)) := by
  obtain ⟨v1, rs, hr⟩ := read_lines_returns nan stof body v
    (fun l hb => hl l (read_header_body_subset hh l hb))
  obtain ⟨-, hrs⟩ := read_lines_rows nan stof v0 i body v v1 rs hv hr
  refine ⟨v1, ?_⟩
  rw [hr, hrs, read_header_rows nan stof v0 i hh]

/-- C22: the file `hdr.TXT` of the world `Lit.world2` holds the first line
`# Inicio: 2025-08-19 15:22:22 ; Duracion: 99999999999` and a data line.  The
line parser skips the first line as a comment and gives a row for the second,
so the rows of all the lines of the file are one row.  The header step does
not return on the first line, `std::stoi` throwing on the duration: the file
loop emits no row for the file and the run of `make_tuple` ends without
output. -/
theorem C22_header_step_drops_rows :
    Lit.world2.open_file "hdr.TXT".toList =
        some ["# Inicio: 2025-08-19 15:22:22 ; Duracion: 99999999999".toList,
          "2025-08-19,15:22:22, S1: 20.5".toList] ∧
      parse_line Lit.nan Lit.stof Lit.vars0
          "# Inicio: 2025-08-19 15:22:22 ; Duracion: 99999999999".toList = .skipped ∧
      file_rows Lit.world2 Lit.nan Lit.stof Lit.vars0 0 "hdr.TXT".toList =
        [⟨2025, 8, 19, 15, 22, 22, 55342, 0,
          Lit.val "20.5".toList :: List.replicate 18 Lit.nan⟩] ∧
      read_header_if_any ["# Inicio: 2025-08-19 15:22:22 ; Duracion: 99999999999".toList,
          "2025-08-19,15:22:22, S1: 20.5".toList] = none ∧
      file_loop Lit.world2 Lit.nan Lit.stof 0 ["hdr.TXT".toList] Lit.vars0 {} = none ∧
      make_tuple Lit.world2 Lit.nan Lit.stof Lit.vars0 (some "hdr.TXT".toList) none
        = Run.aborted := by
  decide

end MakeTuple

namespace MakeTuple

/-! ## C4: one more trailing `.` or `,` -/

theorem find_char_of_not_mem (x : Char) (s : Str) (h : x ∉ s) : find_char x s = none := by
  have := find_char_append_of_not x [] s (fun c hc e => h (e ▸ hc))
  simpa [find_char] using this

/-- A text has no comma, or one comma, or a first and a second comma. -/
theorem comma_shape (s : Str) :
    ',' ∉ s ∨ (∃ D Tm, s = D ++ ',' :: Tm ∧ ',' ∉ D ∧ ',' ∉ Tm) ∨
      ∃ D Tm R, s = D ++ ',' :: (Tm ++ ',' :: R) ∧ ',' ∉ D ∧ ',' ∉ Tm := by
  cases h1 : find_char ',' s with
  | none => exact Or.inl (find_char_none ',' s h1)
  | some k =>
    obtain ⟨hs, hD⟩ := find_char_some ',' s k h1
    right
    cases h2 : find_char ',' (s.drop (k + 1)) with
    | none => exact Or.inl ⟨_, _, hs, hD, find_char_none ',' _ h2⟩
    | some j =>
      obtain ⟨hs2, hTm⟩ := find_char_some ',' _ j h2
      refine Or.inr ⟨s.take k, (s.drop (k + 1)).take j, (s.drop (k + 1)).drop (j + 1), ?_, hD, hTm⟩
      rw [← hs2]
      exact hs

theorem split_fields_no_comma (s : Str) (h : ',' ∉ s) : split_fields s = none := by
  unfold split_fields str_find
  rw [List.drop_zero, find_char_of_not_mem ',' s h]
  rfl

theorem split_fields_one_comma (D R : Str) (hD : ',' ∉ D) (hR : ',' ∉ R) :
    split_fields (D ++ ',' :: R) = none := by
  have h1 : str_find (D ++ ',' :: R) ',' 0 = some D.length := by
    unfold str_find
    rw [List.drop_zero, find_char_append_self ',' D _ hD]
    rfl
  have hdrop : List.drop (D.length + 1) (D ++ ',' :: R) = R := by
    have : D ++ ',' :: R = (D ++ [',']) ++ R := by simp
    rw [this]
    exact List.drop_left' (by simp)
  have h2 : str_find (D ++ ',' :: R) ',' (D.length + 1) = none := by
    unfold str_find
    rw [hdrop, find_char_of_not_mem ',' R hR]
    rfl
  unfold split_fields
  rw [h1]
  simp only []
  rw [h2]

/-- The line `L` followed by `.` and the line `L` followed by `,` have the same
outcome. -/
theorem parse_line_dot_comma {F : Type} (nan : F) (stof : Str → Option F) (v : Row F) (L : Str) :
    parse_line nan stof v (L ++ ['.']) = parse_line nan stof v (L ++ [',']) := by
  rw [parse_line_eq, parse_line_eq, line_fields_concat L '.' (Or.inl rfl),
    line_fields_concat L ',' (Or.inr rfl)]

/-- A line whose last non-blank character is not `,` has the outcome of the
line followed by `.`. -/
theorem parse_line_plain {F : Type} (nan : F) (stof : Str → Option F) (v : Row F) (L : Str)
    (h : (trim_copy L).getLast? ≠ some ',') :
    parse_line nan stof v L = parse_line nan stof v (L ++ ['.']) := by
  obtain ⟨m, hnd, hhd, e⟩ := line_fields_plain L h
  rw [parse_line_eq, parse_line_eq, line_fields_concat L '.' (Or.inl rfl), e]
  cases line_fields L with
  | none => rfl
  | some f =>
    obtain ⟨date, time, rest⟩ := f
    simp only [Option.map_some']
    exact (fields_outcome_append_tail nan stof v.file_id date time rest m hnd hhd).symm

/-- The outcome of a date field and a time field with a blank payload: a row
whose sensors are all NaN when both fields parse, a skip otherwise. -/
theorem fields_outcome_blank {F : Type} (nan : F) (stof : Str → Option F) (fid : Int)
    (date time ws : Str) (hws : ∀ c ∈ ws, isspace c = true) :
    ((sscanf_u3 '-' date).length = 3 ∧ (sscanf_u3 ':' time).length = 3 →
      ∃ r, fields_outcome nan stof fid date time ws = .row r ∧
        r.S = List.replicate NSENS nan) ∧
    (¬ ((sscanf_u3 '-' date).length = 3 ∧ (sscanf_u3 ':' time).length = 3) →
      fields_outcome nan stof fid date time ws = .skipped) := by
  constructor
  · rintro ⟨hd, ht⟩
    obtain ⟨y, mo, d, hd3⟩ := list_length_three _ hd
    obtain ⟨hh, mi, s, ht3⟩ := list_length_three _ ht
    have hm : reS_matches ws = [] :=
      reS_matches_no_digit ws (fun c hc => isspace_not_digit (hws c hc))
    refine ⟨⟨y, mo, d, hh, mi, s, (hh * 3600 + mi * 60 + s) % 2 ^ 32, fid,
      List.replicate NSENS nan⟩, ?_, rfl⟩
    simp only [fields_outcome, hd3, ht3, hm, assign_sensors]
  · intro h
    by_cases hd : (sscanf_u3 '-' date).length = 3
    · exact fields_outcome_skip_time nan stof fid date time ws (fun ht => h ⟨hd, ht⟩)
    · exact fields_outcome_skip_date nan stof fid date time ws hd

/-- The two ways in which a line `L` and the line `L` followed by `.` can
relate: the same outcome, when `L` is not of the shape `date,time,`; a skip for
`L` and a row of NaN for `L` followed by `.`, when it is. -/
theorem parse_line_concat_cases {F : Type} (nan : F) (stof : Str → Option F) (v : Row F)
    (L : Str) :
    (ends_after_time L = false ∧
      parse_line nan stof v L = parse_line nan stof v (L ++ ['.'])) ∨
    (ends_after_time L = true ∧ parse_line nan stof v L = .skipped ∧
      ∃ r, parse_line nan stof v (L ++ ['.']) = .row r ∧ r.S = List.replicate NSENS nan) := by
  by_cases hlast : (trim_copy L).getLast? = some ','
  swap
  · left
    refine ⟨?_, parse_line_plain nan stof v L hlast⟩
    unfold ends_after_time
    split
    · simp [hlast]
    · rfl
  obtain ⟨T1, hT1⟩ : ∃ T1, trim_copy L = T1 ++ [','] := by
    rcases List.eq_nil_or_concat (trim_copy L) with hnil | ⟨T1, x, hx⟩
    · rw [hnil] at hlast; cases hlast
    · rw [List.concat_eq_append] at hx
      rw [hx, List.getLast?_concat] at hlast
      simp only [Option.some.injEq] at hlast
      exact ⟨T1, by rw [hx, hlast]⟩
  obtain ⟨ws, hX, hws⟩ := rdropWhile_split isspace (L.dropWhile isspace)
  have hX2 : L.dropWhile isspace = T1 ++ ',' :: ws := by
    have hT : trim_copy L = (L.dropWhile isspace).rdropWhile isspace := rfl
    rw [← hT, hT1] at hX
    rw [hX]
    simp
  have hwsc : ∀ c ∈ ws, c ≠ ',' := fun c hc => (isspace_not_special (hws c hc)).2.2.2.2.2.1
  have hstrip : strip_trailing (T1 ++ [',']) = T1 := by
    unfold strip_trailing
    rw [if_pos (by simp)]
    simp
  have hhead : (T1 ++ ',' :: ws).head? = (T1 ++ [',']).head? := by cases T1 <;> rfl
  have hL : line_fields L =
      if (T1 ++ [',']).head? = some '#' then none else split_fields T1 := by
    unfold line_fields
    rw [hT1, hstrip]
    simp
  have hLd : line_fields (L ++ ['.']) =
      if (T1 ++ [',']).head? = some '#' then none else split_fields (T1 ++ ',' :: ws) := by
    rw [line_fields_concat L '.' (Or.inl rfl), hX2, hhead]
  have hE : ends_after_time L =
      match split_fields (T1 ++ [',']) with
      | some (date, time, rest) =>
        decide ((T1 ++ [',']).head? ≠ some '#') && decide (rest = []) &&
          decide ((sscanf_u3 '-' date).length = 3) && decide ((sscanf_u3 ':' time).length = 3)
      | none => false := by
    unfold ends_after_time
    rw [hT1]
    cases split_fields (T1 ++ [',']) with
    | none => rfl
    | some f =>
      obtain ⟨date, time, rest⟩ := f
      simp
  rw [parse_line_eq, parse_line_eq, hL, hLd, hE]
  by_cases hh : (T1 ++ [',']).head? = some '#'
  · left
    simp only [hh, if_true, and_true]
    split
    · simp
    · rfl
  · simp only [hh, if_false]
    rcases comma_shape T1 with h0 | ⟨D, Tm, rfl, hD, hTm⟩ | ⟨D, Tm, R, rfl, hD, hTm⟩
    · left
      rw [split_fields_no_comma T1 h0, split_fields_one_comma T1 ws h0 (fun h => hwsc _ h rfl),
        split_fields_one_comma T1 [] h0 (by simp)]
      exact ⟨rfl, rfl⟩
    · have e1 : (D ++ ',' :: Tm) ++ ',' :: ws = D ++ ',' :: (Tm ++ ',' :: ws) := by simp
      have e2 : (D ++ ',' :: Tm) ++ [','] = D ++ ',' :: (Tm ++ ',' :: []) := by simp
      rw [split_fields_one_comma D Tm hD hTm, e1, split_fields_of_parts D Tm ws hD hTm]
      have e3 : split_fields ((D ++ ',' :: Tm) ++ [',']) = some (trim_copy D, trim_copy Tm, []) := by
        rw [e2]
        exact split_fields_of_parts D Tm [] hD hTm
      rw [e3]
      simp only []
      obtain ⟨hrow, hskip⟩ := fields_outcome_blank nan stof v.file_id (trim_copy D) (trim_copy Tm)
        ws hws
      by_cases hp : (sscanf_u3 '-' (trim_copy D)).length = 3 ∧
          (sscanf_u3 ':' (trim_copy Tm)).length = 3
      · right
        refine ⟨?_, trivial, hrow hp⟩
        rw [decide_eq_true hh, decide_eq_true hp.1, decide_eq_true hp.2]
        rfl
      · left
        refine ⟨?_, (hskip hp).symm⟩
        simp only [not_and_or] at hp
        rcases hp with hp | hp <;> simp [hp]
    · left
      have e1 : (D ++ ',' :: (Tm ++ ',' :: R)) ++ ',' :: ws =
          D ++ ',' :: (Tm ++ ',' :: (R ++ ',' :: ws)) := by simp
      have e2 : (D ++ ',' :: (Tm ++ ',' :: R)) ++ [','] =
          D ++ ',' :: (Tm ++ ',' :: (R ++ [','])) := by simp
      rw [e1, e2, split_fields_of_parts D Tm R hD hTm, split_fields_of_parts D Tm _ hD hTm,
        split_fields_of_parts D Tm _ hD hTm]
      simp only []
      refine ⟨by simp, ?_⟩
      refine (fields_outcome_append_tail nan stof v.file_id _ _ R (',' :: ws) ?_ ?_).symm
      · intro c hc
        rcases List.mem_cons.mp hc with rfl | hc
        · decide
        · exact isspace_not_digit (hws c hc)
      · intro c hc
        simp only [List.head?_cons, Option.some.injEq] at hc
        subst hc
        decide

/-- C4 (amended): for every line `L`, the line parser gives the same outcome
(the same row, a skip, or an abort) for `L` followed by `.` and for `L`
followed by `,`; it gives that outcome for `L` itself too, unless `L`, trimmed,
is a date field and a time field that both parse followed by a comma and
nothing else (`date,time,`): such a line is skipped, one comma being left once
the trailing one is stripped, while the line followed by `.` or `,` gives a row
whose sensors are all NaN. -/
theorem C4_trailing_dot_or_comma {F : Type} (nan : F) (stof : Str → Option F) (v : Row F)
    (L : Str) :
    parse_line nan stof v (L ++ ['.']) = parse_line nan stof v (L ++ [',']) ∧
    (ends_after_time L = false →
      parse_line nan stof v L = parse_line nan stof v (L ++ ['.'])) ∧
    (ends_after_time L = true →
      parse_line nan stof v L = .skipped ∧
      ∃ r, parse_line nan stof v (L ++ ['.']) = .row r ∧ r.S = List.replicate NSENS nan) := by
  refine ⟨parse_line_dot_comma nan stof v L, ?_, ?_⟩
  · intro h
    rcases parse_line_concat_cases nan stof v L with ⟨-, h1⟩ | ⟨h2, -⟩
    · exact h1
    · rw [h] at h2; cases h2
  · intro h
    rcases parse_line_concat_cases nan stof v L with ⟨h1, -⟩ | ⟨-, h2⟩
    · rw [h] at h1; cases h1
    · exact h2

theorem C4_trailing_dot_or_comma_witness :
    (parse_line Lit.nan Lit.stof Lit.vars0 "2025-08-20,07:00:00, S19: -1.25,".toList
        = parse_line Lit.nan Lit.stof Lit.vars0
            ("2025-08-20,07:00:00, S19: -1.25,".toList ++ ['.'])) ∧
      parse_line Lit.nan Lit.stof Lit.vars0 "2025-08-20,07:00:00, S19: -1.25,".toList
        = .row ⟨2025, 8, 20, 7, 0, 0, 25200, 0,
            List.replicate 18 Lit.nan ++ [Lit.val "-1.25".toList]⟩ ∧
      (parse_line Lit.nan Lit.stof Lit.vars0 "2025-08-19,15:22:22,".toList = .skipped ∧
        ∃ r, parse_line Lit.nan Lit.stof Lit.vars0 ("2025-08-19,15:22:22,".toList ++ ['.'])
            = .row r ∧ r.S = List.replicate NSENS Lit.nan) :=
  ⟨(C4_trailing_dot_or_comma Lit.nan Lit.stof Lit.vars0
      "2025-08-20,07:00:00, S19: -1.25,".toList).2.1 (by decide),
    by decide,
    (C4_trailing_dot_or_comma Lit.nan Lit.stof Lit.vars0
      "2025-08-19,15:22:22,".toList).2.2 (by decide)⟩

end MakeTuple
